import Mathlib

/-!
# WinKilo: a shallow embedding of `winkilo.c`

The editor state of `winkilo.c` is embedded as pure data: a line is a record of
byte lists, the document is a list of lines, and every C function becomes a
function on these records.  Bytes are natural numbers below 256, C strings are
lists of bytes without their terminating NUL, and `int` quantities are integers.
-/

namespace WinKilo

/-! ## Defines -/

/-- The bytes of a C string literal (terminating NUL not included). -/
def cstr (s : String) : List Nat := s.toList.map Char.toNat

/-- Tab width, `#define KILO_TAB_STOP 4`. -/
def KILO_TAB_STOP : Nat := 4

/-- Number of extra confirmations, `#define KILO_QUIT_TIMES 3`. -/
def KILO_QUIT_TIMES : Int := 3

/-- The macro `CTRL_KEY(k)`, that is `k & 0x1f`, on a character code. -/
def CTRL_KEY (k : Nat) : Int := ((k % 32 : Nat) : Int)

/-! `enum EditorKey` -/

def BACKSPACE : Int := 127
def ARROW_LEFT : Int := 1000
def ARROW_RIGHT : Int := 1001
def ARROW_UP : Int := 1002
def ARROW_DOWN : Int := 1003
def DEL_KEY : Int := 1004
def HOME_KEY : Int := 1005
def END_KEY : Int := 1006
def PAGE_UP : Int := 1007
def PAGE_DOWN : Int := 1008

/-! `enum EditorHighlight` -/

def HL_NORMAL : Nat := 0
def HL_COMMENT : Nat := 1
def HL_MLCOMMENT : Nat := 2
def HL_KEYWORD1 : Nat := 3
def HL_KEYWORD2 : Nat := 4
def HL_STRING : Nat := 5
def HL_NUMBER : Nat := 6
def HL_MATCH : Nat := 7

def HL_HIGHLIGHT_NUMBERS : Nat := 1
def HL_HIGHLIGHT_STRINGS : Nat := 2

/-! ## Data -/

/-- The record `struct EditorSyntax`.  The three comment markers are C strings;
the single-line marker may be `NULL`, which the highlighter tests for. -/
structure EditorSyntax where
  filetype : List Nat
  filematch : List (List Nat)
  keywords : List (List Nat)
  singleline_comment_start : Option (List Nat)
  multiline_comment_start : List Nat
  multiline_comment_end : List Nat
  flags : Nat
deriving DecidableEq, Repr

/-- The record `line_t`.  The fields `size` and `rsize` of the C struct are the
lengths of `bytes` and `render`; `hl_open_comment` only ever holds 0 or 1. -/
structure line_t where
  idx : Int
  bytes : List Nat
  render : List Nat
  hl : List Nat
  hl_open_comment : Bool
deriving DecidableEq, Repr

/-- Field `size` of `line_t`. -/
def line_t.size (l : line_t) : Nat := l.bytes.length

/-- Field `rsize` of `line_t`. -/
def line_t.rsize (l : line_t) : Nat := l.render.length

/-- Modelled from the spec: the platform type `COORD` is declared by the console
header, which is not part of the repository; the spec describes cursor and
scroll offset as plain integer positions, so both fields are integers. -/
structure COORD where
  X : Int
  Y : Int
deriving DecidableEq, Repr

/-- The record `struct EditorConfig` together with the function-local statics of
`HandleKeyPress` (`quit_times`) and of `EditorFindCallback` (`last_match`,
`direction`, `saved_hl_line`, `saved_hl`).  The array `E.line` with its count
`E.linesnum` is one list; console handles, modes, the status message and its
time stamp are output-only and are left out. -/
structure EditorConfig where
  bufSize : COORD
  cursor : COORD
  offset : COORD
  rx : Int
  line : List line_t
  dirty : Int
  filename : Option (List Nat)
  syntax_ : Option EditorSyntax
  quit_times : Int
  last_match : Int
  direction : Int
  saved_hl_line : Int
  saved_hl : Option (List Nat)
deriving DecidableEq, Repr

/-- Field `linesnum` of `struct EditorConfig`. -/
def EditorConfig.linesnum (E : EditorConfig) : Nat := E.line.length

/-! Comparisons of an `int` with a `size_t`: the `int` is converted to unsigned,
so a negative value compares as larger than every size. -/

/-- `(size_t)x < n`. -/
def size_lt (x : Int) (n : Nat) : Bool := decide (0 ≤ x) && decide (x < (n : Int))

/-- `(size_t)x > n`. -/
def size_gt (x : Int) (n : Nat) : Bool := decide (x < 0) || decide ((n : Int) < x)

/-- `(size_t)x == n`. -/
def size_eq (x : Int) (n : Nat) : Bool := decide (x = (n : Int))

/-! ## Filetypes -/

def C_HL_extensions : List (List Nat) := [cstr ".c", cstr ".h", cstr ".cpp"]

def C_HL_keywords : List (List Nat) :=
  [cstr "switch", cstr "if", cstr "while", cstr "for", cstr "break", cstr "continue",
   cstr "return", cstr "else", cstr "struct", cstr "union", cstr "typedef", cstr "static",
   cstr "enum", cstr "class", cstr "case",
   cstr "int|", cstr "long|", cstr "double|", cstr "float|", cstr "char|", cstr "unsigned|",
   cstr "signed|", cstr "void|"]

/-- The table `HLDB`: its only entry is the C profile. -/
def HLDB : List EditorSyntax :=
  [{ filetype := cstr "c"
     filematch := C_HL_extensions
     keywords := C_HL_keywords
     singleline_comment_start := some (cstr "//")
     multiline_comment_start := cstr "/*"
     multiline_comment_end := cstr "*/"
     flags := HL_HIGHLIGHT_NUMBERS + HL_HIGHLIGHT_STRINGS }]

/-- The C profile, `HLDB[0]`. -/
def cProfile : EditorSyntax := HLDB.headD ⟨[], [], [], none, [], [], 0⟩

/-! ## Syntax highlighting -/

/-- The libc predicate `isspace` in the C locale. -/
def isspace (c : Nat) : Bool := c == 32 || (decide (9 ≤ c) && decide (c ≤ 13))

/-- The libc predicate `isdigit`. -/
def isdigit (c : Nat) : Bool := decide (48 ≤ c) && decide (c ≤ 57)

/-- The libc predicate `iscntrl` in the C locale. -/
def iscntrl (c : Nat) : Bool := decide (c < 32) || c == 127

/-- The function `is_separator`: white space, NUL, or one of the punctuation
bytes of the fixed table searched with `strchr`. -/
def is_separator (c : Nat) : Bool :=
  isspace c || c == 0 || (cstr ",.()+-/*=~%<>[];").contains c

/-- The test `strncmp(a, b, n) == 0` on NUL-terminated strings given without their
terminator: the first `n` bytes agree, or both strings end together earlier. -/
def strncmp_eq : Nat → List Nat → List Nat → Bool
  | 0, _, _ => true
  | n + 1, a, b =>
    if a.headD 0 ≠ b.headD 0 then false
    else if a.headD 0 = 0 then true
    else strncmp_eq n a.tail b.tail

/-- The call `memset(&hl[i], v, n)`: entries `i .. i+n-1` become `v`. -/
def memset : List Nat → Nat → Nat → Nat → List Nat
  | [], _, _, _ => []
  | x :: xs, 0, _, 0 => x :: xs
  | _ :: xs, 0, v, n + 1 => v :: memset xs 0 v n
  | x :: xs, i + 1, v, n => x :: memset xs i v n

/-- The local variables of the column scan of `EditorUpdateSyntax`; `stop` records
that the `break` of the single-line comment branch was taken. -/
structure ScanState where
  i : Nat
  hl : List Nat
  prev_sep : Bool
  in_string : Nat
  in_comment : Bool
  stop : Bool
deriving DecidableEq, Repr

/-- The keyword loop `for (j = 0; keywords[j]; j++)`.  A match colours the keyword
and advances `i`; the loop has no `break`, so it always runs to the end of the
table and later keywords are tried at the advanced position. -/
def keywordLoop (render : List Nat) : List (List Nat) → Nat → List Nat → Nat × List Nat
  | [], i, hl => (i, hl)
  | kw :: kws, i, hl =>
    let kw2 : Bool := kw.getLast? == some 124
    let klen : Nat := if kw2 then kw.length - 1 else kw.length
    if strncmp_eq klen (render.drop i) kw && is_separator ((render.drop (i + klen)).headD 0) then
      keywordLoop render kws (i + klen)
        (memset hl i (if kw2 then HL_KEYWORD2 else HL_KEYWORD1) klen)
    else keywordLoop render kws i hl

/-- One iteration of `while (i < line->rsize)` in `EditorUpdateSyntax`. -/
def scanStep (syn : EditorSyntax) (render : List Nat) (st : ScanState) : ScanState :=
  let i := st.i
  let c := render.getD i 0
  let prev_hl := if i > 0 then st.hl.getD (i - 1) HL_NORMAL else HL_NORMAL
  let scs := syn.singleline_comment_start.getD []
  let mcs := syn.multiline_comment_start
  let mce := syn.multiline_comment_end
  let scs_len := scs.length
  let mcs_len := if syn.singleline_comment_start.isSome then mcs.length else 0
  let mce_len := if syn.singleline_comment_start.isSome then mce.length else 0
  if scs_len ≠ 0 ∧ st.in_string = 0 ∧ st.in_comment = false
      ∧ strncmp_eq scs_len (render.drop i) scs = true then
    { st with hl := memset st.hl i HL_COMMENT (render.length - i), stop := true }
  else if mcs_len ≠ 0 ∧ mce_len ≠ 0 ∧ st.in_string = 0 ∧ st.in_comment = true then
    if strncmp_eq mce_len (render.drop i) mce then
      { st with hl := memset (st.hl.set i HL_MLCOMMENT) i HL_MLCOMMENT mce_len
                i := i + mce_len, in_comment := false, prev_sep := true }
    else
      { st with hl := st.hl.set i HL_MLCOMMENT, i := i + 1 }
  else if mcs_len ≠ 0 ∧ mce_len ≠ 0 ∧ st.in_string = 0
      ∧ strncmp_eq mcs_len (render.drop i) mcs = true then
    { st with hl := memset st.hl i HL_MLCOMMENT mcs_len, i := i + mcs_len, in_comment := true }
  else if syn.flags / HL_HIGHLIGHT_STRINGS % 2 = 1 ∧ st.in_string ≠ 0 then
    if c = 92 ∧ i + 1 < render.length then
      { st with hl := (st.hl.set i HL_STRING).set (i + 1) HL_STRING, i := i + 2 }
    else
      { st with hl := st.hl.set i HL_STRING
                in_string := if c = st.in_string then 0 else st.in_string
                i := i + 1, prev_sep := true }
  else if syn.flags / HL_HIGHLIGHT_STRINGS % 2 = 1 ∧ (c = 34 ∨ c = 39) then
    { st with in_string := c, hl := st.hl.set i HL_STRING, i := i + 1 }
  else if syn.flags / HL_HIGHLIGHT_NUMBERS % 2 = 1
      ∧ ((isdigit c = true ∧ (st.prev_sep = true ∨ prev_hl = HL_NUMBER))
          ∨ (c = 46 ∧ prev_hl = HL_NUMBER)) then
    { st with hl := st.hl.set i HL_NUMBER, i := i + 1, prev_sep := false }
  else
    let r := if st.prev_sep then keywordLoop render syn.keywords i st.hl else (i, st.hl)
    { st with i := r.1 + 1, hl := r.2, prev_sep := is_separator c }

/-- The loop `while (i < line->rsize)` of `EditorUpdateSyntax`, at most `fuel`
iterations. -/
def scanLoop (syn : EditorSyntax) (render : List Nat) : Nat → ScanState → ScanState
  | 0, st => st
  | fuel + 1, st =>
    if st.i < render.length ∧ st.stop = false then scanLoop syn render fuel (scanStep syn render st)
    else st

/-- The column scan of one line: the highlight array starts as all `HL_NORMAL` and
the loop runs from column 0 with the given initial comment state.  Every
iteration advances `i`, so `rsize` iterations are enough. -/
def scanLine (syn : EditorSyntax) (render : List Nat) (in_comment : Bool) : ScanState :=
  scanLoop syn render render.length
    ⟨0, List.replicate render.length HL_NORMAL, true, 0, in_comment, false⟩

/-- The function `EditorUpdateSyntax(&E.line[k])`, with `E.syntax`, `E.linesnum`
and the array `E.line` passed explicitly (`EditorInsertLine` calls it while the
array already holds the new line but `E.linesnum` is not yet incremented).
`fuel` bounds the chain of recursive calls on the following lines. -/
def EditorUpdateSyntax (syn : Option EditorSyntax) (linesnum : Nat) :
    Nat → List line_t → Nat → List line_t
  | 0, lines, _ => lines
  | fuel + 1, lines, k =>
    match lines[k]? with
    | none => lines
    | some line =>
      match syn with
      | none => lines.set k { line with hl := List.replicate line.rsize HL_NORMAL }
      | some s =>
        let in_comment : Bool :=
          decide (line.idx > 0) &&
            (match lines[(line.idx - 1).toNat]? with
             | some p => p.hl_open_comment
             | none => false)
        let st := scanLine s line.render in_comment
        let changed : Bool := line.hl_open_comment != st.in_comment
        let lines1 := lines.set k { line with hl := st.hl, hl_open_comment := st.in_comment }
        if changed && size_lt (line.idx + 1) linesnum then
          EditorUpdateSyntax syn linesnum fuel lines1 (line.idx + 1).toNat
        else lines1

/-! ## Line operations -/

/-- The loop of `EditorLineCxToRx` over the bytes `bytes[j]`, `j < cx`: the list
holds the bytes not yet visited, the counter the iterations left.  Past the
end of the line the loop meets the terminating NUL, which is no tab. -/
def cxToRxLoop : List Nat → Nat → Nat → Nat
  | _, 0, rx => rx
  | [], n + 1, rx => cxToRxLoop [] n (rx + 1)
  | b :: bs, n + 1, rx =>
    cxToRxLoop bs n ((if b = 9 then rx + ((KILO_TAB_STOP - 1) - rx % KILO_TAB_STOP) else rx) + 1)

/-- The function `EditorLineCxToRx`. -/
def EditorLineCxToRx (line : line_t) (cx : Int) : Int :=
  (cxToRxLoop line.bytes cx.toNat 0 : Nat)

/-- The loop of `EditorLineRxToCx`: the list holds the bytes from `cx` on. -/
def rxToCxLoop (rx : Int) : List Nat → Nat → Nat → Nat
  | [], cx, _ => cx
  | b :: bs, cx, cur_rx =>
    let cur := (if b = 9 then cur_rx + ((KILO_TAB_STOP - 1) - cur_rx % KILO_TAB_STOP) else cur_rx) + 1
    if (cur : Int) > rx then cx else rxToCxLoop rx bs (cx + 1) cur

/-- The function `EditorLineRxToCx`. -/
def EditorLineRxToCx (line : line_t) (rx : Int) : Int :=
  (rxToCxLoop rx line.bytes 0 0 : Nat)

/-- The inner loop `while (idx % KILO_TAB_STOP != 0)` that stores spaces, of
`EditorUpdateLine`; it runs fewer than `KILO_TAB_STOP` times. -/
def renderPad : Nat → List Nat → List Nat
  | 0, r => r
  | fuel + 1, r => if r.length % KILO_TAB_STOP ≠ 0 then renderPad fuel (r ++ [32]) else r

/-- The second loop of `EditorUpdateLine`: the render built from the bytes, a tab
becoming one space followed by spaces up to the next tab stop. -/
def renderLoop : List Nat → List Nat → List Nat
  | [], r => r
  | b :: bs, r =>
    if b = 9 then renderLoop bs (renderPad KILO_TAB_STOP (r ++ [32]))
    else renderLoop bs (r ++ [b])

/-- The function `EditorUpdateLine(&E.line[k])`: rebuild the render, then
highlight. -/
def EditorUpdateLine (syn : Option EditorSyntax) (linesnum : Nat) (lines : List line_t)
    (k : Nat) : List line_t :=
  match lines[k]? with
  | none => lines
  | some line =>
    EditorUpdateSyntax syn linesnum (linesnum + 1)
      (lines.set k { line with render := renderLoop line.bytes [] }) k

/-- The function `EditorInsertLine(at, s, len)`; `s` stands for the `len` bytes
copied.  `EditorUpdateLine` runs before `E.linesnum` is incremented. -/
def EditorInsertLine (E : EditorConfig) (at_ : Int) (s : List Nat) : EditorConfig :=
  if at_ < 0 ∨ size_gt at_ E.linesnum = true then E
  else
    let shifted := (E.line.drop at_.toNat).map (fun l => { l with idx := l.idx + 1 })
    let fresh : line_t := { idx := at_, bytes := s, render := [], hl := [], hl_open_comment := false }
    let lines := E.line.take at_.toNat ++ fresh :: shifted
    { E with line := EditorUpdateLine E.syntax_ E.linesnum lines at_.toNat
             dirty := E.dirty + 1 }

/-- The function `EditorDelLine(at)`. -/
def EditorDelLine (E : EditorConfig) (at_ : Int) : EditorConfig :=
  if at_ < 0 ∨ size_lt at_ E.linesnum = false then E
  else
    { E with line := E.line.take at_.toNat ++
                      (E.line.drop (at_.toNat + 1)).map (fun l => { l with idx := l.idx - 1 })
             dirty := E.dirty + 1 }

/-- The function `EditorLineInsertChar(&E.line[k], at, c)`; the `int c` is stored
into a byte. -/
def EditorLineInsertChar (E : EditorConfig) (k : Nat) (at_ : Int) (c : Int) : EditorConfig :=
  match E.line[k]? with
  | none => E
  | some line =>
    let a : Nat := if at_ < 0 ∨ size_gt at_ line.size = true then line.size else at_.toNat
    let line1 := { line with bytes := line.bytes.take a ++ (c % 256).toNat :: line.bytes.drop a }
    { E with line := EditorUpdateLine E.syntax_ E.linesnum (E.line.set k line1) k
             dirty := E.dirty + 1 }

/-- The function `EditorLineAppendString(&E.line[k], s, len)`. -/
def EditorLineAppendString (E : EditorConfig) (k : Nat) (s : List Nat) : EditorConfig :=
  match E.line[k]? with
  | none => E
  | some line =>
    let line1 := { line with bytes := line.bytes ++ s }
    { E with line := EditorUpdateLine E.syntax_ E.linesnum (E.line.set k line1) k
             dirty := E.dirty + 1 }

/-- The function `EditorLineDelChar(&E.line[k], at)`. -/
def EditorLineDelChar (E : EditorConfig) (k : Nat) (at_ : Int) : EditorConfig :=
  match E.line[k]? with
  | none => E
  | some line =>
    if at_ < 0 ∨ size_lt at_ line.size = false then E
    else
      let line1 := { line with bytes := line.bytes.eraseIdx at_.toNat }
      { E with line := EditorUpdateLine E.syntax_ E.linesnum (E.line.set k line1) k
               dirty := E.dirty + 1 }

/-! ## Editor operations

An operation that dereferences `E.line[E.cursor.Y]` outside the array has no
defined result; the embedding returns `none` there. -/

/-- The function `EditorInsertChar`. -/
def EditorInsertChar (E : EditorConfig) (c : Int) : Option EditorConfig :=
  let E1 := if size_eq E.cursor.Y E.linesnum then EditorInsertLine E E.linesnum [] else E
  if size_lt E1.cursor.Y E1.linesnum then
    let E2 := EditorLineInsertChar E1 E1.cursor.Y.toNat E1.cursor.X c
    some { E2 with cursor := { E2.cursor with X := E2.cursor.X + 1 } }
  else none

/-- The function `EditorInsertNewLine`. -/
def EditorInsertNewLine (E : EditorConfig) : Option EditorConfig :=
  if E.cursor.X = 0 then
    let E1 := EditorInsertLine E E.cursor.Y []
    some { E1 with cursor := { X := 0, Y := E1.cursor.Y + 1 } }
  else
    match E.line[E.cursor.Y.toNat]? with
    | none => none
    | some line =>
      if E.cursor.Y < 0 ∨ E.cursor.X < 0 ∨ size_gt E.cursor.X line.size = true then none
      else
        let E1 := EditorInsertLine E (E.cursor.Y + 1) (line.bytes.drop E.cursor.X.toNat)
        match E1.line[E1.cursor.Y.toNat]? with
        | none => none
        | some line1 =>
          let line2 := { line1 with bytes := line1.bytes.take E1.cursor.X.toNat }
          let E2 := { E1 with line := EditorUpdateLine E1.syntax_ E1.linesnum
                                        (E1.line.set E1.cursor.Y.toNat line2) E1.cursor.Y.toNat }
          some { E2 with cursor := { X := 0, Y := E2.cursor.Y + 1 } }

/-- The function `EditorDelChar`. -/
def EditorDelChar (E : EditorConfig) : Option EditorConfig :=
  if size_eq E.cursor.Y E.linesnum then some E
  else if E.cursor.X = 0 ∧ E.cursor.Y = 0 then some E
  else if size_lt E.cursor.Y E.linesnum = false then none
  else if E.cursor.X > 0 then
    let E1 := EditorLineDelChar E E.cursor.Y.toNat (E.cursor.X - 1)
    some { E1 with cursor := { E1.cursor with X := E1.cursor.X - 1 } }
  else
    match E.line[(E.cursor.Y - 1).toNat]?, E.line[E.cursor.Y.toNat]? with
    | some prev, some line =>
      if E.cursor.Y - 1 < 0 then none
      else
        let E1 := { E with cursor := { E.cursor with X := prev.size } }
        let E2 := EditorLineAppendString E1 (E1.cursor.Y - 1).toNat line.bytes
        let E3 := EditorDelLine E2 E2.cursor.Y
        some { E3 with cursor := { E3.cursor with Y := E3.cursor.Y - 1 } }
    | _, _ => none

/-! ## File I/O -/

/-- The function `EditorLinesToString`: the pair of `*buflen` and the buffer.
Every line is copied followed by a newline, then the last byte written is
replaced by NUL.  With no line at all the final store lands before the buffer,
which has no defined result. -/
def EditorLinesToString (E : EditorConfig) : Option (Nat × List Nat) :=
  let totlen := (E.line.map (fun l => l.size + 1)).sum
  let buf := E.line.foldl (fun p l => p ++ l.bytes ++ [10]) []
  if E.linesnum = 0 then none else some (totlen, buf.dropLast ++ [0])

/-- The libc function `strrchr(s, c)`: the suffix of `s` that starts at the last
occurrence of `c`, `none` for `NULL`. -/
def strrchr : List Nat → Nat → Option (List Nat)
  | [], _ => none
  | x :: xs, c =>
    match strrchr xs c with
    | some r => some r
    | none => if x = c then some (x :: xs) else none

/-- The libc function `strstr(hay, needle)`: the offset of the first occurrence of
`needle` in `hay`, `none` for `NULL`. -/
def strstr : List Nat → List Nat → Option Nat
  | [], needle => if needle = [] then some 0 else none
  | h :: hs, needle =>
    if needle.isPrefixOf (h :: hs) then some 0 else (strstr hs needle).map (· + 1)

/-- The test of `EditorSelectSyntaxHighlight` whether some pattern of the profile
matches the file name. -/
def syntaxMatches (filename : List Nat) (s : EditorSyntax) : Bool :=
  s.filematch.any fun pat =>
    let is_ext : Bool := pat.headD 0 == 46
    (is_ext && (match strrchr filename 46 with
                | some ext => ext == pat
                | none => false))
    || (!is_ext && (strstr filename pat).isSome)

/-- The function `EditorSelectSyntaxHighlight`: the first profile of `HLDB` with a
matching pattern is selected and every line is highlighted again. -/
def EditorSelectSyntaxHighlight (E : EditorConfig) : EditorConfig :=
  match E.filename with
  | none => { E with syntax_ := none }
  | some fn =>
    match HLDB.find? (syntaxMatches fn) with
    | none => { E with syntax_ := none }
    | some s =>
      { E with syntax_ := some s
               line := (List.range E.linesnum).foldl
                 (fun ls r => EditorUpdateSyntax (some s) E.linesnum (E.linesnum + 1) ls r) E.line }

/-- The bytes one call of `fgets` stores, and the rest of the stream: at most `n`
bytes, ending after the first newline. -/
def fgetsChunk : Nat → List Nat → List Nat × List Nat
  | 0, s => ([], s)
  | _ + 1, [] => ([], [])
  | n + 1, c :: s =>
    if c = 10 then ([c], s) else ((c :: (fgetsChunk n s).1), (fgetsChunk n s).2)

/-- The libc function `fgets(buf, size, fp)` on the bytes still to be read: `none`
for `NULL` at end of file. -/
def fgets (size : Nat) (s : List Nat) : Option (List Nat × List Nat) :=
  if s = [] then none else some (fgetsChunk (size - 1) s)

/-- The libc function `strlen` on a buffer. -/
def strlen (buf : List Nat) : Nat := (buf.takeWhile (fun c => c ≠ 0)).length

/-- The loop of `EditorOpen` that removes trailing `\n` and `\r` from the chunk:
the new `nread` and the flag `newline`. -/
def stripLoop (buf : List Nat) : Nat → Bool → Nat × Bool
  | 0, newline => (0, newline)
  | n + 1, newline =>
    if buf.getD n 0 = 10 ∨ buf.getD n 0 = 13 then stripLoop buf n true else (n + 1, newline)

/-- The loop `while (fgets(buf, sizeof(buf), fp) != NULL)` of `EditorOpen`, on the
bytes still to be read; the result is the state at loop exit (editor, the
buffer `line` and `linelen`), `none` when `fuel` runs out first. -/
def openLoop : Nat → List Nat → EditorConfig → List Nat → Nat → Bool →
    Option (EditorConfig × List Nat × Nat)
  | 0, _, _, _, _, _ => none
  | fuel + 1, inp, E, line, linelen, newline =>
    match fgets 64 inp with
    | none => some (E, line, linelen)
    | some (buf, rest) =>
      let r := stripLoop buf (strlen buf) newline
      let line1 := line.take linelen ++ buf.take r.1 ++ line.drop (linelen + r.1)
      let linelen1 := linelen + r.1
      if r.2 then openLoop fuel rest (EditorInsertLine E E.linesnum (line1.take linelen1)) line1 0 false
      else openLoop fuel rest E line1 linelen1 r.2

/-- The function `EditorOpen(filename)`; `file` is the content the C library
delivers for the file, `none` when it cannot be opened (the program exits).
Every call of `fgets` consumes a byte, so the fuel given is enough. -/
def EditorOpen (E : EditorConfig) (filename : List Nat) (file : Option (List Nat)) :
    Option EditorConfig :=
  let E1 := EditorSelectSyntaxHighlight { E with filename := some filename }
  match file with
  | none => none
  | some text =>
    match openLoop (text.length + 1) text E1 [] 0 false with
    | none => none
    | some (E2, line, linelen) =>
      some { EditorInsertLine E2 E2.linesnum (line.take linelen) with dirty := 0 }

/-! ## Output -/

/-- The function `EditorScroll`. -/
def EditorScroll (E : EditorConfig) : EditorConfig :=
  let rx : Int :=
    if size_lt E.cursor.Y E.linesnum then
      match E.line[E.cursor.Y.toNat]? with
      | some l => EditorLineCxToRx l E.cursor.X
      | none => E.cursor.X
    else E.cursor.X
  let offY1 := if E.cursor.Y < E.offset.Y then E.cursor.Y else E.offset.Y
  let offY2 := if E.cursor.Y ≥ offY1 + E.bufSize.Y then E.cursor.Y - E.bufSize.Y + 1 else offY1
  let offX1 := if rx < E.offset.X then rx else E.offset.X
  let offX2 := if rx ≥ offX1 + E.bufSize.X then rx - E.bufSize.X + 1 else offX1
  { E with rx := rx, offset := { X := offX2, Y := offY2 } }

/-! ## Input -/

/-- The `switch` of `EditorMoveCursor(key)`: the cursor after the move, before its
column is clamped; `none` when the move reads a line outside the array. -/
def arrowTarget (E : EditorConfig) (key : Int) : Option COORD :=
  let line : Option line_t :=
    if size_lt E.cursor.Y E.linesnum then E.line[E.cursor.Y.toNat]? else none
  if key = ARROW_LEFT then
    if E.cursor.X ≠ 0 then some { E.cursor with X := E.cursor.X - 1 }
    else if E.cursor.Y > 0 then
      match E.line[(E.cursor.Y - 1).toNat]? with
      | some p => some { X := p.size, Y := E.cursor.Y - 1 }
      | none => none
    else some E.cursor
  else if key = ARROW_RIGHT then
    match line with
    | some l =>
      if size_lt E.cursor.X l.size then some { E.cursor with X := E.cursor.X + 1 }
      else if size_eq E.cursor.X l.size then some { X := 0, Y := E.cursor.Y + 1 }
      else some E.cursor
    | none => some E.cursor
  else if key = ARROW_UP then
    if E.cursor.Y ≠ 0 then some { E.cursor with Y := E.cursor.Y - 1 } else some E.cursor
  else if key = ARROW_DOWN then
    if size_lt E.cursor.Y E.linesnum then some { E.cursor with Y := E.cursor.Y + 1 }
    else some E.cursor
  else some E.cursor

/-- The length `linelen` that `EditorMoveCursor` computes for the line of the
moved cursor (0 on the virtual line). -/
def lineLenAt (E : EditorConfig) (y : Int) : Int :=
  if size_lt y E.linesnum then
    match E.line[y.toNat]? with
    | some l => (l.size : Int)
    | none => 0
  else 0

/-- The end of `EditorMoveCursor(key)`: the column of the moved cursor is clamped
to the length of its line. -/
def clampToLine (E : EditorConfig) (cur : COORD) : EditorConfig :=
  { E with cursor := if cur.X > lineLenAt E cur.Y then { cur with X := lineLenAt E cur.Y } else cur }

/-- The function `EditorMoveCursor(key)`. -/
def EditorMoveCursor (E : EditorConfig) (key : Int) : Option EditorConfig :=
  match arrowTarget E key with
  | none => none
  | some cur => some (clampToLine E cur)

/-- The first statement of `EditorFindCallback`: the saved highlight of the
decorated line is copied back. -/
def findRestore (E : EditorConfig) : Option EditorConfig :=
  match E.saved_hl with
  | none => some E
  | some saved =>
    if E.saved_hl_line < 0 then none
    else
      match E.line[E.saved_hl_line.toNat]? with
      | none => none
      | some l =>
        some { E with line := E.line.set E.saved_hl_line.toNat
                                { l with hl := saved.take l.rsize ++ l.hl.drop l.rsize }
                      saved_hl := none }

/-- The scan loop of `EditorFindCallback`, `n` iterations left, from line
`current`. -/
def findScan (query : List Nat) : Nat → Int → EditorConfig → Option EditorConfig
  | 0, _, E => some E
  | n + 1, current, E =>
    let c1 := current + E.direction
    let c2 : Int :=
      if c1 = -1 then (E.linesnum : Int) - 1 else if size_eq c1 E.linesnum then 0 else c1
    if c2 < 0 then none
    else
      match E.line[c2.toNat]? with
      | none => none
      | some l =>
        match strstr l.render query with
        | some m =>
          some { E with last_match := c2
                        cursor := { X := EditorLineRxToCx l m, Y := c2 }
                        offset := { E.offset with Y := E.linesnum }
                        saved_hl_line := c2
                        saved_hl := some (l.hl.take l.rsize)
                        line := E.line.set c2.toNat { l with hl := memset l.hl m HL_MATCH query.length } }
        | none => findScan query n c2 E

/-- The function `EditorFindCallback(query, key)`. -/
def EditorFindCallback (E : EditorConfig) (query : List Nat) (key : Int) : Option EditorConfig :=
  match findRestore E with
  | none => none
  | some E1 =>
    if key = 13 ∨ key = 27 then some { E1 with last_match := -1, direction := 1 }
    else
      let E2 :=
        if key = ARROW_RIGHT ∨ key = ARROW_DOWN then { E1 with direction := 1 }
        else if key = ARROW_LEFT ∨ key = ARROW_UP then { E1 with direction := -1 }
        else { E1 with last_match := -1, direction := 1 }
      let E3 := if E2.last_match = -1 then { E2 with direction := 1 } else E2
      findScan query E3.linesnum E3.last_match E3

/-- The libc predicate `iscntrl` on an `int` key code; codes outside the byte
range are taken as no control character. -/
def iscntrlKey (c : Int) : Bool := (decide (0 ≤ c) && decide (c < 32)) || c == 127

/-- The statement `if (callback) callback(buf, c);` of `EditorPrompt`. -/
def promptCall (callback : Option (EditorConfig → List Nat → Int → Option EditorConfig))
    (E : EditorConfig) (buf : List Nat) (c : Int) : Option EditorConfig :=
  match callback with
  | some cb => cb E buf c
  | none => some E

/-- The function `EditorPrompt`, one round of its loop per decoded key: `keys` are
the values the successive calls of `HandleInputs` return.  The result is the
returned buffer (`none` for `NULL`), the editor and the keys left; there is no
result when the keys run out before the prompt ends, or when the callback has
none. -/
def EditorPrompt (callback : Option (EditorConfig → List Nat → Int → Option EditorConfig)) :
    List Int → EditorConfig → List Nat → Option (Option (List Nat) × EditorConfig × List Int)
  | [], _, _ => none
  | c :: rest, E0, buf =>
    if c = 0 then EditorPrompt callback rest (EditorScroll E0) buf
    else
      let buf1 := if c = DEL_KEY ∨ c = CTRL_KEY 104 ∨ c = BACKSPACE then buf.dropLast else buf
      if c = 27 then
        match promptCall callback (EditorScroll E0) buf1 c with
        | none => none
        | some E1 => some (none, E1, rest)
      else if c = 13 ∧ buf1 ≠ [] then
        match promptCall callback (EditorScroll E0) buf1 c with
        | none => none
        | some E1 => some (some buf1, E1, rest)
      else
        let buf2 :=
          if c ≠ 13 ∧ iscntrlKey c = false ∧ c < 128 then buf1 ++ [(c % 256).toNat] else buf1
        match promptCall callback (EditorScroll E0) buf2 c with
        | none => none
        | some E1 => EditorPrompt callback rest E1 buf2

/-- The function `EditorFind`. -/
def EditorFind (keys : List Int) (E : EditorConfig) : Option (EditorConfig × List Int) :=
  match EditorPrompt (some EditorFindCallback) keys E [] with
  | none => none
  | some (some _, E1, rest) => some (E1, rest)
  | some (none, E1, rest) => some ({ E1 with cursor := E.cursor, offset := E.offset }, rest)

/-- The second half of `EditorSave`, from the call of `EditorLinesToString` on;
`io_ok` tells whether `fopen` and `fwrite` succeed.  The result is the editor,
the bytes handed to `fwrite` (if it is reached) and the keys left. -/
def saveWrite (io_ok : Bool) (E : EditorConfig) (rest : List Int) :
    Option (EditorConfig × Option (List Nat) × List Int) :=
  match EditorLinesToString E with
  | none => none
  | some (len, buf) =>
    if io_ok then some ({ E with dirty := 0 }, some (buf.take len), rest)
    else some (E, none, rest)

/-- The function `EditorSave`: without a file name it first prompts for one. -/
def EditorSave (io_ok : Bool) (keys : List Int) (E : EditorConfig) :
    Option (EditorConfig × Option (List Nat) × List Int) :=
  match E.filename with
  | some _ => saveWrite io_ok E keys
  | none =>
    match EditorPrompt none keys E [] with
    | none => none
    | some (none, E1, rest) => some (E1, none, rest)
    | some (some name, E1, rest) =>
      saveWrite io_ok (EditorSelectSyntaxHighlight { E1 with filename := some name }) rest

/-- What a call of `HandleKeyPress` leads to: it returns, the process exits, or
there is no defined result (an undefined access, or input that never comes). -/
inductive Outcome where
  | running (E : EditorConfig) (rest : List Int)
  | exited
  | stuck
deriving DecidableEq, Repr

/-- The loop `while (times--) EditorMoveCursor(key)`. -/
def moveTimes (key : Int) : Nat → EditorConfig → Option EditorConfig
  | 0, E => some E
  | n + 1, E =>
    match EditorMoveCursor E key with
    | none => none
    | some E1 => moveTimes key n E1

/-- The function `HandleKeyPress`, where `c` is the value its call of
`HandleInputs` returned and `keys` are the values later calls return. -/
def HandleKeyPress (io_ok : Bool) (c : Int) (keys : List Int) (E : EditorConfig) : Outcome :=
  let done : Option EditorConfig → Outcome := fun r =>
    match r with
    | none => Outcome.stuck
    | some E1 => Outcome.running { E1 with quit_times := KILO_QUIT_TIMES } keys
  if c = 0 then Outcome.running E keys
  else if c = 13 then done (EditorInsertNewLine E)
  else if c = CTRL_KEY 113 then
    if E.dirty ≠ 0 ∧ E.quit_times > 0 then
      Outcome.running { E with quit_times := E.quit_times - 1 } keys
    else Outcome.exited
  else if c = CTRL_KEY 115 then
    match EditorSave io_ok keys E with
    | none => Outcome.stuck
    | some (E1, _, rest) => Outcome.running { E1 with quit_times := KILO_QUIT_TIMES } rest
  else if c = HOME_KEY then done (some { E with cursor := { E.cursor with X := 0 } })
  else if c = END_KEY then
    if size_lt E.cursor.Y E.linesnum then
      match E.line[E.cursor.Y.toNat]? with
      | none => Outcome.stuck
      | some l => done (some { E with cursor := { E.cursor with X := l.size } })
    else done (some E)
  else if c = CTRL_KEY 102 then
    match EditorFind keys E with
    | none => Outcome.stuck
    | some (E1, rest) => Outcome.running { E1 with quit_times := KILO_QUIT_TIMES } rest
  else if c = BACKSPACE ∨ c = CTRL_KEY 104 ∨ c = DEL_KEY then
    let moved := if c = DEL_KEY then EditorMoveCursor E ARROW_RIGHT else some E
    match moved with
    | none => Outcome.stuck
    | some E1 => done (EditorDelChar E1)
  else if c = PAGE_UP ∨ c = PAGE_DOWN then
    let E1 : EditorConfig :=
      if c = PAGE_UP then { E with cursor := { E.cursor with Y := E.offset.Y } }
      else
        let y := E.offset.Y + E.bufSize.Y - 1
        { E with cursor := { E.cursor with Y := if size_gt y E.linesnum then E.linesnum else y } }
    if E1.bufSize.Y < 0 then Outcome.stuck
    else done (moveTimes (if c = PAGE_UP then ARROW_UP else ARROW_DOWN) E1.bufSize.Y.toNat E1)
  else if c = ARROW_UP ∨ c = ARROW_DOWN ∨ c = ARROW_LEFT ∨ c = ARROW_RIGHT then
    done (EditorMoveCursor E c)
  else if c = CTRL_KEY 108 ∨ c = 27 then done (some E)
  else done (EditorInsertChar E c)

/-- The loop of `main`: `EditorRefreshScreen` (whose effect on the state is
`EditorScroll`), then `HandleKeyPress`.  `keys` are the values the calls of
`HandleInputs` return, in order; when they are used up the loop waits for
input in the state returned. -/
def mainLoop (io_ok : Bool) : Nat → List Int → EditorConfig → Outcome
  | 0, keys, E => Outcome.running E keys
  | _ + 1, [], E => Outcome.running E []
  | fuel + 1, c :: rest, E =>
    match HandleKeyPress io_ok c rest (EditorScroll E) with
    | Outcome.running E1 rest1 => mainLoop io_ok fuel rest1 E1
    | o => o

/-- The state `InitEditorConsole` sets up, for a console buffer of the given
size; the statics have their initial values (the C program leaves
`saved_hl_line` unset, which is harmless while `saved_hl` is `NULL`). -/
def InitEditorConsole (rows cols : Int) : EditorConfig :=
  { bufSize := { X := cols, Y := rows - 2 }
    cursor := { X := 0, Y := 0 }
    offset := { X := 0, Y := 0 }
    rx := 0
    line := []
    dirty := 0
    filename := none
    syntax_ := none
    quit_times := KILO_QUIT_TIMES
    last_match := -1
    direction := 1
    saved_hl_line := 0
    saved_hl := none }

/-! ## Vocabulary of the statements -/

/-- One step of the render column: a tab moves to the next tab stop, any other
byte moves one column (the shared loop body of `EditorLineCxToRx` and
`EditorLineRxToCx`). -/
def colStep (b : Nat) (rx : Nat) : Nat :=
  (if b = 9 then rx + ((KILO_TAB_STOP - 1) - rx % KILO_TAB_STOP) else rx) + 1

/-- The property the spec gives for `rxToCx`: `cx` is the smallest byte offset of
the line whose render column meets or exceeds `rx`. -/
def SmallestOffsetReaching (line : line_t) (rx cx : Int) : Prop :=
  0 ≤ cx ∧ cx ≤ (line.size : Int) ∧ rx ≤ EditorLineCxToRx line cx ∧
    ∀ c : Int, 0 ≤ c → c < cx → EditorLineCxToRx line c < rx

/-- What `EditorLineRxToCx` computes: `cx` is the largest byte offset of the line
whose render column does not exceed `rx`. -/
def LargestOffsetWithin (line : line_t) (rx cx : Int) : Prop :=
  0 ≤ cx ∧ cx ≤ (line.size : Int) ∧ EditorLineCxToRx line cx ≤ rx ∧
    ∀ c : Int, cx < c → c ≤ (line.size : Int) → rx < EditorLineCxToRx line c

/-- A line holding one tab, as `EditorUpdateLine` leaves it. -/
def tabLine : line_t :=
  { idx := 0, bytes := [9], render := [32, 32, 32, 32], hl := [0, 0, 0, 0], hl_open_comment := false }

/-- A call of the line store, as in C4: `EditorInsertLine(at, s, len)` or
`EditorDelLine(at)`, at any position. -/
inductive LineOp where
  | insert (at_ : Int) (s : List Nat)
  | delete (at_ : Int)
deriving DecidableEq, Repr

/-- The editor after one call of the line store. -/
def applyOp (E : EditorConfig) : LineOp → EditorConfig
  | LineOp.insert at_ s => EditorInsertLine E at_ s
  | LineOp.delete at_ => EditorDelLine E at_

/-- The editor after a sequence of calls of the line store, in order. -/
def applyOps (E : EditorConfig) (ops : List LineOp) : EditorConfig := ops.foldl applyOp E

/-- Every line `E.line[j]`, `0 <= j < E.linesnum`, has `idx == j`. -/
def IdxIntegrity (E : EditorConfig) : Prop :=
  ∀ (j : Nat) (l : line_t), E.line[j]? = some l → l.idx = (j : Int)

/-- The list of indices counts up from `n`. -/
def idxFrom : Int → List Int → Prop
  | _, [] => True
  | n, i :: rest => i = n ∧ idxFrom (n + 1) rest

/-- A sample run of the line store: three insertions (the third in front of the
others), an insertion and a deletion out of range, and a deletion in the middle. -/
def sampleOps : List LineOp :=
  [LineOp.insert 0 [97], LineOp.insert 1 [98], LineOp.insert 0 [99], LineOp.insert 7 [100],
    LineOp.delete 1, LineOp.delete (-1)]

/-- The lines' bytes joined by `\n` (no newline after the last line). -/
def joinLines : List (List Nat) → List Nat
  | [] => []
  | [l] => l
  | l :: rest => l ++ 10 :: joinLines rest

/-- The `\n`-separated segments of `text` when the bytes `acc` of the current
segment have already been read: every `\n` closes a segment, and the bytes
after the last `\n` (none, possibly) form the final segment. -/
def segmentsFrom : List Nat → List Nat → List (List Nat)
  | acc, [] => [acc]
  | acc, c :: s => if c = 10 then acc :: segmentsFrom [] s else segmentsFrom (acc ++ [c]) s

/-- The `\n`-separated segments of a text, in order, the one after the last `\n`
included. -/
def segments (text : List Nat) : List (List Nat) := segmentsFrom [] text

/-- A one-line document holding `a`, with a file name, as `EditorSave` finds it. -/
def docA : EditorConfig :=
  EditorInsertLine { InitEditorConsole 26 80 with filename := some (cstr "a") } 0 (cstr "a")

/-- The highlight class is one of the two keyword classes. -/
def isKeywordClass (h : Nat) : Prop := h = HL_KEYWORD1 ∨ h = HL_KEYWORD2

/-- Every byte classified as keyword is followed by a byte of the same class, by
a separator byte, or by the end of the line. -/
def KeywordSpansEnd (render hl : List Nat) : Prop :=
  ∀ p, p + 1 < render.length → isKeywordClass (hl.getD p 0) →
    hl.getD (p + 1) 0 = hl.getD p 0 ∨ is_separator (render.getD (p + 1) 0) = true

/-- The highlight array is still `HL_NORMAL` from column `i` on. -/
def NormalFrom (i : Nat) (hl : List Nat) : Prop := ∀ p, i ≤ p → hl.getD p 0 = HL_NORMAL

/-- The array `hl2` is `hl` with the `n` entries from `i` on set to `v`. -/
def Written (hl hl2 : List Nat) (i n v : Nat) : Prop :=
  hl2.length = hl.length ∧
    ∀ p, hl2.getD p 0 = if i ≤ p ∧ p < i + n ∧ p < hl.length then v else hl.getD p 0

/-- An empty editor on the file `a.c`, for which `EditorSelectSyntaxHighlight`
selects the C profile. -/
def cEditor : EditorConfig :=
  EditorSelectSyntaxHighlight { InitEditorConsole 26 80 with filename := some (cstr "a.c") }

/-- The two-line document of C9: line A is `/* start`, line B is `b`, inserted in
this order (as `EditorOpen` does). -/
def docAB (b : List Nat) : EditorConfig :=
  EditorInsertLine (EditorInsertLine cEditor 0 (cstr "/* start")) 1 b

/-- The edit of C9: the bytes ` `, `*`, `/` are appended to line A (line 0, of
8 bytes) with `EditorLineInsertChar`, and nothing else is called. -/
def closeA (E : EditorConfig) : EditorConfig :=
  EditorLineInsertChar (EditorLineInsertChar (EditorLineInsertChar E 0 8 32) 0 9 42) 0 10 47

/-- The bytes of the document, line by line. -/
def textOf (E : EditorConfig) : List (List Nat) := E.line.map line_t.bytes

/-- The length of line `y`; 0 for the virtual line after the last one. -/
def rowLen (E : EditorConfig) (y : Int) : Int := (((textOf E).getD y.toNat []).length : Nat)

/-- The cursor invariant: `0 <= cursor.Y <= linesnum` and `0 <= cursor.X <=` the
length of line `cursor.Y` (0 when `cursor.Y == linesnum`). -/
def CursorInv (E : EditorConfig) : Prop :=
  0 ≤ E.cursor.Y ∧ E.cursor.Y ≤ (E.linesnum : Int) ∧ 0 ≤ E.cursor.X ∧ E.cursor.X ≤ rowLen E E.cursor.Y

/-- What holds of the editor at the head of the loop of `main`, in every state
reached with a viewport of at least one row: the cursor invariant, and a row
offset within the document. -/
def LoopInv (E : EditorConfig) : Prop :=
  CursorInv E ∧ 0 ≤ E.offset.Y ∧ E.offset.Y ≤ (E.linesnum : Int) ∧ 1 ≤ E.bufSize.Y

/-- A decoded key that `HandleKeyPress` handles without prompting or quitting:
any key code but Ctrl-Q, Ctrl-S and Ctrl-F (so the arrows, Home/End,
Page-Up/Down, Enter, Backspace/Ctrl-H/Delete and every byte that is inserted). -/
def editKey (c : Int) : Prop := c ≠ CTRL_KEY 113 ∧ c ≠ CTRL_KEY 115 ∧ c ≠ CTRL_KEY 102

/-- The two editors differ at most in their lines and the dirty counter. -/
def SameView (E E2 : EditorConfig) : Prop :=
  E2.cursor = E.cursor ∧ E2.offset = E.offset ∧ E2.bufSize = E.bufSize ∧
    E2.quit_times = E.quit_times

/-- The editor run on the decoded keys `keys` from state `E`: the loop of `main`
until the keys are used up. -/
def runKeys (io_ok : Bool) (keys : List Int) (E : EditorConfig) : Outcome :=
  mainLoop io_ok keys.length keys E

/-- A document with unsaved changes and the quit counter at its initial value:
the editor after `a` was typed into the empty document. -/
def dirtyEditor : EditorConfig :=
  (EditorInsertChar (InitEditorConsole 26 80) 97).getD (InitEditorConsole 26 80)

/-- A two-line document, `ab` and `c`, with the cursor at the start of line 1 and
a scroll offset that does not show the cursor. -/
def docTwo : EditorConfig :=
  { EditorInsertLine (EditorInsertLine (InitEditorConsole 26 80) 0 (cstr "ab")) 1 (cstr "c") with
    cursor := { X := 0, Y := 1 }
    offset := { X := 5, Y := 3 } }

/-- The document `docTwo` with the cursor between `a` and `b` on line 0. -/
def docTwoMid : EditorConfig := { docTwo with cursor := { X := 1, Y := 0 } }

/-- The order in which a forward search step from last match `m` visits the `n`
lines of the document: `m + 1`, `m + 2`, and so on, wrapping modulo `n` and
ending with `m` itself (the lines 0 to `n - 1` when `m` is -1, a fresh search). -/
def forwardOrder (n : Nat) (m : Int) : List Nat :=
  (List.range n).map (fun (i : Nat) => ((m + 1 + (i : Int)) % (n : Int)).toNat)

/-- The render of line `j` contains the query. -/
def lineContains (E : EditorConfig) (query : List Nat) (j : Nat) : Bool :=
  match E.line[j]? with
  | some l => decide (query <:+: l.render)
  | none => false

/-- The first line, in the order of a forward search step from last match `m`,
whose render contains the query. -/
def firstForwardMatch (E : EditorConfig) (query : List Nat) (m : Int) : Option Nat :=
  (forwardOrder E.linesnum m).find? (lineContains E query)

/-- The lines that `k` iterations of the scan loop of `EditorFindCallback` visit
in forward direction, starting after line `current` of `n` lines. -/
def forwardVisits (n : Nat) : Nat → Int → List Nat
  | 0, _ => []
  | k + 1, current =>
    let c2 : Int := if current + 1 = (n : Int) then 0 else current + 1
    c2.toNat :: forwardVisits n k c2

/-- The document of three lines `foo`, `bar`, `foo` with the cursor on line 2. -/
def docFoo : EditorConfig :=
  { EditorInsertLine (EditorInsertLine (EditorInsertLine (InitEditorConsole 26 80)
      0 (cstr "foo")) 1 (cstr "bar")) 2 (cstr "foo") with
    cursor := { X := 0, Y := 2 } }

/-- The cursor lines after each of a sequence of calls of `EditorFindCallback`
with the same query and the given keys, in order. -/
def findLines (query : List Nat) : List Int → EditorConfig → List (Option Int)
  | [], _ => []
  | key :: keys, E =>
    match EditorFindCallback E query key with
    | none => [none]
    | some E1 => some E1.cursor.Y :: findLines query keys E1

/-- The document `docFoo` after a fresh search for `foo` (the last key typed is
`o`): the match on line 0 is decorated and remembered. -/
def docFooFound : EditorConfig := (EditorFindCallback docFoo (cstr "foo") 111).getD docFoo

/-- Every line has one highlight byte per render byte (`hl` is an array of
`rsize` entries). -/
def HlSized (E : EditorConfig) : Prop := ∀ l ∈ E.line, l.hl.length = l.render.length

/-- The state `E` of a search in progress on the document of `E0`: the last match
is -1 or a line of the document, and the lines are those of `E0` once the saved
highlight (if any) is copied back to its line. -/
def SearchInv (E0 E : EditorConfig) : Prop :=
  -1 ≤ E.last_match ∧ E.last_match < (E.linesnum : Int) ∧
    match E.saved_hl with
    | none => E.line = E0.line
    | some s =>
      0 ≤ E.saved_hl_line ∧
        ∃ l, E.line[E.saved_hl_line.toNat]? = some l ∧
          E.line.set E.saved_hl_line.toNat { l with hl := s.take l.rsize ++ l.hl.drop l.rsize }
            = E0.line

/-! ## The input decoder -/

/-- Size of the record array of `HandleInputs`, `#define MAXINREC 128`. -/
def MAXINREC : Nat := 128

/-- Modelled from the spec: the console header that declares the event types is
not part of the repository; the spec tells key events (key-down and key-up)
from resize notices, and every other event is ignored. -/
inductive EventKind where
  | KEY_EVENT
  | WINDOW_BUFFER_SIZE_EVENT
  | other
deriving DecidableEq, Repr

/-- Modelled from the spec: the platform type `INPUT_RECORD` is declared by the
console header, which is not part of the repository.  The record holds the
members that `HandleInputs` reads: the event type, `Event.KeyEvent.bKeyDown`,
`Event.KeyEvent.uChar.AsciiChar` (a signed character) and
`Event.WindowBufferSizeEvent.dwSize`. -/
structure INPUT_RECORD where
  EventType : EventKind
  bKeyDown : Bool
  AsciiChar : Int
  dwSize : COORD
deriving DecidableEq, Repr

/-- The expression `irInBuf[i].Event.KeyEvent.uChar.AsciiChar`: whatever slot `i`
of the array holds; there is no result outside the array. -/
def asciiAt (irInBuf : List INPUT_RECORD) (i : Nat) : Option Int :=
  match irInBuf[i]? with
  | some r => some r.AsciiChar
  | none => none

/-- The block of `HandleInputs` for an escape character at slot `i` when
`i + cInRead > 2`: `seq[0]` and `seq[1]` are taken from the next two slots, and
after `[` and a digit `seq[2]` from the slot after them; the result is the new
value of `c`. -/
def decodeEscape (irInBuf : List INPUT_RECORD) (i : Nat) : Option Int :=
  match asciiAt irInBuf (i + 1), asciiAt irInBuf (i + 2) with
  | some seq0, some seq1 =>
    if seq0 = 91 then
      if seq1 ≥ 48 ∧ seq1 ≤ 57 then
        match asciiAt irInBuf (i + 3) with
        | none => none
        | some seq2 =>
          if seq2 = 126 then
            if seq1 = 49 then some HOME_KEY
            else if seq1 = 51 then some DEL_KEY
            else if seq1 = 52 then some END_KEY
            else if seq1 = 53 then some PAGE_UP
            else if seq1 = 54 then some PAGE_DOWN
            else if seq1 = 55 then some HOME_KEY
            else if seq1 = 56 then some END_KEY
            else some 27
          else some 27
      else
        if seq1 = 65 then some ARROW_UP
        else if seq1 = 66 then some ARROW_DOWN
        else if seq1 = 67 then some ARROW_RIGHT
        else if seq1 = 68 then some ARROW_LEFT
        else if seq1 = 72 then some HOME_KEY
        else if seq1 = 70 then some END_KEY
        else some 27
    else if seq0 = 79 then
      if seq1 = 72 then some HOME_KEY
      else if seq1 = 70 then some END_KEY
      else some 27
    else some 27
  | _, _ => none

/-- The loop `for (i = 0; i < cInRead; ++i)` of `HandleInputs` from slot `i` on:
the value returned and the editor (a resize notice sets `E.bufSize`).  The first
key-down event ends the loop; `fuel` bounds the iterations. -/
def inputLoop (irInBuf : List INPUT_RECORD) (cInRead : Nat) :
    Nat → Nat → EditorConfig → Option (Int × EditorConfig)
  | 0, _, _ => none
  | fuel + 1, i, E =>
    if i < cInRead then
      match irInBuf[i]? with
      | none => none
      | some r =>
        match r.EventType with
        | EventKind.KEY_EVENT =>
          if r.bKeyDown = false then inputLoop irInBuf cInRead fuel (i + 1) E
          else if r.AsciiChar = 27 ∧ i + cInRead > 2 then
            match decodeEscape irInBuf i with
            | some c => some (c, E)
            | none => none
          else some (r.AsciiChar, E)
        | EventKind.WINDOW_BUFFER_SIZE_EVENT =>
          inputLoop irInBuf cInRead fuel (i + 1)
            { E with bufSize := { X := r.dwSize.X, Y := r.dwSize.Y - 2 } }
        | EventKind.other => inputLoop irInBuf cInRead fuel (i + 1) E
    else some (0, E)

/-- The function `HandleInputs` after a successful `ReadConsoleInput` (a failed
one ends the process): `irInBuf` is the local array of `MAXINREC` records, of
which the call has written the first `cInRead`; the other slots hold whatever
the array held before.  Every iteration advances `i`, so `cInRead + 1` rounds
are enough. -/
def HandleInputs (irInBuf : List INPUT_RECORD) (cInRead : Nat) (E : EditorConfig) :
    Option (Int × EditorConfig) :=
  inputLoop irInBuf cInRead (cInRead + 1) 0 E

/-- A key-down event for the character `c`. -/
def keyDown (c : Int) : INPUT_RECORD :=
  { EventType := EventKind.KEY_EVENT, bKeyDown := true, AsciiChar := c, dwSize := { X := 0, Y := 0 } }

/-- A key-up event for the character `c`. -/
def keyUp (c : Int) : INPUT_RECORD :=
  { EventType := EventKind.KEY_EVENT, bKeyDown := false, AsciiChar := c, dwSize := { X := 0, Y := 0 } }

/-- The record array after a read that delivered `batch`, every slot behind the
batch holding `old`. -/
def arrayOf (batch : List INPUT_RECORD) (old : INPUT_RECORD) : List INPUT_RECORD :=
  batch ++ List.replicate (MAXINREC - batch.length) old

/-- The key code `HandleInputs` returns for the batch `batch` when the slots
behind the batch hold `old`. -/
def decodeBatch (batch : List INPUT_RECORD) (old : INPUT_RECORD) : Option Int :=
  match HandleInputs (arrayOf batch old) batch.length (InitEditorConsole 26 80) with
  | some r => some r.1
  | none => none

/-- The batch with all key-up events removed. -/
def dropKeyUps (batch : List INPUT_RECORD) : List INPUT_RECORD :=
  batch.filter (fun r => !(r.EventType == EventKind.KEY_EVENT && r.bKeyDown == false))

/-! ## Highlight consistency -/

/-- The comment state in which line `j` starts: `hl_open_comment` of line `j - 1`,
false for line 0. -/
def initComment (lines : List line_t) (j : Nat) : Bool :=
  decide (j > 0) &&
    (match lines[j - 1]? with
     | some p => p.hl_open_comment
     | none => false)

/-- Line `j` is highlighted consistently: its highlight array and its
`hl_open_comment` are what the classifier produces from its render, started in
the comment state that line `j - 1` ends in. -/
def HlConsistentAt (s : EditorSyntax) (lines : List line_t) (j : Nat) : Prop :=
  ∀ l, lines[j]? = some l →
    l.hl = (scanLine s l.render (initComment lines j)).hl ∧
      l.hl_open_comment = (scanLine s l.render (initComment lines j)).in_comment

/-- Highlight consistency of a document under the profile `s`. -/
def HlConsistent (s : EditorSyntax) (lines : List line_t) : Prop :=
  ∀ j, HlConsistentAt s lines j

/-- The document of the two lines `/*` and `x` under the C profile, inserted in
this order. -/
def docOpen : EditorConfig :=
  EditorInsertLine (EditorInsertLine cEditor 0 (cstr "/*")) 1 (cstr "x")

/-- The document of three lines under the C profile: a lone double quote (byte
34), then `/*`, then `x`, inserted in this order, with the cursor at the start of
line 1 (where Arrow-Down from the start of the document leaves it). -/
def docQuote : EditorConfig :=
  { EditorInsertLine (EditorInsertLine (EditorInsertLine cEditor 0 [34]) 1 (cstr "/*"))
      2 (cstr "x") with
    cursor := { X := 0, Y := 1 } }

/-- The check of highlight consistency line by line. -/
def hlConsistentB (s : EditorSyntax) (lines : List line_t) : Bool :=
  (List.range lines.length).all fun j =>
    match lines[j]? with
    | some l =>
      decide (l.hl = (scanLine s l.render (initComment lines j)).hl ∧
        l.hl_open_comment = (scanLine s l.render (initComment lines j)).in_comment)
    | none => true

/-- The line `a`, tab, `b`, tab, as `EditorUpdateLine` leaves it: the render has
8 columns and both tabs end at a tab stop. -/
def tabsLine : line_t :=
  { idx := 0, bytes := [97, 9, 98, 9], render := [97, 32, 32, 32, 98, 32, 32, 32],
    hl := [0, 0, 0, 0, 0, 0, 0, 0], hl_open_comment := false }

/-! ## The re-highlight chain and the prompt text -/

/-- The function `EditorUpdateSyntax(&E.line[k])` together with the positions of
the lines it is called on, the recursive calls included, in order.  The lines
computed are those of `EditorUpdateSyntax`; there is no result when `fuel` calls
do not finish the chain. -/
def updateChain (syn : Option EditorSyntax) (linesnum : Nat) :
    Nat → List line_t → Nat → Option (List line_t × List Nat)
  | 0, _, _ => none
  | fuel + 1, lines, k =>
    match lines[k]? with
    | none => some (lines, [])
    | some line =>
      match syn with
      | none => some (lines.set k { line with hl := List.replicate line.rsize HL_NORMAL }, [k])
      | some s =>
        let in_comment : Bool :=
          decide (line.idx > 0) &&
            (match lines[(line.idx - 1).toNat]? with
             | some p => p.hl_open_comment
             | none => false)
        let st := scanLine s line.render in_comment
        let changed : Bool := line.hl_open_comment != st.in_comment
        let lines1 := lines.set k { line with hl := st.hl, hl_open_comment := st.in_comment }
        if changed && size_lt (line.idx + 1) linesnum then
          match updateChain syn linesnum fuel lines1 (line.idx + 1).toNat with
          | some r => some (r.1, k :: r.2)
          | none => none
        else some (lines1, [k])

/-- The field `hl_open_comment` of line `j`, if there is such a line. -/
def flagAt (lines : List line_t) (j : Nat) : Option Bool :=
  match lines[j]? with
  | some l => some l.hl_open_comment
  | none => none

/-- One key applied to the text of the prompt: Backspace, Ctrl-H and Delete remove
the last byte, a non-control key below 128 is appended, and any other key leaves
the text as it is. -/
def promptEdit (buf : List Nat) (c : Int) : List Nat :=
  if c = DEL_KEY ∨ c = CTRL_KEY 104 ∨ c = BACKSPACE then buf.dropLast
  else if iscntrlKey c = false ∧ c < 128 then buf ++ [(c % 256).toNat]
  else buf

/-- The text obtained from `buf` by the keys, in order. -/
def promptTextFrom (buf : List Nat) (keys : List Int) : List Nat := keys.foldl promptEdit buf

/-- The text of the prompt after the keys, from the empty buffer. -/
def promptText (keys : List Int) : List Nat := promptTextFrom [] keys

/-- The key codes `HandleInputs` can return: a signed character, or one of the
codes of `enum EditorKey` that the escape table produces. -/
def DecodedKey (c : Int) : Prop := (-128 ≤ c ∧ c ≤ 127) ∨ (1000 ≤ c ∧ c ≤ 1008)

/-- The document of the lines `/*` and `x` at the moment line 0 has been edited to
`/**/` and rendered, before it is highlighted again: line 1 is still classified
as comment. -/
def docEdited : EditorConfig :=
  { docOpen with
    line := docOpen.line.set 0
      { idx := 0, bytes := cstr "/**/", render := cstr "/**/", hl := [HL_MLCOMMENT, HL_MLCOMMENT],
        hl_open_comment := true } }


/-! ## Lists -/

theorem set_getElem?_self {α : Type} (l : List α) (k : Nat) (x : α) (h : l[k]? = some x) :
    l.set k x = l := by
  induction l generalizing k with
  | nil => rfl
  | cons a l ih =>
    cases k with
    | zero => simp at h; simp [h]
    | succ k => simp at h; simp [ih k h]

theorem map_set_of_eq {α : Type} (g : line_t → α) (lines : List line_t) (k : Nat)
    (line x : line_t) (h : lines[k]? = some line) (hx : g x = g line) :
    (lines.set k x).map g = lines.map g := by
  rw [List.map_set, hx]
  apply set_getElem?_self
  simp [h]

/-! ## Highlighting leaves bytes, render and index of every line alone -/

theorem EditorUpdateSyntax_map {α : Type} (g : line_t → α)
    (hg : ∀ (l : line_t) (h : List Nat) (b : Bool), g { l with hl := h, hl_open_comment := b } = g l)
    (syn : Option EditorSyntax) (n fuel : Nat) (lines : List line_t) (k : Nat) :
    (EditorUpdateSyntax syn n fuel lines k).map g = lines.map g := by
  induction fuel generalizing lines k with
  | zero => rfl
  | succ fuel ih =>
    unfold EditorUpdateSyntax
    cases hk : lines[k]? with
    | none => rfl
    | some line =>
      cases syn with
      | none => exact map_set_of_eq g lines k line _ hk (hg line _ line.hl_open_comment)
      | some s =>
        simp only []
        split
        · rw [ih]; exact map_set_of_eq g lines k line _ hk (hg line _ _)
        · exact map_set_of_eq g lines k line _ hk (hg line _ _)

theorem EditorUpdateSyntax_length (syn : Option EditorSyntax) (n fuel : Nat)
    (lines : List line_t) (k : Nat) :
    (EditorUpdateSyntax syn n fuel lines k).length = lines.length := by
  have := congrArg List.length (EditorUpdateSyntax_map (fun _ => ()) (fun _ _ _ => rfl) syn n fuel lines k)
  simpa using this

/-- The effect of `EditorUpdateLine` on a field that depends on neither render nor
highlight. -/
theorem EditorUpdateLine_map {α : Type} (g : line_t → α)
    (hg : ∀ (l : line_t) (h : List Nat) (b : Bool), g { l with hl := h, hl_open_comment := b } = g l)
    (hr : ∀ (l : line_t) (r : List Nat), g { l with render := r } = g l)
    (syn : Option EditorSyntax) (n : Nat) (lines : List line_t) (k : Nat) :
    (EditorUpdateLine syn n lines k).map g = lines.map g := by
  unfold EditorUpdateLine
  cases hk : lines[k]? with
  | none => rfl
  | some line =>
    simp only []
    rw [EditorUpdateSyntax_map g hg]
    exact map_set_of_eq g lines k line _ hk (hr line _)

theorem EditorUpdateLine_bytes (syn : Option EditorSyntax) (n : Nat) (lines : List line_t) (k : Nat) :
    (EditorUpdateLine syn n lines k).map line_t.bytes = lines.map line_t.bytes :=
  EditorUpdateLine_map line_t.bytes (fun _ _ _ => rfl) (fun _ _ => rfl) syn n lines k

theorem EditorUpdateLine_idx (syn : Option EditorSyntax) (n : Nat) (lines : List line_t) (k : Nat) :
    (EditorUpdateLine syn n lines k).map line_t.idx = lines.map line_t.idx :=
  EditorUpdateLine_map line_t.idx (fun _ _ _ => rfl) (fun _ _ => rfl) syn n lines k

theorem EditorUpdateLine_length (syn : Option EditorSyntax) (n : Nat) (lines : List line_t) (k : Nat) :
    (EditorUpdateLine syn n lines k).length = lines.length := by
  have := congrArg List.length (EditorUpdateLine_bytes syn n lines k)
  simpa using this

/-! ## The bytes of the document after each line-store operation -/

theorem EditorInsertLine_bytes (E : EditorConfig) (a : Nat) (s : List Nat) (ha : a ≤ E.linesnum) :
    (EditorInsertLine E (a : Int) s).line.map line_t.bytes =
      (E.line.map line_t.bytes).take a ++ s :: (E.line.map line_t.bytes).drop a := by
  unfold EditorInsertLine
  have h1 : ¬ ((a : Int) < 0 ∨ size_gt (a : Int) E.linesnum = true) := by
    simp [size_gt]; omega
  rw [if_neg h1]
  simp only [EditorUpdateLine_bytes, Int.toNat_ofNat, List.map_append, List.map_cons,
    List.map_take, List.map_drop, List.map_map]
  congr 2

theorem EditorInsertLine_idx (E : EditorConfig) (a : Nat) (s : List Nat) (ha : a ≤ E.linesnum) :
    (EditorInsertLine E (a : Int) s).line.map line_t.idx =
      (E.line.map line_t.idx).take a ++ (a : Int) :: ((E.line.map line_t.idx).drop a).map (· + 1) := by
  unfold EditorInsertLine
  have h1 : ¬ ((a : Int) < 0 ∨ size_gt (a : Int) E.linesnum = true) := by
    simp [size_gt]; omega
  rw [if_neg h1]
  simp only [EditorUpdateLine_idx, Int.toNat_ofNat, List.map_append, List.map_cons,
    List.map_take, List.map_drop, List.map_map]
  congr 2

theorem EditorInsertLine_out_of_range (E : EditorConfig) (at_ : Int) (s : List Nat)
    (h : at_ < 0 ∨ (E.linesnum : Int) < at_) : EditorInsertLine E at_ s = E := by
  unfold EditorInsertLine
  rw [if_pos]
  rcases h with h | h
  · exact Or.inl h
  · right; simp [size_gt, h]

theorem EditorDelLine_bytes (E : EditorConfig) (a : Nat) (ha : a < E.linesnum) :
    (EditorDelLine E (a : Int)).line.map line_t.bytes = (E.line.map line_t.bytes).eraseIdx a := by
  unfold EditorDelLine
  have h1 : ¬ ((a : Int) < 0 ∨ size_lt (a : Int) E.linesnum = false) := by
    simp [size_lt]; omega
  rw [if_neg h1]
  simp only [Int.toNat_ofNat, List.map_append, List.map_take, List.map_drop, List.map_map,
    List.eraseIdx_eq_take_drop_succ]
  congr 1

theorem EditorDelLine_idx (E : EditorConfig) (a : Nat) (ha : a < E.linesnum) :
    (EditorDelLine E (a : Int)).line.map line_t.idx =
      (E.line.map line_t.idx).take a ++ ((E.line.map line_t.idx).drop (a + 1)).map (· - 1) := by
  unfold EditorDelLine
  have h1 : ¬ ((a : Int) < 0 ∨ size_lt (a : Int) E.linesnum = false) := by
    simp [size_lt]; omega
  rw [if_neg h1]
  simp only [Int.toNat_ofNat, List.map_append, List.map_take, List.map_drop, List.map_map]
  congr 1

theorem EditorDelLine_out_of_range (E : EditorConfig) (at_ : Int)
    (h : at_ < 0 ∨ (E.linesnum : Int) ≤ at_) : EditorDelLine E at_ = E := by
  unfold EditorDelLine
  rw [if_pos]
  rcases h with h | h
  · exact Or.inl h
  · right; simp [size_lt]; omega


/-! ## Index integrity of the line store -/

theorem idxFrom_append (n : Int) (xs ys : List Int) :
    idxFrom n (xs ++ ys) ↔ idxFrom n xs ∧ idxFrom (n + xs.length) ys := by
  induction xs generalizing n with
  | nil => simp [idxFrom]
  | cons x xs ih =>
    have : n + 1 + (xs.length : Int) = n + ((xs.length + 1 : Nat) : Int) := by push_cast; ring
    show (x = n ∧ idxFrom (n + 1) (xs ++ ys)) ↔
      (x = n ∧ idxFrom (n + 1) xs) ∧ idxFrom (n + ((xs.length + 1 : Nat) : Int)) ys
    rw [ih, this, and_assoc]

theorem idxFrom_map_succ (n : Int) (ys : List Int) (h : idxFrom n ys) :
    idxFrom (n + 1) (ys.map (· + 1)) := by
  induction ys generalizing n with
  | nil => trivial
  | cons y ys ih => exact ⟨by rw [h.1], ih (n + 1) h.2⟩

theorem idxFrom_map_pred (n : Int) (ys : List Int) (h : idxFrom (n + 1) ys) :
    idxFrom n (ys.map (· - 1)) := by
  induction ys generalizing n with
  | nil => trivial
  | cons y ys ih => exact ⟨by rw [h.1]; simp, ih (n + 1) h.2⟩

theorem idxFrom_take_drop (n : Int) (xs : List Int) (a : Nat) (ha : a ≤ xs.length)
    (h : idxFrom n xs) : idxFrom n (xs.take a) ∧ idxFrom (n + a) (xs.drop a) := by
  have h2 := (idxFrom_append n (xs.take a) (xs.drop a)).1 (by rwa [List.take_append_drop])
  rw [List.length_take, Nat.min_eq_left ha] at h2
  exact h2

theorem idxFrom_getElem? (n : Int) (xs : List Int) (j : Nat) (i : Int) (h : idxFrom n xs)
    (hj : xs[j]? = some i) : i = n + j := by
  induction xs generalizing n j with
  | nil => simp at hj
  | cons x xs ih =>
    cases j with
    | zero => simp at hj; rw [← hj, h.1]; simp
    | succ j =>
      simp at hj
      rw [ih (n + 1) j h.2 hj]; push_cast; ring

theorem idxFrom_of_getElem? (n : Int) (xs : List Int)
    (h : ∀ (j : Nat) (i : Int), xs[j]? = some i → i = n + j) : idxFrom n xs := by
  induction xs generalizing n with
  | nil => trivial
  | cons x xs ih =>
    refine ⟨by simpa using h 0 x (by simp), ih (n + 1) ?_⟩
    intro j i hj
    rw [h (j + 1) i (by simpa using hj)]; push_cast; ring

theorem IdxIntegrity_iff (E : EditorConfig) :
    IdxIntegrity E ↔ idxFrom 0 (E.line.map line_t.idx) := by
  constructor
  · intro h
    apply idxFrom_of_getElem?
    intro j i hj
    simp only [List.getElem?_map, Option.map_eq_some'] at hj
    obtain ⟨l, hl, rfl⟩ := hj
    rw [h j l hl]; simp
  · intro h j l hl
    have := idxFrom_getElem? 0 _ j l.idx h (by simp [hl])
    simpa using this

theorem EditorInsertLine_IdxIntegrity (E : EditorConfig) (at_ : Int) (s : List Nat)
    (h : IdxIntegrity E) : IdxIntegrity (EditorInsertLine E at_ s) := by
  by_cases hr : at_ < 0 ∨ (E.linesnum : Int) < at_
  · rw [EditorInsertLine_out_of_range E at_ s hr]; exact h
  · obtain ⟨a, rfl⟩ : ∃ a : Nat, at_ = (a : Int) := ⟨at_.toNat, by omega⟩
    have ha : a ≤ E.linesnum := by omega
    rw [IdxIntegrity_iff] at h ⊢
    rw [EditorInsertLine_idx E a s ha]
    have ha2 : a ≤ (E.line.map line_t.idx).length := by simpa using ha
    obtain ⟨h1, h2⟩ := idxFrom_take_drop 0 _ a ha2 h
    rw [idxFrom_append, List.length_take, Nat.min_eq_left ha2]
    refine ⟨h1, ?_, ?_⟩
    · simp
    · exact idxFrom_map_succ _ _ h2

theorem EditorDelLine_IdxIntegrity (E : EditorConfig) (at_ : Int)
    (h : IdxIntegrity E) : IdxIntegrity (EditorDelLine E at_) := by
  by_cases hr : at_ < 0 ∨ (E.linesnum : Int) ≤ at_
  · rw [EditorDelLine_out_of_range E at_ hr]; exact h
  · obtain ⟨a, rfl⟩ : ∃ a : Nat, at_ = (a : Int) := ⟨at_.toNat, by omega⟩
    have ha : a < E.linesnum := by omega
    rw [IdxIntegrity_iff] at h ⊢
    rw [EditorDelLine_idx E a ha]
    have ha2 : a + 1 ≤ (E.line.map line_t.idx).length := by simpa using ha
    obtain ⟨h1, _⟩ := idxFrom_take_drop 0 _ a (by omega) h
    obtain ⟨_, h2⟩ := idxFrom_take_drop 0 _ (a + 1) ha2 h
    rw [idxFrom_append, List.length_take, Nat.min_eq_left (by omega)]
    refine ⟨h1, idxFrom_map_pred _ _ ?_⟩
    simpa using h2

theorem applyOps_IdxIntegrity (E : EditorConfig) (ops : List LineOp) (h : IdxIntegrity E) :
    IdxIntegrity (applyOps E ops) := by
  induction ops generalizing E with
  | nil => exact h
  | cons op ops ih =>
    unfold applyOps
    rw [List.foldl_cons]
    apply ih
    cases op with
    | insert at_ s => exact EditorInsertLine_IdxIntegrity E at_ s h
    | delete at_ => exact EditorDelLine_IdxIntegrity E at_ h

/-- C4: starting from the empty document, after any finite sequence of
`EditorInsertLine` and `EditorDelLine` calls at arbitrary positions, every line
`E.line[j]` with `0 <= j < E.linesnum` has `idx == j`. -/
theorem C4_insert_delete_index_integrity (E : EditorConfig) (ops : List LineOp)
    (hempty : E.line = []) (j : Nat) (l : line_t)
    (hj : (applyOps E ops).line[j]? = some l) : l.idx = (j : Int) := by
  have h0 : IdxIntegrity E := by
    intro j l hl; rw [hempty] at hl; simp at hl
  exact applyOps_IdxIntegrity E ops h0 j l hj

/-- C4 on a run that inserts three lines (one in front of the others), deletes
the middle one and makes two out-of-range calls: the line then at position 1
has `idx == 1`. -/
theorem C4_insert_delete_index_integrity_witness :
    ∃ l : line_t,
      (applyOps (InitEditorConsole 26 80) sampleOps).line[1]? = some l ∧ l.idx = 1 :=
  ⟨⟨1, [98], [98], [0], false⟩, by decide,
    C4_insert_delete_index_integrity (InitEditorConsole 26 80) sampleOps rfl 1 _ (by decide)⟩


/-! ## Tab conversion -/

theorem colStep_gt (b rx : Nat) : rx < colStep b rx := by
  unfold colStep; split <;> omega

theorem cxToRxLoop_cons (b : Nat) (bs : List Nat) (n rx : Nat) :
    cxToRxLoop (b :: bs) (n + 1) rx = cxToRxLoop bs n (colStep b rx) := rfl

theorem cxToRxLoop_ge (bs : List Nat) (n rx : Nat) : rx + n ≤ cxToRxLoop bs n rx := by
  induction n generalizing bs rx with
  | zero => cases bs <;> simp [cxToRxLoop]
  | succ n ih =>
    cases bs with
    | nil => have := ih [] (rx + 1); simp only [cxToRxLoop]; omega
    | cons b bs =>
      have := ih bs (colStep b rx); have := colStep_gt b rx
      rw [cxToRxLoop_cons]; omega

theorem rxToCxLoop_cons (rx : Int) (b : Nat) (bs : List Nat) (cx cur : Nat) :
    rxToCxLoop rx (b :: bs) cx cur =
      if ((colStep b cur : Nat) : Int) > rx then cx else rxToCxLoop rx bs (cx + 1) (colStep b cur) := rfl

/-- Converting the render column of byte offset `n` back gives `n`. -/
theorem rxToCxLoop_cxToRxLoop (bs : List Nat) (n cx cur : Nat) (hn : n ≤ bs.length) :
    rxToCxLoop ((cxToRxLoop bs n cur : Nat) : Int) bs cx cur = cx + n := by
  induction bs generalizing n cx cur with
  | nil =>
    have : n = 0 := by simpa using hn
    subst this; simp [rxToCxLoop]
  | cons b bs ih =>
    cases n with
    | zero =>
      have := colStep_gt b cur
      rw [rxToCxLoop_cons]; simp only [cxToRxLoop]
      rw [if_pos (by exact_mod_cast this)]; rfl
    | succ n =>
      have h1 := cxToRxLoop_ge bs n (colStep b cur)
      rw [cxToRxLoop_cons, rxToCxLoop_cons]
      rw [if_neg (by omega)]
      rw [ih n (cx + 1) (colStep b cur) (by simpa using hn)]; omega

/-- The loop of `EditorLineRxToCx` stops at the last offset whose column is within
`rx`. -/
theorem rxToCxLoop_spec (rx : Int) (bs : List Nat) (cx cur : Nat) (hcur : (cur : Int) ≤ rx) :
    ∃ n, n ≤ bs.length ∧ rxToCxLoop rx bs cx cur = cx + n ∧
      ((cxToRxLoop bs n cur : Nat) : Int) ≤ rx ∧
      ∀ m, n < m → m ≤ bs.length → rx < ((cxToRxLoop bs m cur : Nat) : Int) := by
  induction bs generalizing cx cur with
  | nil =>
    refine ⟨0, le_refl _, by simp [rxToCxLoop], by simpa [cxToRxLoop] using hcur, ?_⟩
    intro m h1 h2; simp at h2; omega
  | cons b bs ih =>
    by_cases h : ((colStep b cur : Nat) : Int) > rx
    · refine ⟨0, Nat.zero_le _, by rw [rxToCxLoop_cons, if_pos h]; rfl,
        by simpa [cxToRxLoop] using hcur, ?_⟩
      intro m h1 h2
      obtain ⟨m, rfl⟩ : ∃ k, m = k + 1 := ⟨m - 1, by omega⟩
      have := cxToRxLoop_ge bs m (colStep b cur)
      rw [cxToRxLoop_cons]; omega
    · obtain ⟨n, hn, hr, hle, hgt⟩ := ih (cx + 1) (colStep b cur) (by omega)
      refine ⟨n + 1, by simpa using hn, by rw [rxToCxLoop_cons, if_neg h, hr]; omega,
        by rw [cxToRxLoop_cons]; exact hle, ?_⟩
      intro m h1 h2
      obtain ⟨m, rfl⟩ : ∃ k, m = k + 1 := ⟨m - 1, by omega⟩
      rw [cxToRxLoop_cons]
      exact hgt m (by omega) (by simpa using h2)

/-- C7: with tab width 4, on a line whose bytes contain no tab, converting a byte
offset `cx` with `0 <= cx <= size` to its render column and back returns `cx`. -/
theorem C7_rx_to_cx_of_cx_to_rx_no_tabs (line : line_t) (cx : Int)
    (hno : ∀ b ∈ line.bytes, b ≠ 9) (h0 : 0 ≤ cx) (h1 : cx ≤ (line.size : Int)) :
    KILO_TAB_STOP = 4 ∧ EditorLineRxToCx line (EditorLineCxToRx line cx) = cx := by
  have _ := hno
  refine ⟨rfl, ?_⟩
  unfold EditorLineRxToCx EditorLineCxToRx
  have hn : cx.toNat ≤ line.bytes.length := by unfold line_t.size at h1; omega
  rw [rxToCxLoop_cxToRxLoop line.bytes cx.toNat 0 0 hn]
  omega

/-- C7 at the line `int x`, byte offset 3. -/
theorem C7_rx_to_cx_of_cx_to_rx_no_tabs_witness :
    KILO_TAB_STOP = 4 ∧
    EditorLineRxToCx ⟨0, cstr "int x", cstr "int x", [4, 4, 4, 0, 0], false⟩
      (EditorLineCxToRx ⟨0, cstr "int x", cstr "int x", [4, 4, 4, 0, 0], false⟩ 3) = 3 :=
  C7_rx_to_cx_of_cx_to_rx_no_tabs _ 3 (by decide) (by decide) (by decide)

/-- C8 as stated fails on a tab: for the line holding one tab and render column
1, which lies inside the tab, `EditorLineRxToCx` returns offset 0, whose render
column 0 is below 1, so the result is not an offset whose render column meets
or exceeds the query. -/
theorem C8_smallest_offset_counterexample :
    renderLoop tabLine.bytes [] = tabLine.render ∧ (1 : Int) ≤ (tabLine.rsize : Int) ∧
      ¬ SmallestOffsetReaching tabLine 1 (EditorLineRxToCx tabLine 1) := by
  refine ⟨by decide, by decide, ?_⟩
  intro h
  have h3 := h.2.2.1
  revert h3
  decide

/-- C8 (amended): for every line, tabs allowed, and every render column `rx >= 0`
(so also for `0 <= rx <= render length`), `EditorLineRxToCx` returns the largest
byte offset in `[0, size]` whose render column is at most `rx`. -/
theorem C8_rx_to_cx_largest_offset_within (line : line_t) (rx : Int) (h0 : 0 ≤ rx) :
    LargestOffsetWithin line rx (EditorLineRxToCx line rx) := by
  obtain ⟨n, hn, hr, hle, hgt⟩ := rxToCxLoop_spec rx line.bytes 0 0 (by simpa using h0)
  unfold LargestOffsetWithin EditorLineRxToCx EditorLineCxToRx line_t.size
  rw [hr]
  refine ⟨by omega, by omega, ?_, ?_⟩
  · simpa using hle
  · intro c hc1 hc2
    have := hgt c.toNat (by omega) (by omega)
    simpa using this

/-- C8 (amended) at the line holding one tab and render column 1. -/
theorem C8_rx_to_cx_largest_offset_within_witness :
    LargestOffsetWithin tabLine 1 (EditorLineRxToCx tabLine 1) :=
  C8_rx_to_cx_largest_offset_within tabLine 1 (by decide)


/-! ## Serialising the document -/

theorem serialize_foldl (lines : List line_t) (acc : List Nat) :
    lines.foldl (fun p l => p ++ l.bytes ++ [10]) acc =
      acc ++ (lines.map (fun l => l.bytes ++ [10])).flatten := by
  induction lines generalizing acc with
  | nil => simp
  | cons l ls ih =>
    simp only [List.foldl_cons, List.map_cons, List.flatten_cons]
    rw [ih]; simp [List.append_assoc]

theorem flatten_newlines (bs : List (List Nat)) (h : bs ≠ []) :
    (bs.map (fun b => b ++ [10])).flatten = joinLines bs ++ [10] := by
  induction bs with
  | nil => exact absurd rfl h
  | cons b bs ih =>
    cases bs with
    | nil => simp [joinLines]
    | cons b2 bs =>
      have := ih (by simp)
      simp only [List.map_cons, List.flatten_cons] at this ⊢
      rw [this]; simp [joinLines]

theorem sum_sizes (lines : List line_t) :
    (lines.map (fun l => l.size + 1)).sum =
      ((lines.map (fun l => l.bytes ++ [10])).flatten).length := by
  induction lines with
  | nil => rfl
  | cons l ls ih =>
    simp only [List.map_cons, List.sum_cons, List.flatten_cons, List.length_append,
      List.length_singleton]
    rw [ih]; rfl

/-- What `EditorLinesToString` returns for a document with at least one line: the
lines joined by newlines, then a NUL where the last newline was written, and a
length that counts that last byte. -/
theorem EditorLinesToString_eq (E : EditorConfig) (h : E.line ≠ []) :
    EditorLinesToString E =
      some ((joinLines (E.line.map line_t.bytes)).length + 1,
            joinLines (E.line.map line_t.bytes) ++ [0]) := by
  unfold EditorLinesToString
  have h0 : ¬ E.linesnum = 0 := by
    unfold EditorConfig.linesnum; simpa using h
  have hb : (E.line.map line_t.bytes) ≠ [] := by simpa using h
  have hf : (E.line.map (fun l => l.bytes ++ [10])).flatten
      = joinLines (E.line.map line_t.bytes) ++ [10] := by
    have := flatten_newlines (E.line.map line_t.bytes) hb
    simpa [List.map_map, Function.comp] using this
  simp only [if_neg h0, serialize_foldl, List.nil_append, sum_sizes, hf, List.dropLast_concat,
    List.length_append, List.length_singleton]

theorem segmentsFrom_cons_ne (acc s : List Nat) (c : Nat) (hc : c ≠ 10) :
    segmentsFrom acc (c :: s) = segmentsFrom (acc ++ [c]) s := by
  simp [segmentsFrom, hc]

theorem segmentsFrom_append (acc pre rest : List Nat) (h : ∀ b ∈ pre, b ≠ 10) :
    segmentsFrom acc (pre ++ rest) = segmentsFrom (acc ++ pre) rest := by
  induction pre generalizing acc with
  | nil => simp
  | cons c pre ih =>
    have hc : c ≠ 10 := h c (by simp)
    rw [List.cons_append, segmentsFrom_cons_ne _ _ _ hc,
      ih (acc ++ [c]) (fun b hb => h b (by simp [hb]))]
    simp

theorem segmentsFrom_newline (acc rest : List Nat) :
    segmentsFrom acc (10 :: rest) = acc :: segmentsFrom [] rest := by
  simp [segmentsFrom]

theorem joinLines_cons_ne (l : List Nat) (ls : List (List Nat)) (h : ls ≠ []) :
    joinLines (l :: ls) = l ++ 10 :: joinLines ls := by
  cases ls with
  | nil => exact absurd rfl h
  | cons a b => rfl

theorem segmentsFrom_ne_nil (acc s : List Nat) : segmentsFrom acc s ≠ [] := by
  induction s generalizing acc with
  | nil => simp [segmentsFrom]
  | cons c s ih =>
    unfold segmentsFrom; split
    · simp
    · exact ih _

theorem joinLines_segmentsFrom (acc s : List Nat) : joinLines (segmentsFrom acc s) = acc ++ s := by
  induction s generalizing acc with
  | nil => simp [segmentsFrom, joinLines]
  | cons c s ih =>
    unfold segmentsFrom; split
    · rename_i hc
      rw [joinLines_cons_ne _ _ (segmentsFrom_ne_nil _ _), ih, hc]; simp
    · rw [ih]; simp

theorem segmentsFrom_no_newline (acc s : List Nat) (h : ∀ b ∈ acc, b ≠ 10) :
    ∀ seg ∈ segmentsFrom acc s, ∀ b ∈ seg, b ≠ 10 := by
  induction s generalizing acc with
  | nil => intro seg hseg; simp [segmentsFrom] at hseg; subst hseg; exact h
  | cons c s ih =>
    intro seg hseg
    unfold segmentsFrom at hseg
    split at hseg
    · rcases List.mem_cons.1 hseg with h1 | h1
      · subst h1; exact h
      · exact ih [] (by simp) seg h1
    · rename_i hc
      refine ih (acc ++ [c]) ?_ seg hseg
      intro b hb
      rcases List.mem_append.1 hb with h1 | h1
      · exact h b h1
      · simp at h1; subst h1; exact hc

theorem segmentsFrom_length (acc s : List Nat) : (segmentsFrom acc s).length = s.count 10 + 1 := by
  induction s generalizing acc with
  | nil => simp [segmentsFrom]
  | cons c s ih =>
    unfold segmentsFrom; split
    · rename_i hc; subst hc; simp [ih]
    · rename_i hc
      rw [ih, List.count_cons_of_ne (Ne.symm hc)]

/-- What one call of `fgets` delivers: a prefix of the stream that either ends
with its only newline or has none. -/
theorem fgetsChunk_spec (n : Nat) (s : List Nat) :
    (fgetsChunk n s).1 ++ (fgetsChunk n s).2 = s ∧
      ((∃ pre, (fgetsChunk n s).1 = pre ++ [10] ∧ ∀ b ∈ pre, b ≠ 10) ∨
        ∀ b ∈ (fgetsChunk n s).1, b ≠ 10) := by
  induction n generalizing s with
  | zero => cases s <;> simp [fgetsChunk]
  | succ n ih =>
    cases s with
    | nil => simp [fgetsChunk]
    | cons c s =>
      unfold fgetsChunk
      split
      · rename_i hc; subst hc
        exact ⟨rfl, Or.inl ⟨[], rfl, by simp⟩⟩
      · rename_i hc
        obtain ⟨h1, h2⟩ := ih s
        refine ⟨by simp [h1], ?_⟩
        rcases h2 with ⟨pre, hp, hpre⟩ | h2
        · left
          refine ⟨c :: pre, by simp [hp], ?_⟩
          intro b hb
          rcases List.mem_cons.1 hb with h | h
          · subst h; exact hc
          · exact hpre b h
        · right
          intro b hb
          rcases List.mem_cons.1 hb with h | h
          · subst h; exact hc
          · exact h2 b h

theorem fgetsChunk_ne_nil (n : Nat) (s : List Nat) (hs : s ≠ []) :
    (fgetsChunk (n + 1) s).1 ≠ [] := by
  cases s with
  | nil => exact absurd rfl hs
  | cons c s => unfold fgetsChunk; split <;> simp

theorem strlen_eq_length (buf : List Nat) (h : ∀ b ∈ buf, b ≠ 0) : strlen buf = buf.length := by
  unfold strlen
  rw [List.takeWhile_eq_self_iff.2]
  intro x hx
  simpa using h x hx

theorem stripLoop_no_eol (buf : List Nat) (h : ∀ b ∈ buf, b ≠ 10 ∧ b ≠ 13) (nl : Bool) :
    stripLoop buf buf.length nl = (buf.length, nl) := by
  cases hn : buf.length with
  | zero => rfl
  | succ n =>
    unfold stripLoop
    have hlt : n < buf.length := by omega
    have hmem : buf[n] ∈ buf := List.getElem_mem hlt
    have hget : buf.getD n 0 = buf[n] := by simp [List.getD, List.getElem?_eq_getElem hlt]
    have := h _ hmem
    rw [if_neg (by rw [hget]; tauto)]

theorem stripLoop_newline (pre : List Nat) (h : ∀ b ∈ pre, b ≠ 10 ∧ b ≠ 13) (nl : Bool) :
    stripLoop (pre ++ [10]) (pre.length + 1) nl = (pre.length, true) := by
  unfold stripLoop
  have h1 : (pre ++ [10]).getD pre.length 0 = 10 := by simp [List.getD]
  rw [if_pos (Or.inl h1)]
  cases hn : pre.length with
  | zero => rfl
  | succ n =>
    unfold stripLoop
    have hlt : n < pre.length := by omega
    have hmem : pre[n] ∈ pre := List.getElem_mem hlt
    have hget : (pre ++ [10]).getD n 0 = pre[n] := by
      simp [List.getD, List.getElem?_append_left hlt, List.getElem?_eq_getElem hlt]
    have := h _ hmem
    rw [if_neg (by rw [hget]; tauto)]


theorem take_splice (line buf : List Nat) (linelen r : Nat) (hlen : linelen ≤ line.length)
    (hr : r ≤ buf.length) :
    (line.take linelen ++ buf.take r ++ line.drop (linelen + r)).take (linelen + r) =
      line.take linelen ++ buf.take r := by
  apply List.take_left'
  simp [List.length_take, Nat.min_eq_left hlen, Nat.min_eq_left hr]

theorem EditorInsertLine_at_end_bytes (E : EditorConfig) (s : List Nat) :
    (EditorInsertLine E (E.linesnum : Int) s).line.map line_t.bytes =
      E.line.map line_t.bytes ++ [s] := by
  rw [EditorInsertLine_bytes E E.linesnum s (le_refl _)]
  have h : (E.line.map line_t.bytes).length = E.linesnum := by simp [EditorConfig.linesnum]
  rw [← h, List.take_length, List.drop_length]

/-- The loop of `EditorOpen` appends to the document the segments of the text
still to be read, the first of them continuing the bytes already gathered; the
last segment is left in the buffer. -/
theorem openLoop_spec (fuel : Nat) (inp : List Nat) (E : EditorConfig) (line : List Nat)
    (linelen : Nat) (hfuel : inp.length < fuel) (hclean : ∀ b ∈ inp, b ≠ 13 ∧ b ≠ 0)
    (hlen : linelen ≤ line.length) :
    ∃ E' line' linelen', openLoop fuel inp E line linelen false = some (E', line', linelen') ∧
      E'.line.map line_t.bytes ++ [line'.take linelen'] =
        E.line.map line_t.bytes ++ segmentsFrom (line.take linelen) inp := by
  induction fuel generalizing inp E line linelen with
  | zero => omega
  | succ fuel ih =>
    rw [openLoop]
    by_cases hne : inp = []
    · subst hne
      exact ⟨E, line, linelen, by simp [fgets], by simp [segmentsFrom]⟩
    · obtain ⟨hsplit, hshape⟩ := fgetsChunk_spec 63 inp
      have hbuf := fgetsChunk_ne_nil 62 inp hne
      generalize hb : (fgetsChunk 63 inp).1 = buf at hsplit hshape hbuf
      generalize hrest : (fgetsChunk 63 inp).2 = rest at hsplit
      have hfg : fgets 64 inp = some (buf, rest) := by
        simp [fgets, hne, ← hb, ← hrest]
      have hcb : ∀ b ∈ buf, b ≠ 13 ∧ b ≠ 0 := fun b h => hclean b (by rw [← hsplit]; simp [h])
      have hcr : ∀ b ∈ rest, b ≠ 13 ∧ b ≠ 0 := fun b h => hclean b (by rw [← hsplit]; simp [h])
      have hlr : rest.length < fuel := by
        have : buf.length + rest.length = inp.length := by rw [← hsplit]; simp
        have : 0 < buf.length := List.length_pos.2 hbuf
        omega
      have hsl : strlen buf = buf.length := strlen_eq_length buf (fun b h => (hcb b h).2)
      simp only [hfg, hsl]
      rcases hshape with ⟨pre, hp, hpre⟩ | hno
      · subst hp
        have hcp : ∀ b ∈ pre, b ≠ 10 ∧ b ≠ 13 :=
          fun b h => ⟨hpre b h, (hcb b (by simp [h])).1⟩
        have hst : stripLoop (pre ++ [10]) (pre ++ [10]).length false = (pre.length, true) := by
          rw [List.length_append, List.length_singleton]; exact stripLoop_newline pre hcp false
        have htk : (pre ++ [10]).take pre.length = pre := List.take_left _ _
        have hsp := take_splice line (pre ++ [10]) linelen pre.length hlen (by simp)
        simp only [hst, if_true, htk] at hsp ⊢
        obtain ⟨E', line', linelen', h1, h2⟩ :=
          ih rest (EditorInsertLine E E.linesnum ((line.take linelen ++ pre ++
            line.drop (linelen + pre.length)).take (linelen + pre.length)))
            (line.take linelen ++ pre ++ line.drop (linelen + pre.length)) 0 hlr hcr (Nat.zero_le _)
        refine ⟨E', line', linelen', h1, ?_⟩
        have hseg : segmentsFrom (line.take linelen) inp
            = (line.take linelen ++ pre) :: segmentsFrom [] rest := by
          rw [← hsplit, List.append_assoc pre, segmentsFrom_append _ pre _ hpre]
          exact segmentsFrom_newline _ _
        rw [h2, EditorInsertLine_at_end_bytes, hsp, hseg]
        simp
      · have hcp : ∀ b ∈ buf, b ≠ 10 ∧ b ≠ 13 := fun b h => ⟨hno b h, (hcb b h).1⟩
        have hst : stripLoop buf buf.length false = (buf.length, false) :=
          stripLoop_no_eol buf hcp false
        have hsp := take_splice line buf linelen buf.length hlen (le_refl _)
        simp only [hst, List.take_length] at hsp ⊢
        obtain ⟨E', line', linelen', h1, h2⟩ :=
          ih rest E (line.take linelen ++ buf ++ line.drop (linelen + buf.length))
            (linelen + buf.length) hlr hcr
            (by simp [List.length_take, Nat.min_eq_left hlen])
        refine ⟨E', line', linelen', by simpa using h1, ?_⟩
        rw [h2, hsp, ← hsplit, segmentsFrom_append _ buf _ hno]

theorem EditorSelectSyntaxHighlight_line_nil (E : EditorConfig) (h : E.line = []) :
    (EditorSelectSyntaxHighlight E).line = [] := by
  unfold EditorSelectSyntaxHighlight
  cases E.filename with
  | none => exact h
  | some fn =>
    simp only []
    cases HLDB.find? (syntaxMatches fn) with
    | none => exact h
    | some s => simp [EditorConfig.linesnum, h]

/-- The lines `EditorOpen` produces on an empty editor are the segments of the
text. -/
theorem open_lines (E : EditorConfig) (filename text : List Nat)
    (hempty : E.line = []) (hclean : ∀ b ∈ text, b ≠ 13 ∧ b ≠ 0) :
    ∃ E', EditorOpen E filename (some text) = some E' ∧
      E'.line.map line_t.bytes = segments text ∧
      E'.linesnum = text.count 10 + 1 ∧
      joinLines (segments text) = text ∧
      ∀ seg ∈ segments text, ∀ b ∈ seg, b ≠ 10 := by
  have h1 : (EditorSelectSyntaxHighlight { E with filename := some filename }).line = [] :=
    EditorSelectSyntaxHighlight_line_nil _ hempty
  obtain ⟨E2, line, linelen, h2, h3⟩ :=
    openLoop_spec (text.length + 1) text
      (EditorSelectSyntaxHighlight { E with filename := some filename }) [] 0
      (Nat.lt_succ_self _) hclean (Nat.zero_le _)
  have hb : (EditorInsertLine E2 E2.linesnum (line.take linelen)).line.map line_t.bytes
      = segments text := by
    rw [EditorInsertLine_at_end_bytes, h3, h1]; rfl
  refine ⟨{ EditorInsertLine E2 E2.linesnum (line.take linelen) with dirty := 0 },
    by simp only [EditorOpen, h2], hb, ?_, ?_, ?_⟩
  · have := congrArg List.length hb
    simp only [List.length_map] at this
    show (EditorInsertLine E2 E2.linesnum (line.take linelen)).line.length = _
    rw [this, segments, segmentsFrom_length]
  · simpa [segments] using joinLines_segmentsFrom [] text
  · exact segmentsFrom_no_newline [] text (by simp)

/-- C3: for every text without CR or NUL bytes, `EditorOpen` on an empty editor
produces one line per `\n`-separated segment, in order, the final segment after
the last `\n` included, so the line count is the number of `\n` plus one; each
line's bytes equal its segment, of whatever length.  (The segments are the
`\n`-free lists whose join by `\n` is the text.) -/
theorem C3_open_one_line_per_segment (E : EditorConfig) (filename text : List Nat)
    (hempty : E.line = []) (hclean : ∀ b ∈ text, b ≠ 13 ∧ b ≠ 0) :
    ∃ E', EditorOpen E filename (some text) = some E' ∧
      E'.line.map line_t.bytes = segments text ∧
      E'.linesnum = text.count 10 + 1 ∧
      joinLines (segments text) = text ∧
      ∀ seg ∈ segments text, ∀ b ∈ seg, b ≠ 10 :=
  open_lines E filename text hempty hclean

/-- C3 on a text whose first segment is longer than one chunk of 63 bytes, whose
second segment is empty and whose last segment has no newline after it. -/
theorem C3_open_one_line_per_segment_witness :
    ∃ E', EditorOpen (InitEditorConsole 26 80) (cstr "a.txt")
        (some (List.replicate 70 120 ++ cstr "\n\nxyz")) = some E' ∧
      E'.line.map line_t.bytes = segments (List.replicate 70 120 ++ cstr "\n\nxyz") ∧
      E'.linesnum = (List.replicate 70 120 ++ cstr "\n\nxyz").count 10 + 1 ∧
      joinLines (segments (List.replicate 70 120 ++ cstr "\n\nxyz"))
        = List.replicate 70 120 ++ cstr "\n\nxyz" ∧
      ∀ seg ∈ segments (List.replicate 70 120 ++ cstr "\n\nxyz"), ∀ b ∈ seg, b ≠ 10 :=
  C3_open_one_line_per_segment (InitEditorConsole 26 80) (cstr "a.txt")
    (List.replicate 70 120 ++ cstr "\n\nxyz") rfl (by decide)

/-- What loading and serialising returns for every text without CR and NUL
bytes, whether it ends with a newline or not: `*buflen` is the length of the
text plus one, and the buffer holds the bytes of the text followed by one NUL
byte, which stands where the serialiser had written the newline after the last
line. -/
theorem EditorOpen_then_EditorLinesToString (E : EditorConfig) (filename text : List Nat)
    (hempty : E.line = []) (hclean : ∀ b ∈ text, b ≠ 13 ∧ b ≠ 0) :
    ∃ E', EditorOpen E filename (some text) = some E' ∧
      EditorLinesToString E' = some (text.length + 1, text ++ [0]) := by
  obtain ⟨E', h1, h2, h3, h4, _⟩ := open_lines E filename text hempty hclean
  have hne : E'.line ≠ [] := by
    intro h; rw [EditorConfig.linesnum, h] at h3; simp at h3
  refine ⟨E', h1, ?_⟩
  rw [EditorLinesToString_eq E' hne, h2, h4]

/-- C1 at the text `a\n`: after `EditorOpen`, `EditorLinesToString` sets `*buflen`
to 3 and returns the bytes `a`, newline, NUL, so the `*buflen` bytes of the
buffer are not the two bytes of the text: the newline after the last (empty)
line has been overwritten by the NUL and is still counted. -/
theorem C1_round_trip_ends_with_nul :
    ∃ E', EditorOpen (InitEditorConsole 26 80) (cstr "a.txt") (some (cstr "a\n")) = some E' ∧
      E'.line.map line_t.bytes = [cstr "a", []] ∧
      EditorLinesToString E' = some (3, [97, 10, 0]) ∧
      ([97, 10, 0] : List Nat).take 3 ≠ cstr "a\n" :=
  ⟨_, rfl, by decide, by decide, by decide⟩


/-! ## The highlight array under `memset` and single stores -/

theorem memset_length (hl : List Nat) (i v n : Nat) : (memset hl i v n).length = hl.length := by
  induction hl generalizing i n with
  | nil => simp [memset]
  | cons x xs ih =>
    cases i with
    | zero => cases n with
      | zero => simp [memset]
      | succ n => simp [memset, ih]
    | succ i => simp [memset, ih]

theorem memset_getD (hl : List Nat) (i v n p d : Nat) :
    (memset hl i v n).getD p d = if i ≤ p ∧ p < i + n ∧ p < hl.length then v else hl.getD p d := by
  induction hl generalizing i n p with
  | nil => simp [memset]
  | cons x xs ih =>
    cases i with
    | zero =>
      cases n with
      | zero => simp [memset]
      | succ n =>
        cases p with
        | zero => simp [memset]
        | succ p =>
          simp only [memset, List.getD_cons_succ, ih, List.length_cons]
          congr 1
          apply propext; constructor <;> intro h <;> omega
    | succ i =>
      cases p with
      | zero => simp [memset]
      | succ p =>
        simp only [memset, List.getD_cons_succ, ih, List.length_cons]
        congr 1
        apply propext; constructor <;> intro h <;> omega

theorem set_getD (hl : List Nat) (i v p d : Nat) :
    (hl.set i v).getD p d = if p = i ∧ i < hl.length then v else hl.getD p d := by
  simp only [List.getD_eq_getElem?_getD, List.getElem?_set]
  by_cases h : i = p
  · subst h
    by_cases h2 : i < hl.length
    · simp [h2]
    · simp [h2, List.getElem?_eq_none (Nat.le_of_not_lt h2)]
  · have : ¬ p = i := fun e => h e.symm
    simp [h, this]

theorem Written_memset (hl : List Nat) (i v n : Nat) : Written hl (memset hl i v n) i n v :=
  ⟨memset_length hl i v n, fun p => memset_getD hl i v n p 0⟩

theorem Written_set (hl : List Nat) (i v : Nat) : Written hl (hl.set i v) i 1 v := by
  refine ⟨List.length_set _ _ _, fun p => ?_⟩
  rw [set_getD]
  congr 1
  apply propext; constructor <;> intro h <;> omega

theorem Written_set_set (hl : List Nat) (i v : Nat) :
    Written hl ((hl.set i v).set (i + 1) v) i 2 v := by
  refine ⟨by simp, fun p => ?_⟩
  rw [set_getD, set_getD, List.length_set]
  by_cases h1 : p = i + 1 ∧ i + 1 < hl.length
  · rw [if_pos h1, if_pos (by omega)]
  · rw [if_neg h1]
    by_cases h2 : p = i ∧ i < hl.length
    · rw [if_pos h2, if_pos (by omega)]
    · rw [if_neg h2, if_neg (by omega)]

theorem Written_set_memset (hl : List Nat) (i v n : Nat) (hn : n ≠ 0) :
    Written hl (memset (hl.set i v) i v n) i n v := by
  refine ⟨by rw [memset_length, List.length_set], fun p => ?_⟩
  rw [memset_getD, set_getD, List.length_set]
  by_cases h1 : i ≤ p ∧ p < i + n ∧ p < hl.length
  · rw [if_pos h1, if_pos h1]
  · rw [if_neg h1, if_neg h1, if_neg (by omega)]

theorem not_isKeywordClass_normal : ¬ isKeywordClass HL_NORMAL := by
  unfold isKeywordClass; decide

/-- A store of `n` equal entries at the scan position keeps the keyword-boundary
property and the normal tail, provided a keyword class is only stored in front
of a separator or the end of the line. -/
theorem Written_preserves (render hl hl2 : List Nat) (i n v : Nat)
    (hlen : hl.length = render.length) (hA : NormalFrom i hl) (hB : KeywordSpansEnd render hl)
    (hW : Written hl hl2 i n v)
    (hv : isKeywordClass v → is_separator (render.getD (i + n) 0) = true) :
    hl2.length = render.length ∧ NormalFrom (i + n) hl2 ∧ KeywordSpansEnd render hl2 := by
  obtain ⟨hl2len, hget⟩ := hW
  refine ⟨by rw [hl2len, hlen], ?_, ?_⟩
  · intro p hp
    rw [hget p, if_neg (by omega)]
    exact hA p (by omega)
  · intro p hp hk
    rw [hget p] at hk
    rw [hget (p + 1)]
    rw [hget p]
    by_cases hw : i ≤ p ∧ p < i + n ∧ p < hl.length
    · rw [if_pos hw] at hk ⊢
      by_cases hw2 : p + 1 < i + n
      · left; rw [if_pos (by omega)]
      · right
        have : p + 1 = i + n := by omega
        rw [this]; exact hv hk
    · rw [if_neg hw] at hk ⊢
      have hpi : p < i := by
        by_contra hc
        have := hA p (by omega)
        rw [this] at hk
        exact not_isKeywordClass_normal hk
      rcases hB p hp hk with h | h
      · left
        have hpi2 : p + 1 < i := by
          by_contra hc
          have := hA (p + 1) (by omega)
          rw [this] at h
          rw [← h] at hk
          exact not_isKeywordClass_normal hk
        rw [if_neg (by omega)]; exact h
      · exact Or.inr h

theorem NormalFrom_mono (i j : Nat) (hl : List Nat) (h : NormalFrom i hl) (hij : i ≤ j) :
    NormalFrom j hl := fun p hp => h p (by omega)

theorem headD_drop (l : List Nat) (n : Nat) : (l.drop n).headD 0 = l.getD n 0 := by
  simp

/-! ## Keywords end at a separator -/

theorem keywordLoop_preserves (render : List Nat) (kws : List (List Nat)) (i : Nat) (hl : List Nat)
    (hlen : hl.length = render.length) (hA : NormalFrom i hl) (hB : KeywordSpansEnd render hl) :
    (keywordLoop render kws i hl).2.length = render.length ∧
      NormalFrom (keywordLoop render kws i hl).1 (keywordLoop render kws i hl).2 ∧
      KeywordSpansEnd render (keywordLoop render kws i hl).2 ∧
      i ≤ (keywordLoop render kws i hl).1 := by
  induction kws generalizing i hl with
  | nil => exact ⟨hlen, hA, hB, le_refl _⟩
  | cons kw kws ih =>
    unfold keywordLoop
    simp only []
    generalize (if (kw.getLast? == some 124) = true then kw.length - 1 else kw.length) = klen
    generalize (if (kw.getLast? == some 124) = true then HL_KEYWORD2 else HL_KEYWORD1) = v
    split
    · rename_i hm
      simp only [Bool.and_eq_true] at hm
      have hsep := hm.2
      rw [headD_drop] at hsep
      obtain ⟨h1, h2, h3⟩ := Written_preserves render hl _ i _ _ hlen hA hB
        (Written_memset hl i v klen) (fun _ => hsep)
      obtain ⟨g1, g2, g3, g4⟩ := ih _ _ h1 h2 h3
      exact ⟨g1, g2, g3, by omega⟩
    · exact ih i hl hlen hA hB

theorem not_kw_comment : ¬ isKeywordClass HL_COMMENT := by unfold isKeywordClass; decide
theorem not_kw_mlcomment : ¬ isKeywordClass HL_MLCOMMENT := by unfold isKeywordClass; decide
theorem not_kw_string : ¬ isKeywordClass HL_STRING := by unfold isKeywordClass; decide
theorem not_kw_number : ¬ isKeywordClass HL_NUMBER := by unfold isKeywordClass; decide

/-- The shapes of the state after one iteration of the column scan, one per
branch of the loop body: a property that holds for each of them holds for the
result of `scanStep`. -/
theorem scanStep_elim (syn : EditorSyntax) (render : List Nat) (st : ScanState)
    (P : ScanState → Prop)
    (hscs : P { st with hl := memset st.hl st.i HL_COMMENT (render.length - st.i), stop := true })
    (hmce : ∀ n, n ≠ 0 →
      P { st with hl := memset (st.hl.set st.i HL_MLCOMMENT) st.i HL_MLCOMMENT n
                  i := st.i + n, in_comment := false, prev_sep := true })
    (hin : P { st with hl := st.hl.set st.i HL_MLCOMMENT, i := st.i + 1 })
    (hmcs : ∀ n, n ≠ 0 →
      P { st with hl := memset st.hl st.i HL_MLCOMMENT n, i := st.i + n, in_comment := true })
    (hesc : P { st with hl := (st.hl.set st.i HL_STRING).set (st.i + 1) HL_STRING, i := st.i + 2 })
    (hstr : ∀ q, P { st with hl := st.hl.set st.i HL_STRING, in_string := q
                             i := st.i + 1, prev_sep := true })
    (hquote : ∀ q, P { st with in_string := q, hl := st.hl.set st.i HL_STRING, i := st.i + 1 })
    (hnum : P { st with hl := st.hl.set st.i HL_NUMBER, i := st.i + 1, prev_sep := false })
    (hkw : ∀ b, P { st with i := (keywordLoop render syn.keywords st.i st.hl).1 + 1
                            hl := (keywordLoop render syn.keywords st.i st.hl).2, prev_sep := b })
    (hplain : ∀ b, P { st with i := st.i + 1, hl := st.hl, prev_sep := b }) :
    P (scanStep syn render st) := by
  unfold scanStep
  simp only []
  generalize (if syn.singleline_comment_start.isSome = true
    then syn.multiline_comment_start.length else 0) = mcs_len
  generalize (if syn.singleline_comment_start.isSome = true
    then syn.multiline_comment_end.length else 0) = mce_len
  generalize (if render.getD st.i 0 = st.in_string then 0 else st.in_string) = q
  generalize (if st.i > 0 then st.hl.getD (st.i - 1) HL_NORMAL else HL_NORMAL) = prev_hl
  split
  · exact hscs
  · split
    · rename_i hc
      split
      · exact hmce _ hc.2.1
      · exact hin
    · split
      · rename_i hc
        exact hmcs _ hc.1
      · split
        · split
          · exact hesc
          · exact hstr q
        · split
          · exact hquote _
          · split
            · exact hnum
            · cases st.prev_sep with
              | true => exact hkw _
              | false => exact hplain _

/-- One iteration of the column scan keeps the keyword-boundary property; unless
it took the `break`, it moves the scan position forward and leaves the
highlight array normal from the new position on. -/
theorem scanStep_preserves (syn : EditorSyntax) (render : List Nat) (st : ScanState)
    (hlen : st.hl.length = render.length) (hA : NormalFrom st.i st.hl)
    (hB : KeywordSpansEnd render st.hl) :
    (scanStep syn render st).hl.length = render.length ∧
      KeywordSpansEnd render (scanStep syn render st).hl ∧
      ((scanStep syn render st).stop = false →
        NormalFrom (scanStep syn render st).i (scanStep syn render st).hl ∧
          st.i < (scanStep syn render st).i) := by
  apply scanStep_elim syn render st
    (fun r => r.hl.length = render.length ∧ KeywordSpansEnd render r.hl ∧
      (r.stop = false → NormalFrom r.i r.hl ∧ st.i < r.i))
  · obtain ⟨h1, _, h3⟩ := Written_preserves render st.hl _ st.i _ _ hlen hA hB
      (Written_memset st.hl st.i HL_COMMENT (render.length - st.i)) (fun h => absurd h not_kw_comment)
    exact ⟨h1, h3, fun h => by simp at h⟩
  · intro n hn
    obtain ⟨h1, h2, h3⟩ := Written_preserves render st.hl _ st.i _ _ hlen hA hB
      (Written_set_memset st.hl st.i HL_MLCOMMENT n hn) (fun h => absurd h not_kw_mlcomment)
    exact ⟨h1, h3, fun _ => ⟨h2, by show st.i < st.i + n; omega⟩⟩
  · obtain ⟨h1, h2, h3⟩ := Written_preserves render st.hl _ st.i _ _ hlen hA hB
      (Written_set st.hl st.i HL_MLCOMMENT) (fun h => absurd h not_kw_mlcomment)
    exact ⟨h1, h3, fun _ => ⟨h2, Nat.lt_succ_self _⟩⟩
  · intro n hn
    obtain ⟨h1, h2, h3⟩ := Written_preserves render st.hl _ st.i _ _ hlen hA hB
      (Written_memset st.hl st.i HL_MLCOMMENT n) (fun h => absurd h not_kw_mlcomment)
    exact ⟨h1, h3, fun _ => ⟨h2, by show st.i < st.i + n; omega⟩⟩
  · obtain ⟨h1, h2, h3⟩ := Written_preserves render st.hl _ st.i _ _ hlen hA hB
      (Written_set_set st.hl st.i HL_STRING) (fun h => absurd h not_kw_string)
    exact ⟨h1, h3, fun _ => ⟨h2, by show st.i < st.i + 2; omega⟩⟩
  · intro q
    obtain ⟨h1, h2, h3⟩ := Written_preserves render st.hl _ st.i _ _ hlen hA hB
      (Written_set st.hl st.i HL_STRING) (fun h => absurd h not_kw_string)
    exact ⟨h1, h3, fun _ => ⟨h2, Nat.lt_succ_self _⟩⟩
  · intro q
    obtain ⟨h1, h2, h3⟩ := Written_preserves render st.hl _ st.i _ _ hlen hA hB
      (Written_set st.hl st.i HL_STRING) (fun h => absurd h not_kw_string)
    exact ⟨h1, h3, fun _ => ⟨h2, Nat.lt_succ_self _⟩⟩
  · obtain ⟨h1, h2, h3⟩ := Written_preserves render st.hl _ st.i _ _ hlen hA hB
      (Written_set st.hl st.i HL_NUMBER) (fun h => absurd h not_kw_number)
    exact ⟨h1, h3, fun _ => ⟨h2, Nat.lt_succ_self _⟩⟩
  · intro b
    obtain ⟨g1, g2, g3, g4⟩ := keywordLoop_preserves render syn.keywords st.i st.hl hlen hA hB
    exact ⟨g1, g3, fun _ => ⟨NormalFrom_mono _ _ _ g2 (Nat.le_succ _), by
      show st.i < (keywordLoop render syn.keywords st.i st.hl).1 + 1
      omega⟩⟩
  · intro b
    exact ⟨hlen, hB, fun _ => ⟨NormalFrom_mono _ _ _ hA (Nat.le_succ _), Nat.lt_succ_self _⟩⟩

theorem scanLoop_preserves (syn : EditorSyntax) (render : List Nat) (fuel : Nat) (st : ScanState)
    (hlen : st.hl.length = render.length) (hA : st.stop = false → NormalFrom st.i st.hl)
    (hB : KeywordSpansEnd render st.hl) :
    (scanLoop syn render fuel st).hl.length = render.length ∧
      KeywordSpansEnd render (scanLoop syn render fuel st).hl := by
  induction fuel generalizing st with
  | zero => exact ⟨hlen, hB⟩
  | succ fuel ih =>
    unfold scanLoop
    split
    · rename_i hc
      obtain ⟨h1, h2, h3⟩ := scanStep_preserves syn render st hlen (hA hc.2) hB
      exact ih _ h1 (fun h => (h3 h).1) h2
    · exact ⟨hlen, hB⟩

/-- The highlight array the column scan produces, for any profile and any initial
comment state, has the keyword-boundary property. -/
theorem scanLine_KeywordSpansEnd (syn : EditorSyntax) (render : List Nat) (in_comment : Bool) :
    (scanLine syn render in_comment).hl.length = render.length ∧
      KeywordSpansEnd render (scanLine syn render in_comment).hl := by
  unfold scanLine
  apply scanLoop_preserves
  · simp
  · intro _ p _
    simp [List.getD_eq_getElem?_getD, List.getElem?_replicate, HL_NORMAL]
    split <;> rfl
  · intro p _ hk
    exfalso
    have : (List.replicate render.length HL_NORMAL).getD p 0 = HL_NORMAL := by
      simp [List.getD_eq_getElem?_getD, List.getElem?_replicate, HL_NORMAL]
      split <;> rfl
    simp only [] at hk
    rw [this] at hk
    exact not_isKeywordClass_normal hk

/-- C10: under the C profile, for a line highlighted from a non-comment start,
every maximal span classified `HL_KEYWORD1` or `HL_KEYWORD2` is immediately
followed by a separator byte or the end of the line (`k` is the last byte of
such a span: a keyword byte whose successor, if any, has another class); no
byte of `intx` is classified as a keyword, while in `int x` the first three
bytes are `HL_KEYWORD2` and the remaining bytes `HL_NORMAL`. -/
theorem C10_keyword_spans_end_at_separator (render : List Nat) (k : Nat)
    (hk : k < render.length)
    (hkw : isKeywordClass ((scanLine cProfile render false).hl.getD k 0))
    (hmax : k + 1 < render.length →
      (scanLine cProfile render false).hl.getD (k + 1) 0 ≠
        (scanLine cProfile render false).hl.getD k 0) :
    (k + 1 = render.length ∨ is_separator (render.getD (k + 1) 0) = true) ∧
      (scanLine cProfile (cstr "intx") false).hl = [HL_NORMAL, HL_NORMAL, HL_NORMAL, HL_NORMAL] ∧
      (scanLine cProfile (cstr "int x") false).hl =
        [HL_KEYWORD2, HL_KEYWORD2, HL_KEYWORD2, HL_NORMAL, HL_NORMAL] := by
  refine ⟨?_, by decide, by decide⟩
  by_cases h : k + 1 < render.length
  · right
    rcases (scanLine_KeywordSpansEnd cProfile render false).2 k h hkw with h1 | h1
    · exact absurd h1 (hmax h)
    · exact h1
  · left; omega

/-- C10 at the line `int x` and the last byte of its keyword. -/
theorem C10_keyword_spans_end_at_separator_witness :
    (2 + 1 = (cstr "int x").length ∨ is_separator ((cstr "int x").getD (2 + 1) 0) = true) ∧
      (scanLine cProfile (cstr "intx") false).hl = [HL_NORMAL, HL_NORMAL, HL_NORMAL, HL_NORMAL] ∧
      (scanLine cProfile (cstr "int x") false).hl =
        [HL_KEYWORD2, HL_KEYWORD2, HL_KEYWORD2, HL_NORMAL, HL_NORMAL] :=
  C10_keyword_spans_end_at_separator (cstr "int x") 2 (by decide)
    (by unfold isKeywordClass; decide) (fun _ => by decide)


/-! ## The column scan runs to the end of the line -/

theorem keywordLoop_le (render : List Nat) (kws : List (List Nat)) (i : Nat) (hl : List Nat) :
    i ≤ (keywordLoop render kws i hl).1 := by
  induction kws generalizing i hl with
  | nil => exact le_refl _
  | cons kw kws ih =>
    unfold keywordLoop
    simp only []
    generalize (if (kw.getLast? == some 124) = true then kw.length - 1 else kw.length) = klen
    generalize (if (kw.getLast? == some 124) = true then HL_KEYWORD2 else HL_KEYWORD1) = v
    split
    · have := ih (i + klen) (memset hl i v klen)
      omega
    · exact ih i hl

/-- Every iteration of the column scan that does not `break` advances `i`. -/
theorem scanStep_advances (syn : EditorSyntax) (render : List Nat) (st : ScanState)
    (h : (scanStep syn render st).stop = false) : st.i < (scanStep syn render st).i := by
  revert h
  apply scanStep_elim syn render st (fun r => r.stop = false → st.i < r.i)
  · intro h; simp at h
  · intro n hn _; show st.i < st.i + n; omega
  · intro _; exact Nat.lt_succ_self _
  · intro n hn _; show st.i < st.i + n; omega
  · intro _; show st.i < st.i + 2; omega
  · intro q _; exact Nat.lt_succ_self _
  · intro q _; exact Nat.lt_succ_self _
  · intro _; exact Nat.lt_succ_self _
  · intro b _
    have := keywordLoop_le render syn.keywords st.i st.hl
    show st.i < (keywordLoop render syn.keywords st.i st.hl).1 + 1
    omega
  · intro b _; exact Nat.lt_succ_self _

theorem scanLoop_of_stop (syn : EditorSyntax) (render : List Nat) (fuel : Nat) (st : ScanState)
    (h : st.stop = true) : scanLoop syn render fuel st = st := by
  cases fuel with
  | zero => rfl
  | succ fuel =>
    unfold scanLoop
    rw [if_neg]
    intro hc
    rw [h] at hc
    exact absurd hc.2 (by decide)

/-- With as much fuel as columns left, the column scan ends because the loop
condition fails or the `break` was taken, not because the fuel ran out. -/
theorem scanLoop_finished (syn : EditorSyntax) (render : List Nat) (fuel : Nat) (st : ScanState)
    (hfuel : render.length - st.i ≤ fuel) :
    (scanLoop syn render fuel st).stop = true ∨ render.length ≤ (scanLoop syn render fuel st).i := by
  induction fuel generalizing st with
  | zero => right; show render.length ≤ st.i; omega
  | succ fuel ih =>
    unfold scanLoop
    split
    · rename_i hc
      cases hs : (scanStep syn render st).stop with
      | true =>
        left
        rw [scanLoop_of_stop syn render fuel _ hs]; exact hs
      | false =>
        have := scanStep_advances syn render st hs
        exact ih _ (by omega)
    · rename_i hc
      by_cases hs : st.stop = true
      · exact Or.inl hs
      · right
        by_contra hlt
        exact hc ⟨by omega, by simpa using hs⟩

/-- The fuel `scanLine` gives its loop is enough. -/
theorem scanLine_finished (syn : EditorSyntax) (render : List Nat) (in_comment : Bool) :
    (scanLine syn render in_comment).stop = true ∨
      render.length ≤ (scanLine syn render in_comment).i := by
  unfold scanLine
  exact scanLoop_finished syn render render.length _ (by simp)


/-! ## Multi-line comments -/

theorem cProfile_scs : cProfile.singleline_comment_start = some [47, 47] := by decide
theorem cProfile_mcs : cProfile.multiline_comment_start = [47, 42] := by decide
theorem cProfile_mce : cProfile.multiline_comment_end = [42, 47] := by decide

theorem strncmp_close (a : List Nat) (h : strncmp_eq 2 a [42, 47] = true) :
    ∃ t, a = 42 :: 47 :: t := by
  match a with
  | [] => simp [strncmp_eq] at h
  | [x] =>
    simp only [strncmp_eq, List.headD_cons, List.tail_cons, List.headD_nil] at h
    split at h
    · simp at h
    · split at h
      · omega
      · simp at h
  | x :: y :: t =>
    simp only [strncmp_eq, List.headD_cons, List.tail_cons] at h
    split at h
    · simp at h
    · rename_i h1
      split at h
      · omega
      · split at h
        · simp at h
        · rename_i h2
          refine ⟨t, ?_⟩
          have e1 : x = 42 := by simpa using h1
          have e2 : y = 47 := by simpa using h2
          rw [e1, e2]

theorem no_close_at (r : List Nat) (hno : ¬ [42, 47] <:+: r) (i : Nat) :
    strncmp_eq 2 (r.drop i) [42, 47] = false := by
  cases h : strncmp_eq 2 (r.drop i) [42, 47] with
  | false => rfl
  | true =>
    exfalso
    obtain ⟨t, ht⟩ := strncmp_close _ h
    apply hno
    refine ⟨r.take i, t, ?_⟩
    have := List.take_append_drop i r
    rw [ht] at this
    simpa using this

/-- Inside a multi-line comment, at a column where the closing marker does not
start, the column scan under the C profile colours the byte and moves on by
one. -/
theorem scanStep_in_comment (r : List Nat) (st : ScanState) (hc : st.in_comment = true)
    (hs : st.in_string = 0) (hno : strncmp_eq 2 (r.drop st.i) [42, 47] = false) :
    scanStep cProfile r st = { st with hl := st.hl.set st.i HL_MLCOMMENT, i := st.i + 1 } := by
  unfold scanStep
  simp [cProfile_scs, cProfile_mcs, cProfile_mce, hc, hs, hno]

theorem comment_loop (r : List Nat) (hno : ¬ [42, 47] <:+: r) (fuel : Nat) (st : ScanState)
    (hc : st.in_comment = true) (hs : st.in_string = 0) (hstop : st.stop = false)
    (hlen : st.hl.length = r.length) (hpre : ∀ p, p < st.i → st.hl.getD p 0 = HL_MLCOMMENT)
    (hfuel : r.length - st.i ≤ fuel) :
    (scanLoop cProfile r fuel st).in_comment = true ∧
      (scanLoop cProfile r fuel st).hl.length = r.length ∧
      ∀ p, p < r.length → (scanLoop cProfile r fuel st).hl.getD p 0 = HL_MLCOMMENT := by
  induction fuel generalizing st with
  | zero =>
    exact ⟨hc, hlen, fun p hp => hpre p (by omega)⟩
  | succ fuel ih =>
    unfold scanLoop
    split
    · rename_i hcond
      rw [scanStep_in_comment r st hc hs (no_close_at r hno st.i)]
      apply ih
      · exact hc
      · exact hs
      · exact hstop
      · simpa using hlen
      · intro p hp
        show (st.hl.set st.i HL_MLCOMMENT).getD p 0 = HL_MLCOMMENT
        rw [set_getD]
        by_cases h : p = st.i ∧ st.i < st.hl.length
        · rw [if_pos h]
        · rw [if_neg h]
          have : st.i < st.hl.length := by rw [hlen]; exact hcond.1
          exact hpre p (by
            have hp' : p < st.i + 1 := hp
            omega)
      · show r.length - (st.i + 1) ≤ fuel
        omega
    · rename_i hcond
      refine ⟨hc, hlen, fun p hp => hpre p ?_⟩
      by_contra hge
      exact hcond ⟨by omega, hstop⟩

theorem eq_replicate_of_getD (l : List Nat) (a : Nat)
    (h : ∀ p, p < l.length → l.getD p 0 = a) : l = List.replicate l.length a := by
  apply List.ext_getElem (by simp)
  intro n h1 h2
  have := h n h1
  rw [List.getD_eq_getElem _ _ h1] at this
  simp [this]

/-- From a comment start, a line that nowhere holds the closing marker is
classified `HL_MLCOMMENT` throughout and leaves the comment open. -/
theorem scanLine_in_comment (r : List Nat) (hno : ¬ [42, 47] <:+: r) :
    (scanLine cProfile r true).in_comment = true ∧
      (scanLine cProfile r true).hl = List.replicate r.length HL_MLCOMMENT := by
  obtain ⟨h1, h2, h3⟩ := comment_loop r hno r.length
    ⟨0, List.replicate r.length HL_NORMAL, true, 0, true, false⟩ rfl rfl rfl (by simp)
    (fun p hp => absurd hp (Nat.not_lt_zero p)) (by simp)
  refine ⟨h1, ?_⟩
  have := eq_replicate_of_getD _ HL_MLCOMMENT (fun p hp => h3 p (by rw [← h2]; exact hp))
  rw [h2] at this
  exact this

/-! ### The closing marker cannot arise from tab expansion -/

theorem close_in_concat (acc : List Nat) (b : Nat) (h : [42, 47] <:+: acc ++ [b]) :
    [42, 47] <:+: acc ∨ (acc.getLast? = some 42 ∧ b = 47) := by
  rcases List.infix_concat_iff.1 h with h1 | h1
  · right
    obtain ⟨s, hs⟩ := h1
    have h2 : (s ++ [42]) ++ [47] = acc ++ [b] := by simpa using hs
    have h3 := List.append_inj' h2 rfl
    refine ⟨?_, ?_⟩
    · rw [← h3.1]; simp
    · simpa using h3.2.symm
  · exact Or.inl h1

theorem renderPad_eq (fuel : Nat) (acc : List Nat) :
    ∃ k, renderPad fuel acc = acc ++ List.replicate k 32 := by
  induction fuel generalizing acc with
  | zero => exact ⟨0, by simp [renderPad]⟩
  | succ fuel ih =>
    unfold renderPad
    split
    · obtain ⟨k, hk⟩ := ih (acc ++ [32])
      refine ⟨k + 1, ?_⟩
      rw [hk, List.replicate_succ]; simp
    · exact ⟨0, by simp⟩

theorem close_in_spaces (acc : List Nat) (k : Nat)
    (h : [42, 47] <:+: acc ++ List.replicate k 32) : [42, 47] <:+: acc := by
  induction k with
  | zero => simpa using h
  | succ k ih =>
    rw [List.replicate_succ', ← List.append_assoc] at h
    rcases close_in_concat _ 32 h with h1 | h1
    · exact ih h1
    · exact absurd h1.2 (by decide)

theorem getLast?_spaces (acc : List Nat) (k : Nat) :
    (acc ++ List.replicate (k + 1) 32).getLast? = some 32 := by
  rw [List.replicate_succ', ← List.append_assoc, List.getLast?_concat]

/-- The closing marker occurs in the render only where it occurs in the bytes. -/
theorem close_in_render (bs acc : List Nat) (h : [42, 47] <:+: renderLoop bs acc) :
    [42, 47] <:+: acc ∨ (acc.getLast? = some 42 ∧ bs.head? = some 47) ∨ [42, 47] <:+: bs := by
  induction bs generalizing acc with
  | nil => exact Or.inl h
  | cons b bs ih =>
    unfold renderLoop at h
    split at h
    · obtain ⟨k, hk⟩ := renderPad_eq KILO_TAB_STOP (acc ++ [32])
      have hk2 : renderPad KILO_TAB_STOP (acc ++ [32]) = acc ++ List.replicate (k + 1) 32 := by
        rw [hk, List.replicate_succ]; simp
      rw [hk2] at h
      rcases ih _ h with h1 | h1 | h1
      · exact Or.inl (close_in_spaces acc (k + 1) h1)
      · rw [getLast?_spaces] at h1
        exact absurd h1.1 (by decide)
      · exact Or.inr (Or.inr (List.infix_cons h1))
    · rcases ih _ h with h1 | h1 | h1
      · rcases close_in_concat acc b h1 with h2 | h2
        · exact Or.inl h2
        · exact Or.inr (Or.inl ⟨h2.1, by simp [h2.2]⟩)
      · right; right
        rw [List.getLast?_concat] at h1
        have e1 : b = 42 := by simpa using h1.1
        match bs, h1.2 with
        | c :: t, h2 =>
          have e2 : c = 47 := by simpa using h2
          rw [e1, e2]
          exact ⟨[], t, by simp⟩
      · exact Or.inr (Or.inr (List.infix_cons h1))

theorem no_close_in_render (bs : List Nat) (h : ¬ [42, 47] <:+: bs) :
    ¬ [42, 47] <:+: renderLoop bs [] := by
  intro hr
  rcases close_in_render bs [] hr with h1 | h1 | h1
  · simp at h1
  · simp at h1
  · exact h h1


/-- Inserting a second line below a line that leaves a comment open: the new line
is scanned from inside the comment (the line after it, if there were one,
would not be looked at, since `E.linesnum` still has its old value). -/
theorem insert_below_open_comment (E : EditorConfig) (lineA : line_t) (b : List Nat)
    (hline : E.line = [lineA]) (hsyn : E.syntax_ = some cProfile)
    (hopen : lineA.hl_open_comment = true) :
    (EditorInsertLine E 1 b).line =
      [lineA, { idx := 1, bytes := b, render := renderLoop b [],
                hl := (scanLine cProfile (renderLoop b []) true).hl,
                hl_open_comment := (scanLine cProfile (renderLoop b []) true).in_comment }] := by
  unfold EditorInsertLine
  simp [size_gt, size_lt, EditorConfig.linesnum, hline, hsyn, EditorUpdateLine,
    EditorUpdateSyntax, hopen, line_t.rsize]

theorem docA_open : (EditorInsertLine cEditor 0 (cstr "/* start")).line =
    [{ idx := 0, bytes := cstr "/* start", render := cstr "/* start",
       hl := List.replicate 8 HL_MLCOMMENT, hl_open_comment := true }] := by
  decide

theorem docA_syntax : (EditorInsertLine cEditor 0 (cstr "/* start")).syntax_ = some cProfile := by
  decide

theorem EditorInsertLine_keeps_profile (E : EditorConfig) (at_ : Int) (s : List Nat) :
    (EditorInsertLine E at_ s).syntax_ = E.syntax_ := by
  unfold EditorInsertLine
  split <;> rfl

theorem EditorLineInsertChar_keeps_profile (E : EditorConfig) (k : Nat) (at_ c : Int) :
    (EditorLineInsertChar E k at_ c).syntax_ = E.syntax_ := by
  unfold EditorLineInsertChar
  split <;> rfl

/-- One byte appended with `EditorLineInsertChar` to line A of a two-line document
A, B under the C profile: A is rendered and scanned from outside a comment; B is
left alone when the `hl_open_comment` of A keeps its value, and is scanned again,
from the new comment state of A, when it changes. -/
theorem append_to_first_line (E : EditorConfig) (lineA lineB : line_t) (c : Int)
    (hline : E.line = [lineA, lineB]) (hsyn : E.syntax_ = some cProfile)
    (hA : lineA.idx = 0) (hB : lineB.idx = 1) :
    (EditorLineInsertChar E 0 (lineA.size : Int) c).line =
      if lineA.hl_open_comment =
          (scanLine cProfile (renderLoop (lineA.bytes ++ [(c % 256).toNat]) []) false).in_comment
      then
        [{ lineA with
            bytes := lineA.bytes ++ [(c % 256).toNat]
            render := renderLoop (lineA.bytes ++ [(c % 256).toNat]) []
            hl := (scanLine cProfile (renderLoop (lineA.bytes ++ [(c % 256).toNat]) []) false).hl
            hl_open_comment :=
              (scanLine cProfile (renderLoop (lineA.bytes ++ [(c % 256).toNat]) []) false).in_comment },
          lineB]
      else
        [{ lineA with
            bytes := lineA.bytes ++ [(c % 256).toNat]
            render := renderLoop (lineA.bytes ++ [(c % 256).toNat]) []
            hl := (scanLine cProfile (renderLoop (lineA.bytes ++ [(c % 256).toNat]) []) false).hl
            hl_open_comment :=
              (scanLine cProfile (renderLoop (lineA.bytes ++ [(c % 256).toNat]) []) false).in_comment },
          { lineB with
            hl := (scanLine cProfile lineB.render
              (scanLine cProfile (renderLoop (lineA.bytes ++ [(c % 256).toNat]) []) false).in_comment).hl
            hl_open_comment := (scanLine cProfile lineB.render
              (scanLine cProfile (renderLoop (lineA.bytes ++ [(c % 256).toNat]) []) false).in_comment).in_comment }] := by
  unfold EditorLineInsertChar
  have hg : ¬ ((lineA.size : Int) < 0 ∨ size_gt (lineA.size : Int) lineA.size = true) := by
    simp [size_gt]
  simp only [hline, List.getElem?_cons_zero, if_neg hg, Int.toNat_ofNat]
  have ht : lineA.bytes.take lineA.size = lineA.bytes := by
    unfold line_t.size; simp
  have hd : lineA.bytes.drop lineA.size = [] := by
    unfold line_t.size; simp
  rw [ht, hd, hsyn]
  generalize (c % 256).toNat = cb
  generalize hst : scanLine cProfile (renderLoop (lineA.bytes ++ [cb]) []) false = st
  by_cases hch : lineA.hl_open_comment = st.in_comment
  · rw [if_pos hch]
    simp [EditorUpdateLine, EditorUpdateSyntax, EditorConfig.linesnum, hline, hA, hst, hch, size_lt]
  · rw [if_neg hch]
    simp [EditorUpdateLine, EditorUpdateSyntax, EditorConfig.linesnum, hline, hA, hB, hst, hch, size_lt]

/-- The edit of C9 on the document A = `/* start`, B, for any line B: the first
two bytes appended leave A open and B untouched; the third closes A, and B is
scanned again from outside a comment. -/
theorem closeA_docAB (b : List Nat) :
    (closeA (docAB b)).line =
      [{ idx := 0, bytes := cstr "/* start */", render := cstr "/* start */",
         hl := List.replicate 11 HL_MLCOMMENT, hl_open_comment := false },
       { idx := 1, bytes := b, render := renderLoop b [],
         hl := (scanLine cProfile (renderLoop b []) false).hl,
         hl_open_comment := (scanLine cProfile (renderLoop b []) false).in_comment }] := by
  have h0 : (docAB b).line = _ :=
    insert_below_open_comment _ _ b docA_open docA_syntax rfl
  have hs0 : (docAB b).syntax_ = some cProfile := by
    unfold docAB
    rw [EditorInsertLine_keeps_profile]; exact docA_syntax
  unfold closeA
  -- first byte: a space, A stays open
  have h1 := append_to_first_line (docAB b) _ _ 32 h0 hs0 rfl rfl
  rw [if_pos (by decide)] at h1
  have hs1 : (EditorLineInsertChar (docAB b) 0 8 32).syntax_ = some cProfile := by
    rw [EditorLineInsertChar_keeps_profile]; exact hs0
  -- second byte: `*`, A stays open
  have h2 := append_to_first_line (EditorLineInsertChar (docAB b) 0 8 32) _ _ 42 h1 hs1 rfl rfl
  rw [if_pos (by decide)] at h2
  have hs2 : (EditorLineInsertChar (EditorLineInsertChar (docAB b) 0 8 32) 0 9 42).syntax_
      = some cProfile := by
    rw [EditorLineInsertChar_keeps_profile]; exact hs1
  -- third byte: `/`, A is closed and B is scanned again
  have h3 := append_to_first_line
    (EditorLineInsertChar (EditorLineInsertChar (docAB b) 0 8 32) 0 9 42) _ _ 47 h2 hs2 rfl rfl
  rw [if_neg (by decide)] at h3
  exact h3.trans rfl

/-- C9: under the C profile, in the two-line document A = `/* start`, B, where B
contains no `*/`, every byte of B is classified as multi-line comment; after A
is edited to `/* start */` by appending bytes with `EditorLineInsertChar` alone,
A's `hl_open_comment` is 0 and B holds the highlight array and the comment state
that the scan of B started outside a comment produces; for B = `plain text`
every byte of B is then `HL_NORMAL`. -/
theorem C9_comment_state_propagates (b : List Nat) (hb : ¬ cstr "*/" <:+: b) :
    (∃ lineA lineB, (docAB b).line = [lineA, lineB] ∧
        lineA.bytes = cstr "/* start" ∧ lineB.bytes = b ∧
        lineB.hl.length = lineB.rsize ∧
        lineB.hl = List.replicate lineB.rsize HL_MLCOMMENT) ∧
      (closeA (docAB b)).line =
        [{ idx := 0, bytes := cstr "/* start */", render := cstr "/* start */",
           hl := List.replicate 11 HL_MLCOMMENT, hl_open_comment := false },
         { idx := 1, bytes := b, render := renderLoop b [],
           hl := (scanLine cProfile (renderLoop b []) false).hl,
           hl_open_comment := (scanLine cProfile (renderLoop b []) false).in_comment }] ∧
      (closeA (docAB (cstr "plain text"))).line =
        [{ idx := 0, bytes := cstr "/* start */", render := cstr "/* start */",
           hl := List.replicate 11 HL_MLCOMMENT, hl_open_comment := false },
         { idx := 1, bytes := cstr "plain text", render := cstr "plain text",
           hl := List.replicate 10 HL_NORMAL, hl_open_comment := false }] := by
  refine ⟨?_, closeA_docAB b, by decide⟩
  have hb2 : ¬ [42, 47] <:+: b := hb
  have hscan := scanLine_in_comment (renderLoop b []) (no_close_in_render b hb2)
  refine ⟨_, _, insert_below_open_comment _ _ b docA_open docA_syntax rfl, rfl, rfl, ?_, ?_⟩
  · simp [hscan.2, line_t.rsize]
  · simp [hscan.2, line_t.rsize]

/-- C9 at B = `int x; /* y` (no `*/`, a keyword and a comment start of its own):
B is all comment below the open A; after A is closed, B is scanned from outside
a comment, so `int` is a type keyword, `x;` is normal, and the rest is the
comment that B itself opens. -/
theorem C9_comment_state_propagates_witness :
    (∃ lineA lineB, (docAB (cstr "int x; /* y")).line = [lineA, lineB] ∧
        lineA.bytes = cstr "/* start" ∧ lineB.bytes = cstr "int x; /* y" ∧
        lineB.hl.length = lineB.rsize ∧
        lineB.hl = List.replicate lineB.rsize HL_MLCOMMENT) ∧
      (closeA (docAB (cstr "int x; /* y"))).line =
        [{ idx := 0, bytes := cstr "/* start */", render := cstr "/* start */",
           hl := List.replicate 11 HL_MLCOMMENT, hl_open_comment := false },
         { idx := 1, bytes := cstr "int x; /* y", render := cstr "int x; /* y",
           hl := List.replicate 3 HL_KEYWORD2 ++ List.replicate 4 HL_NORMAL ++
             List.replicate 4 HL_MLCOMMENT,
           hl_open_comment := true }] ∧
      (closeA (docAB (cstr "plain text"))).line =
        [{ idx := 0, bytes := cstr "/* start */", render := cstr "/* start */",
           hl := List.replicate 11 HL_MLCOMMENT, hl_open_comment := false },
         { idx := 1, bytes := cstr "plain text", render := cstr "plain text",
           hl := List.replicate 10 HL_NORMAL, hl_open_comment := false }] :=
  C9_comment_state_propagates (cstr "int x; /* y") (by decide)


/-! ## The text of the document under the line operations -/

theorem textOf_length (E : EditorConfig) : (textOf E).length = E.linesnum := by
  simp [textOf, EditorConfig.linesnum]

theorem textOf_getD (E : EditorConfig) (k : Nat) (line : line_t) (h : E.line[k]? = some line) :
    (textOf E).getD k [] = line.bytes := by
  simp [textOf, h]

theorem line_some_of_lt (E : EditorConfig) (k : Nat) (h : k < E.linesnum) :
    ∃ line, E.line[k]? = some line :=
  ⟨E.line.get ⟨k, h⟩, by simp [EditorConfig.linesnum] at h; simp [List.getElem?_eq_getElem h]⟩

theorem SameView_refl (E : EditorConfig) : SameView E E := ⟨rfl, rfl, rfl, rfl⟩

theorem EditorInsertLine_view (E : EditorConfig) (at_ : Int) (s : List Nat) :
    SameView E (EditorInsertLine E at_ s) := by
  unfold EditorInsertLine; split
  · exact SameView_refl E
  · exact ⟨rfl, rfl, rfl, rfl⟩

theorem EditorDelLine_view (E : EditorConfig) (at_ : Int) : SameView E (EditorDelLine E at_) := by
  unfold EditorDelLine; split
  · exact SameView_refl E
  · exact ⟨rfl, rfl, rfl, rfl⟩

theorem EditorLineInsertChar_view (E : EditorConfig) (k : Nat) (at_ c : Int) :
    SameView E (EditorLineInsertChar E k at_ c) := by
  unfold EditorLineInsertChar; split
  · exact SameView_refl E
  · exact ⟨rfl, rfl, rfl, rfl⟩

theorem EditorLineAppendString_view (E : EditorConfig) (k : Nat) (s : List Nat) :
    SameView E (EditorLineAppendString E k s) := by
  unfold EditorLineAppendString; split
  · exact SameView_refl E
  · exact ⟨rfl, rfl, rfl, rfl⟩

theorem EditorLineDelChar_view (E : EditorConfig) (k : Nat) (at_ : Int) :
    SameView E (EditorLineDelChar E k at_) := by
  unfold EditorLineDelChar; split
  · exact SameView_refl E
  · split
    · exact SameView_refl E
    · exact ⟨rfl, rfl, rfl, rfl⟩

theorem EditorInsertLine_text (E : EditorConfig) (a : Nat) (s : List Nat) (ha : a ≤ E.linesnum) :
    textOf (EditorInsertLine E (a : Int) s) = (textOf E).take a ++ s :: (textOf E).drop a :=
  EditorInsertLine_bytes E a s ha

theorem EditorDelLine_text (E : EditorConfig) (a : Nat) (ha : a < E.linesnum) :
    textOf (EditorDelLine E (a : Int)) = (textOf E).eraseIdx a :=
  EditorDelLine_bytes E a ha

theorem EditorLineInsertChar_text (E : EditorConfig) (k : Nat) (a : Nat) (c : Int)
    (line : line_t) (hk : E.line[k]? = some line) (ha : a ≤ line.size) :
    textOf (EditorLineInsertChar E k (a : Int) c) =
      (textOf E).set k (line.bytes.take a ++ (c % 256).toNat :: line.bytes.drop a) := by
  unfold EditorLineInsertChar
  have h1 : ¬ ((a : Int) < 0 ∨ size_gt (a : Int) line.size = true) := by
    simp [size_gt]; omega
  simp only [hk, if_neg h1, textOf, EditorUpdateLine_bytes, List.map_set, Int.toNat_ofNat]

theorem EditorLineAppendString_text (E : EditorConfig) (k : Nat) (s : List Nat)
    (line : line_t) (hk : E.line[k]? = some line) :
    textOf (EditorLineAppendString E k s) = (textOf E).set k (line.bytes ++ s) := by
  unfold EditorLineAppendString
  simp only [hk, textOf, EditorUpdateLine_bytes, List.map_set]

theorem EditorLineDelChar_text (E : EditorConfig) (k : Nat) (a : Nat)
    (line : line_t) (hk : E.line[k]? = some line) (ha : a < line.size) :
    textOf (EditorLineDelChar E k (a : Int)) = (textOf E).set k (line.bytes.eraseIdx a) := by
  unfold EditorLineDelChar
  have h1 : ¬ ((a : Int) < 0 ∨ size_lt (a : Int) line.size = false) := by
    simp [size_lt]; omega
  simp only [hk, if_neg h1, textOf, EditorUpdateLine_bytes, List.map_set, Int.toNat_ofNat]



/-! ## The cursor invariant -/

theorem rowLen_of_line (E : EditorConfig) (y : Int) (line : line_t)
    (h : E.line[y.toNat]? = some line) : rowLen E y = (line.size : Int) := by
  unfold rowLen
  rw [textOf_getD E _ line h]; rfl

theorem rowLen_virtual (E : EditorConfig) (y : Int) (h : (E.linesnum : Int) ≤ y) :
    rowLen E y = 0 := by
  unfold rowLen
  have : (textOf E).length ≤ y.toNat := by rw [textOf_length]; omega
  rw [List.getD_eq_default _ _ this]; rfl

theorem rowLen_nonneg (E : EditorConfig) (y : Int) : 0 ≤ rowLen E y := by
  unfold rowLen; omega

theorem lineLenAt_eq (E : EditorConfig) (y : Int) (h0 : 0 ≤ y) : lineLenAt E y = rowLen E y := by
  unfold lineLenAt
  by_cases h : y < (E.linesnum : Int)
  · obtain ⟨line, hl⟩ := line_some_of_lt E y.toNat (by omega)
    have : size_lt y E.linesnum = true := by simp [size_lt, h0, h]
    simp only [this, hl, if_true]
    exact (rowLen_of_line E y line hl).symm
  · have : size_lt y E.linesnum = false := by simp [size_lt]; omega
    simp only [this]
    exact (rowLen_virtual E y (by omega)).symm

theorem rowLen_congr (E E2 : EditorConfig) (h : E2.line = E.line) (y : Int) :
    rowLen E2 y = rowLen E y := by
  unfold rowLen textOf; rw [h]

theorem linesnum_congr (E E2 : EditorConfig) (h : E2.line = E.line) : E2.linesnum = E.linesnum := by
  unfold EditorConfig.linesnum; rw [h]

/-- Clamping the column establishes the cursor invariant for any cursor whose
line is within the document and whose column is not negative. -/
theorem clampToLine_inv (E : EditorConfig) (cur : COORD) (hy0 : 0 ≤ cur.Y)
    (hyn : cur.Y ≤ (E.linesnum : Int)) (hx : 0 ≤ cur.X) :
    CursorInv (clampToLine E cur) ∧ (clampToLine E cur).line = E.line ∧
      (clampToLine E cur).offset = E.offset ∧ (clampToLine E cur).bufSize = E.bufSize ∧
      (clampToLine E cur).cursor.Y = cur.Y := by
  have hl := lineLenAt_eq E cur.Y hy0
  have hr := rowLen_nonneg E cur.Y
  unfold clampToLine CursorInv
  rw [hl]
  by_cases h : cur.X > rowLen E cur.Y
  · rw [if_pos h]
    refine ⟨⟨hy0, hyn, hr, ?_⟩, rfl, rfl, rfl, rfl⟩
    exact le_of_eq (rowLen_congr E _ rfl cur.Y).symm
  · rw [if_neg h]
    refine ⟨⟨hy0, hyn, hx, ?_⟩, rfl, rfl, rfl, rfl⟩
    have := rowLen_congr E { E with cursor := cur } rfl cur.Y
    show cur.X ≤ rowLen { E with cursor := cur } cur.Y
    omega

/-- The `switch` of `EditorMoveCursor` keeps the line within the document and the
column non-negative, and a move to the right does not move up. -/
theorem arrowTarget_ok (E : EditorConfig) (key : Int) (hy0 : 0 ≤ E.cursor.Y)
    (hyn : E.cursor.Y ≤ (E.linesnum : Int)) (hx : 0 ≤ E.cursor.X) :
    ∃ cur, arrowTarget E key = some cur ∧ 0 ≤ cur.Y ∧ cur.Y ≤ (E.linesnum : Int) ∧ 0 ≤ cur.X ∧
      (key = ARROW_RIGHT → E.cursor.Y ≤ cur.Y) := by
  unfold arrowTarget
  simp only []
  by_cases hL : key = ARROW_LEFT
  · have hne : key ≠ ARROW_RIGHT := by rw [hL]; decide
    simp only [if_pos hL]
    by_cases h1 : E.cursor.X ≠ 0
    · simp only [if_pos h1]
      exact ⟨_, rfl, hy0, hyn, by show 0 ≤ E.cursor.X - 1; omega, fun h => absurd h hne⟩
    · simp only [if_neg h1]
      by_cases h2 : E.cursor.Y > 0
      · obtain ⟨p, hp⟩ := line_some_of_lt E (E.cursor.Y - 1).toNat (by omega)
        simp only [if_pos h2, hp]
        exact ⟨_, rfl, by show 0 ≤ E.cursor.Y - 1; omega, by show E.cursor.Y - 1 ≤ _; omega,
          by show (0 : Int) ≤ (p.size : Int); omega, fun h => absurd h hne⟩
      · simp only [if_neg h2]
        exact ⟨_, rfl, hy0, hyn, hx, fun h => absurd h hne⟩
  · simp only [if_neg hL]
    by_cases hR : key = ARROW_RIGHT
    · simp only [if_pos hR]
      by_cases h1 : E.cursor.Y < (E.linesnum : Int)
      · obtain ⟨l, hl⟩ := line_some_of_lt E E.cursor.Y.toNat (by omega)
        have : size_lt E.cursor.Y E.linesnum = true := by simp [size_lt, hy0, h1]
        simp only [this, if_true, hl]
        by_cases h2 : size_lt E.cursor.X l.size = true
        · simp only [if_pos h2]
          exact ⟨_, rfl, hy0, hyn, by show 0 ≤ E.cursor.X + 1; omega, fun _ => le_refl _⟩
        · simp only [if_neg h2]
          by_cases h3 : size_eq E.cursor.X l.size = true
          · simp only [if_pos h3]
            exact ⟨_, rfl, by show 0 ≤ E.cursor.Y + 1; omega, by show E.cursor.Y + 1 ≤ _; omega,
              le_refl _, fun _ => by show E.cursor.Y ≤ E.cursor.Y + 1; omega⟩
          · simp only [if_neg h3]
            exact ⟨_, rfl, hy0, hyn, hx, fun _ => le_refl _⟩
      · have : size_lt E.cursor.Y E.linesnum = false := by simp [size_lt]; omega
        simp only [this]
        exact ⟨_, rfl, hy0, hyn, hx, fun _ => le_refl _⟩
    · simp only [if_neg hR]
      by_cases hU : key = ARROW_UP
      · simp only [if_pos hU]
        by_cases h1 : E.cursor.Y ≠ 0
        · simp only [if_pos h1]
          exact ⟨_, rfl, by show 0 ≤ E.cursor.Y - 1; omega, by show E.cursor.Y - 1 ≤ _; omega, hx,
            fun h => absurd h hR⟩
        · simp only [if_neg h1]
          exact ⟨_, rfl, hy0, hyn, hx, fun h => absurd h hR⟩
      · simp only [if_neg hU]
        by_cases hD : key = ARROW_DOWN
        · simp only [if_pos hD]
          by_cases h1 : size_lt E.cursor.Y E.linesnum = true
          · simp only [if_pos h1]
            have h2 : E.cursor.Y < (E.linesnum : Int) := by
              simp [size_lt] at h1; exact h1.2
            exact ⟨_, rfl, by show 0 ≤ E.cursor.Y + 1; omega, by show E.cursor.Y + 1 ≤ _; omega, hx,
              fun h => absurd h hR⟩
          · simp only [if_neg h1]
            exact ⟨_, rfl, hy0, hyn, hx, fun h => absurd h hR⟩
        · simp only [if_neg hD]
          exact ⟨_, rfl, hy0, hyn, hx, fun h => absurd h hR⟩

/-- `EditorMoveCursor` returns with the cursor invariant established, from any
state whose cursor line is within the document and whose column is not
negative; the document, the offset and the viewport are untouched. -/
theorem EditorMoveCursor_inv (E : EditorConfig) (key : Int) (hy0 : 0 ≤ E.cursor.Y)
    (hyn : E.cursor.Y ≤ (E.linesnum : Int)) (hx : 0 ≤ E.cursor.X) :
    ∃ E2, EditorMoveCursor E key = some E2 ∧ CursorInv E2 ∧ E2.line = E.line ∧
      E2.offset = E.offset ∧ E2.bufSize = E.bufSize ∧
      (key = ARROW_RIGHT → E.cursor.Y ≤ E2.cursor.Y) := by
  obtain ⟨cur, h1, h2, h3, h4, h5⟩ := arrowTarget_ok E key hy0 hyn hx
  obtain ⟨g1, g2, g3, g4, g5⟩ := clampToLine_inv E cur h2 h3 h4
  refine ⟨clampToLine E cur, by simp only [EditorMoveCursor, h1], g1, g2, g3, g4, ?_⟩
  intro h; rw [g5]; exact h5 h

theorem moveTimes_inv (key : Int) (n : Nat) (E : EditorConfig) (hy0 : 0 ≤ E.cursor.Y)
    (hyn : E.cursor.Y ≤ (E.linesnum : Int)) (hx : 0 ≤ E.cursor.X) :
    ∃ E2, moveTimes key (n + 1) E = some E2 ∧ CursorInv E2 ∧ E2.line = E.line ∧
      E2.offset = E.offset ∧ E2.bufSize = E.bufSize := by
  induction n generalizing E with
  | zero =>
    obtain ⟨E2, h1, h2, h3, h4, h5, _⟩ := EditorMoveCursor_inv E key hy0 hyn hx
    exact ⟨E2, by simp only [moveTimes, h1], h2, h3, h4, h5⟩
  | succ n ih =>
    obtain ⟨E1, h1, h2, h3, h4, h5, _⟩ := EditorMoveCursor_inv E key hy0 hyn hx
    have hn : E1.linesnum = E.linesnum := linesnum_congr E E1 h3
    obtain ⟨E2, g1, g2, g3, g4, g5⟩ := ih E1 h2.1 h2.2.1 h2.2.2.1
    refine ⟨E2, ?_, g2, g3.trans h3, g4.trans h4, g5.trans h5⟩
    rw [moveTimes, h1]; exact g1


/-! ## The editing operations keep the cursor invariant -/

theorem getD_set_self (l : List (List Nat)) (k : Nat) (v : List Nat) (h : k < l.length) :
    (l.set k v).getD k [] = v := by
  simp [List.getD_eq_getElem?_getD, List.getElem?_set, h]

theorem CursorInv_row (E : EditorConfig) (h : CursorInv E)
    (hy : E.cursor.Y < (E.linesnum : Int)) :
    ∃ line, E.line[E.cursor.Y.toNat]? = some line ∧ E.cursor.X ≤ (line.size : Int) := by
  obtain ⟨line, hl⟩ := line_some_of_lt E E.cursor.Y.toNat (by have := h.1; omega)
  refine ⟨line, hl, ?_⟩
  have := h.2.2.2
  rwa [rowLen_of_line E _ line hl] at this

theorem CursorInv_virtual (E : EditorConfig) (h : CursorInv E)
    (hy : E.cursor.Y = (E.linesnum : Int)) : E.cursor.X = 0 := by
  have h1 := h.2.2.2
  rw [rowLen_virtual E _ (by omega)] at h1
  have := h.2.2.1
  omega

/-- Inserting a byte into the line under the cursor and moving right. -/
theorem insertChar_core (E : EditorConfig) (c : Int) (line : line_t)
    (hy0 : 0 ≤ E.cursor.Y) (hl : E.line[E.cursor.Y.toNat]? = some line)
    (hx0 : 0 ≤ E.cursor.X) (hx : E.cursor.X ≤ (line.size : Int)) :
    CursorInv { EditorLineInsertChar E E.cursor.Y.toNat E.cursor.X c with
        cursor := { (EditorLineInsertChar E E.cursor.Y.toNat E.cursor.X c).cursor with
          X := (EditorLineInsertChar E E.cursor.Y.toNat E.cursor.X c).cursor.X + 1 } } ∧
      (EditorLineInsertChar E E.cursor.Y.toNat E.cursor.X c).linesnum = E.linesnum := by
  obtain ⟨x, hxe⟩ : ∃ x : Nat, E.cursor.X = (x : Int) := ⟨E.cursor.X.toNat, by omega⟩
  have hxs : x ≤ line.size := by omega
  have hlt : E.cursor.Y.toNat < E.linesnum := by
    have := (List.getElem?_eq_some.1 hl).1
    exact this
  have htext := EditorLineInsertChar_text E E.cursor.Y.toNat x c line hl hxs
  rw [← hxe] at htext
  have hview := EditorLineInsertChar_view E E.cursor.Y.toNat E.cursor.X c
  have hn : (EditorLineInsertChar E E.cursor.Y.toNat E.cursor.X c).linesnum = E.linesnum := by
    rw [← textOf_length, htext, List.length_set, textOf_length]
  refine ⟨?_, hn⟩
  unfold CursorInv rowLen
  show 0 ≤ (EditorLineInsertChar E E.cursor.Y.toNat E.cursor.X c).cursor.Y ∧
    (EditorLineInsertChar E E.cursor.Y.toNat E.cursor.X c).cursor.Y ≤
      ((EditorLineInsertChar E E.cursor.Y.toNat E.cursor.X c).linesnum : Int) ∧
    0 ≤ (EditorLineInsertChar E E.cursor.Y.toNat E.cursor.X c).cursor.X + 1 ∧
    (EditorLineInsertChar E E.cursor.Y.toNat E.cursor.X c).cursor.X + 1 ≤
      ((((textOf (EditorLineInsertChar E E.cursor.Y.toNat E.cursor.X c)).getD
        (EditorLineInsertChar E E.cursor.Y.toNat E.cursor.X c).cursor.Y.toNat []).length : Nat) : Int)
  rw [hview.1, hn, htext, getD_set_self _ _ _ (by rw [textOf_length]; exact hlt)]
  refine ⟨hy0, by omega, by omega, ?_⟩
  simp only [List.length_append, List.length_cons, List.length_take, List.length_drop]
  unfold line_t.size at hxs
  omega

theorem EditorInsertChar_inv (E : EditorConfig) (c : Int) (h : CursorInv E) :
    ∃ E2, EditorInsertChar E c = some E2 ∧ CursorInv E2 ∧ E2.offset = E.offset ∧
      E2.bufSize = E.bufSize ∧ E.linesnum ≤ E2.linesnum := by
  unfold EditorInsertChar
  simp only []
  by_cases hy : E.cursor.Y = (E.linesnum : Int)
  · have hse : size_eq E.cursor.Y E.linesnum = true := by simp [size_eq, hy]
    have hx := CursorInv_virtual E h hy
    simp only [hse, if_true]
    have hview := EditorInsertLine_view E (E.linesnum : Int) []
    have htext := EditorInsertLine_text E E.linesnum [] (le_refl _)
    have hn : (EditorInsertLine E (E.linesnum : Int) []).linesnum = E.linesnum + 1 := by
      rw [← textOf_length, htext]
      simp [textOf_length]
    have hlt : size_lt (EditorInsertLine E (E.linesnum : Int) []).cursor.Y
        (EditorInsertLine E (E.linesnum : Int) []).linesnum = true := by
      rw [hview.1, hn]; simp [size_lt, hy]
    simp only [hlt, if_true]
    obtain ⟨line, hl⟩ := line_some_of_lt (EditorInsertLine E (E.linesnum : Int) [])
      (EditorInsertLine E (E.linesnum : Int) []).cursor.Y.toNat (by rw [hview.1, hn]; omega)
    obtain ⟨g1, g2⟩ := insertChar_core (EditorInsertLine E (E.linesnum : Int) []) c line
      (by rw [hview.1]; exact h.1) hl (by rw [hview.1]; omega) (by rw [hview.1, hx]; omega)
    refine ⟨_, rfl, g1, ?_, ?_, ?_⟩
    · exact (EditorLineInsertChar_view _ _ _ _).2.1.trans hview.2.1
    · exact (EditorLineInsertChar_view _ _ _ _).2.2.1.trans hview.2.2.1
    · show E.linesnum ≤ (EditorLineInsertChar _ _ _ _).linesnum
      rw [g2, hn]; omega
  · have hse : size_eq E.cursor.Y E.linesnum = false := by simp [size_eq, hy]
    have hylt : E.cursor.Y < (E.linesnum : Int) := by have := h.2.1; omega
    have hlt : size_lt E.cursor.Y E.linesnum = true := by simp [size_lt, h.1, hylt]
    simp only [hse, Bool.false_eq_true, if_false, hlt, if_true]
    obtain ⟨line, hl, hx⟩ := CursorInv_row E h hylt
    obtain ⟨g1, g2⟩ := insertChar_core E c line h.1 hl h.2.2.1 hx
    refine ⟨_, rfl, g1, ?_, ?_, ?_⟩
    · exact (EditorLineInsertChar_view _ _ _ _).2.1
    · exact (EditorLineInsertChar_view _ _ _ _).2.2.1
    · show E.linesnum ≤ (EditorLineInsertChar _ _ _ _).linesnum
      rw [g2]

theorem CursorInv_col_zero (E : EditorConfig) (hy0 : 0 ≤ E.cursor.Y)
    (hyn : E.cursor.Y ≤ (E.linesnum : Int)) (hx : E.cursor.X = 0) : CursorInv E :=
  ⟨hy0, hyn, by omega, by rw [hx]; exact rowLen_nonneg E _⟩

theorem EditorInsertLine_linesnum (E : EditorConfig) (a : Nat) (s : List Nat)
    (ha : a ≤ E.linesnum) : (EditorInsertLine E (a : Int) s).linesnum = E.linesnum + 1 := by
  rw [← textOf_length, EditorInsertLine_text E a s ha]
  have := textOf_length E
  simp only [List.length_append, List.length_take, List.length_cons, List.length_drop]
  omega

theorem EditorInsertNewLine_inv (E : EditorConfig) (h : CursorInv E) :
    ∃ E2, EditorInsertNewLine E = some E2 ∧ CursorInv E2 ∧ E2.offset = E.offset ∧
      E2.bufSize = E.bufSize ∧ E.linesnum ≤ E2.linesnum := by
  obtain ⟨y, hye⟩ : ∃ y : Nat, E.cursor.Y = (y : Int) := ⟨E.cursor.Y.toNat, by have := h.1; omega⟩
  have hyn : y ≤ E.linesnum := by have := h.2.1; omega
  unfold EditorInsertNewLine
  by_cases hx : E.cursor.X = 0
  · simp only [if_pos hx]
    have hview := EditorInsertLine_view E E.cursor.Y []
    have hn : (EditorInsertLine E E.cursor.Y []).linesnum = E.linesnum + 1 := by
      rw [hye]; exact EditorInsertLine_linesnum E y [] hyn
    refine ⟨_, rfl, ?_, hview.2.1, hview.2.2.1, ?_⟩
    · apply CursorInv_col_zero
      · show 0 ≤ (EditorInsertLine E E.cursor.Y []).cursor.Y + 1
        rw [hview.1]; omega
      · show (EditorInsertLine E E.cursor.Y []).cursor.Y + 1 ≤
          ((EditorInsertLine E E.cursor.Y []).linesnum : Int)
        rw [hview.1, hn]; omega
      · rfl
    · show E.linesnum ≤ (EditorInsertLine E E.cursor.Y []).linesnum
      omega
  · simp only [if_neg hx]
    have hylt : E.cursor.Y < (E.linesnum : Int) := by
      by_contra hc
      exact hx (CursorInv_virtual E h (by have := h.2.1; omega))
    obtain ⟨line, hl, hxs⟩ := CursorInv_row E h hylt
    have hguard : ¬ (E.cursor.Y < 0 ∨ E.cursor.X < 0 ∨ size_gt E.cursor.X line.size = true) := by
      have := h.1; have := h.2.2.1
      simp [size_gt]; omega
    simp only [hl, if_neg hguard]
    have hview := EditorInsertLine_view E (E.cursor.Y + 1) (line.bytes.drop E.cursor.X.toNat)
    have hn : (EditorInsertLine E (E.cursor.Y + 1) (line.bytes.drop E.cursor.X.toNat)).linesnum
        = E.linesnum + 1 := by
      have : E.cursor.Y + 1 = ((y + 1 : Nat) : Int) := by omega
      rw [this]; exact EditorInsertLine_linesnum E (y + 1) _ (by omega)
    obtain ⟨line1, hl1⟩ := line_some_of_lt
      (EditorInsertLine E (E.cursor.Y + 1) (line.bytes.drop E.cursor.X.toNat))
      (EditorInsertLine E (E.cursor.Y + 1) (line.bytes.drop E.cursor.X.toNat)).cursor.Y.toNat
      (by rw [hview.1, hn]; omega)
    simp only [hl1]
    refine ⟨_, rfl, ?_, hview.2.1, hview.2.2.1, ?_⟩
    · apply CursorInv_col_zero
      · show 0 ≤ (EditorInsertLine E (E.cursor.Y + 1) _).cursor.Y + 1
        rw [hview.1]; omega
      · show (EditorInsertLine E (E.cursor.Y + 1) _).cursor.Y + 1 ≤
          (((EditorUpdateLine _ _ _ _).length : Nat) : Int)
        rw [hview.1, EditorUpdateLine_length, List.length_set]
        have : (EditorInsertLine E (E.cursor.Y + 1) (line.bytes.drop E.cursor.X.toNat)).line.length
            = E.linesnum + 1 := hn
        omega
      · rfl
    · show E.linesnum ≤ (EditorUpdateLine _ _ _ _).length
      rw [EditorUpdateLine_length, List.length_set]
      have : (EditorInsertLine E (E.cursor.Y + 1) (line.bytes.drop E.cursor.X.toNat)).line.length
          = E.linesnum + 1 := hn
      omega

theorem EditorDelChar_inv (E : EditorConfig) (h : CursorInv E) (hoff : E.offset.Y ≤ E.cursor.Y) :
    ∃ E2, EditorDelChar E = some E2 ∧ CursorInv E2 ∧ E2.offset = E.offset ∧
      E2.bufSize = E.bufSize ∧ E2.offset.Y ≤ (E2.linesnum : Int) := by
  obtain ⟨y, hye⟩ : ∃ y : Nat, E.cursor.Y = (y : Int) := ⟨E.cursor.Y.toNat, by have := h.1; omega⟩
  have hyn : y ≤ E.linesnum := by have := h.2.1; omega
  unfold EditorDelChar
  by_cases h1 : size_eq E.cursor.Y E.linesnum = true
  · simp only [if_pos h1]
    exact ⟨E, rfl, h, rfl, rfl, by have := h.2.1; omega⟩
  · simp only [if_neg h1]
    by_cases h2 : E.cursor.X = 0 ∧ E.cursor.Y = 0
    · simp only [if_pos h2]
      exact ⟨E, rfl, h, rfl, rfl, by have := h.2.1; omega⟩
    · simp only [if_neg h2]
      have hylt : E.cursor.Y < (E.linesnum : Int) := by
        have : ¬ E.cursor.Y = (E.linesnum : Int) := by simpa [size_eq] using h1
        have := h.2.1; omega
      have h3 : ¬ size_lt E.cursor.Y E.linesnum = false := by simp [size_lt, h.1, hylt]
      simp only [if_neg h3]
      obtain ⟨line, hl, hxs⟩ := CursorInv_row E h hylt
      have hlty : E.cursor.Y.toNat < E.linesnum := by omega
      by_cases h4 : E.cursor.X > 0
      · simp only [if_pos h4]
        obtain ⟨x, hxe⟩ : ∃ x : Nat, E.cursor.X - 1 = (x : Int) :=
          ⟨(E.cursor.X - 1).toNat, by omega⟩
        have hxlt : x < line.size := by omega
        have hview := EditorLineDelChar_view E E.cursor.Y.toNat (E.cursor.X - 1)
        have htext := EditorLineDelChar_text E E.cursor.Y.toNat x line hl hxlt
        rw [← hxe] at htext
        have hn : (EditorLineDelChar E E.cursor.Y.toNat (E.cursor.X - 1)).linesnum = E.linesnum := by
          rw [← textOf_length, htext, List.length_set, textOf_length]
        refine ⟨_, rfl, ?_, hview.2.1, hview.2.2.1, ?_⟩
        · unfold CursorInv rowLen
          show 0 ≤ (EditorLineDelChar E E.cursor.Y.toNat (E.cursor.X - 1)).cursor.Y ∧
            (EditorLineDelChar E E.cursor.Y.toNat (E.cursor.X - 1)).cursor.Y ≤
              ((EditorLineDelChar E E.cursor.Y.toNat (E.cursor.X - 1)).linesnum : Int) ∧
            0 ≤ (EditorLineDelChar E E.cursor.Y.toNat (E.cursor.X - 1)).cursor.X - 1 ∧
            (EditorLineDelChar E E.cursor.Y.toNat (E.cursor.X - 1)).cursor.X - 1 ≤
              ((((textOf (EditorLineDelChar E E.cursor.Y.toNat (E.cursor.X - 1))).getD
                (EditorLineDelChar E E.cursor.Y.toNat (E.cursor.X - 1)).cursor.Y.toNat []).length
                  : Nat) : Int)
          rw [hview.1, hn, htext, getD_set_self _ _ _ (by rw [textOf_length]; exact hlty)]
          refine ⟨h.1, h.2.1, by omega, ?_⟩
          rw [List.length_eraseIdx_of_lt (by exact hxlt)]
          unfold line_t.size at hxlt hxs
          omega
        · show (EditorLineDelChar E E.cursor.Y.toNat (E.cursor.X - 1)).offset.Y ≤
            ((EditorLineDelChar E E.cursor.Y.toNat (E.cursor.X - 1)).linesnum : Int)
          rw [hview.2.1, hn]; omega
      · simp only [if_neg h4]
        have hx0 : E.cursor.X = 0 := by have := h.2.2.1; omega
        have hy1 : 1 ≤ y := by
          by_contra hc
          exact h2 ⟨hx0, by omega⟩
        obtain ⟨prev, hp⟩ := line_some_of_lt E (E.cursor.Y - 1).toNat (by omega)
        have hg : ¬ E.cursor.Y - 1 < 0 := by omega
        simp only [hp, hl, if_neg hg]
        -- the editor with the cursor moved to the end of the previous line
        have hviewA := EditorLineAppendString_view
          { E with cursor := { E.cursor with X := (prev.size : Int) } }
          (E.cursor.Y - 1).toNat line.bytes
        have htextA := EditorLineAppendString_text
          { E with cursor := { E.cursor with X := (prev.size : Int) } }
          (E.cursor.Y - 1).toNat line.bytes prev hp
        have hnA : (EditorLineAppendString
            { E with cursor := { E.cursor with X := (prev.size : Int) } }
            (E.cursor.Y - 1).toNat line.bytes).linesnum = E.linesnum := by
          rw [← textOf_length, htextA, List.length_set]; exact textOf_length E
        generalize hE2 : EditorLineAppendString
            { E with cursor := { E.cursor with X := (prev.size : Int) } }
            (E.cursor.Y - 1).toNat line.bytes = E2 at hviewA htextA hnA
        have hc2 : E2.cursor = { X := (prev.size : Int), Y := E.cursor.Y } := hviewA.1
        have hviewD := EditorDelLine_view E2 E2.cursor.Y
        have htextD : textOf (EditorDelLine E2 E2.cursor.Y) = (textOf E2).eraseIdx y := by
          rw [hc2]; show textOf (EditorDelLine E2 E.cursor.Y) = _
          rw [hye]; exact EditorDelLine_text E2 y (by rw [hnA]; omega)
        have hnD : (EditorDelLine E2 E2.cursor.Y).linesnum = E.linesnum - 1 := by
          rw [← textOf_length, htextD, List.length_eraseIdx_of_lt (by rw [textOf_length, hnA]; omega),
            textOf_length, hnA]
        refine ⟨_, rfl, ?_, hviewD.2.1.trans hviewA.2.1, hviewD.2.2.1.trans hviewA.2.2.1, ?_⟩
        · unfold CursorInv rowLen
          show 0 ≤ (EditorDelLine E2 E2.cursor.Y).cursor.Y - 1 ∧
            (EditorDelLine E2 E2.cursor.Y).cursor.Y - 1 ≤
              ((EditorDelLine E2 E2.cursor.Y).linesnum : Int) ∧
            0 ≤ (EditorDelLine E2 E2.cursor.Y).cursor.X ∧
            (EditorDelLine E2 E2.cursor.Y).cursor.X ≤
              ((((textOf (EditorDelLine E2 E2.cursor.Y)).getD
                ((EditorDelLine E2 E2.cursor.Y).cursor.Y - 1).toNat []).length : Nat) : Int)
          rw [hviewD.1, hnD, htextD, hc2]
          show 0 ≤ E.cursor.Y - 1 ∧ E.cursor.Y - 1 ≤ ((E.linesnum - 1 : Nat) : Int) ∧
            0 ≤ (prev.size : Int) ∧
            (prev.size : Int) ≤
              (((((textOf E2).eraseIdx y).getD (E.cursor.Y - 1).toNat []).length : Nat) : Int)
          refine ⟨by omega, by omega, by omega, ?_⟩
          have hidx : (E.cursor.Y - 1).toNat < y := by omega
          have hget : ((textOf E2).eraseIdx y).getD (E.cursor.Y - 1).toNat []
              = prev.bytes ++ line.bytes := by
            rw [List.getD_eq_getElem?_getD, List.getElem?_eraseIdx_of_lt _ _ _ hidx, htextA,
              ← List.getD_eq_getElem?_getD]
            exact getD_set_self _ _ _ (by
              show (E.cursor.Y - 1).toNat < (textOf E).length
              rw [textOf_length]; omega)
          rw [hget, List.length_append]
          unfold line_t.size
          omega
        · show (EditorDelLine E2 E2.cursor.Y).offset.Y ≤ ((EditorDelLine E2 E2.cursor.Y).linesnum : Int)
          rw [hviewD.2.1, hnD, hviewA.2.1]
          show E.offset.Y ≤ _
          omega


/-! ## Key dispatch -/

/-- `EditorScroll` touches only `rx` and the offset, and brings the row offset to
at most the cursor line. -/
theorem EditorScroll_inv (E : EditorConfig) (h : LoopInv E) :
    CursorInv (EditorScroll E) ∧ 0 ≤ (EditorScroll E).offset.Y ∧
      (EditorScroll E).offset.Y ≤ (EditorScroll E).cursor.Y ∧
      (EditorScroll E).bufSize = E.bufSize ∧ (EditorScroll E).line = E.line ∧
      (EditorScroll E).cursor = E.cursor ∧ (EditorScroll E).quit_times = E.quit_times ∧
      (EditorScroll E).dirty = E.dirty := by
  obtain ⟨hc, ho0, _, hrows⟩ := h
  refine ⟨hc, ?_, ?_, rfl, rfl, rfl, rfl, rfl⟩
  · show 0 ≤ (if E.cursor.Y ≥ (if E.cursor.Y < E.offset.Y then E.cursor.Y else E.offset.Y) + E.bufSize.Y
        then E.cursor.Y - E.bufSize.Y + 1
        else (if E.cursor.Y < E.offset.Y then E.cursor.Y else E.offset.Y))
    have := hc.1
    split_ifs <;> omega
  · show (if E.cursor.Y ≥ (if E.cursor.Y < E.offset.Y then E.cursor.Y else E.offset.Y) + E.bufSize.Y
        then E.cursor.Y - E.bufSize.Y + 1
        else (if E.cursor.Y < E.offset.Y then E.cursor.Y else E.offset.Y)) ≤ E.cursor.Y
    split_ifs <;> omega

theorem LoopInv_quit_times (E : EditorConfig) (q : Int) (h : LoopInv E) :
    LoopInv { E with quit_times := q } := h

/-- `HandleKeyPress` on a key that neither prompts nor quits, in a state as
`EditorScroll` leaves it: it returns, with the loop invariant, and every such
key but 0 resets the quit counter. -/
theorem HandleKeyPress_inv (io_ok : Bool) (c : Int) (keys : List Int) (E : EditorConfig)
    (hc : CursorInv E) (ho0 : 0 ≤ E.offset.Y) (ho : E.offset.Y ≤ E.cursor.Y)
    (hrows : 1 ≤ E.bufSize.Y) (hkey : editKey c) :
    ∃ E2, HandleKeyPress io_ok c keys E = Outcome.running E2 keys ∧ LoopInv E2 ∧
      (c ≠ 0 → E2.quit_times = KILO_QUIT_TIMES) := by
  have hon : E.offset.Y ≤ (E.linesnum : Int) := by have := hc.2.1; omega
  have hbase : LoopInv E := ⟨hc, ho0, hon, hrows⟩
  obtain ⟨hq, hs, hf⟩ := hkey
  unfold HandleKeyPress
  simp only []
  by_cases h0 : c = 0
  · simp only [if_pos h0]
    exact ⟨E, rfl, hbase, fun h => absurd h0 h⟩
  simp only [if_neg h0]
  by_cases h13 : c = 13
  · simp only [if_pos h13]
    obtain ⟨E2, g1, g2, g3, g4, g5⟩ := EditorInsertNewLine_inv E hc
    simp only [g1]
    exact ⟨_, rfl, LoopInv_quit_times _ _ ⟨g2, by rw [g3]; exact ho0, by rw [g3]; omega, by rw [g4]; exact hrows⟩, fun _ => rfl⟩
  simp only [if_neg h13, if_neg hq, if_neg hs]
  by_cases hhome : c = HOME_KEY
  · simp only [if_pos hhome]
    refine ⟨_, rfl, ⟨⟨hc.1, hc.2.1, le_refl _, ?_⟩, ho0, hon, hrows⟩, fun _ => rfl⟩
    exact rowLen_nonneg E _
  simp only [if_neg hhome]
  by_cases hend : c = END_KEY
  · simp only [if_pos hend]
    by_cases hy : E.cursor.Y < (E.linesnum : Int)
    · have hlt : size_lt E.cursor.Y E.linesnum = true := by simp [size_lt, hc.1, hy]
      obtain ⟨l, hl⟩ := line_some_of_lt E E.cursor.Y.toNat (by have := hc.1; omega)
      simp only [hlt, if_true, hl]
      refine ⟨_, rfl, ⟨⟨hc.1, hc.2.1, ?_, ?_⟩, ho0, hon, hrows⟩, fun _ => rfl⟩
      · show (0 : Int) ≤ (l.size : Int); omega
      · show (l.size : Int) ≤ rowLen E E.cursor.Y
        rw [rowLen_of_line E _ l hl]
    · have hlt : size_lt E.cursor.Y E.linesnum = false := by simp [size_lt]; omega
      simp only [hlt, Bool.false_eq_true, if_false]
      exact ⟨_, rfl, hbase, fun _ => rfl⟩
  simp only [if_neg hend, if_neg hf]
  by_cases hdel : c = BACKSPACE ∨ c = CTRL_KEY 104 ∨ c = DEL_KEY
  · simp only [if_pos hdel]
    by_cases hd : c = DEL_KEY
    · simp only [if_pos hd]
      obtain ⟨E1, g1, g2, g3, g4, g5, g6⟩ :=
        EditorMoveCursor_inv E ARROW_RIGHT hc.1 hc.2.1 hc.2.2.1
      simp only [g1]
      obtain ⟨E2, k1, k2, k3, k4, k5⟩ := EditorDelChar_inv E1 g2 (by rw [g4]; have := g6 rfl; omega)
      simp only [k1]
      exact ⟨_, rfl, LoopInv_quit_times _ _ ⟨k2, by rw [k3, g4]; exact ho0, k5, by rw [k4, g5]; exact hrows⟩, fun _ => rfl⟩
    · simp only [if_neg hd]
      obtain ⟨E2, k1, k2, k3, k4, k5⟩ := EditorDelChar_inv E hc ho
      simp only [k1]
      exact ⟨_, rfl, LoopInv_quit_times _ _ ⟨k2, by rw [k3]; exact ho0, k5, by rw [k4]; exact hrows⟩, fun _ => rfl⟩
  simp only [if_neg hdel]
  by_cases hpage : c = PAGE_UP ∨ c = PAGE_DOWN
  · simp only [if_pos hpage]
    have hneg : ¬ E.bufSize.Y < 0 := by omega
    obtain ⟨r, hr⟩ : ∃ r : Nat, E.bufSize.Y.toNat = r + 1 := ⟨E.bufSize.Y.toNat - 1, by omega⟩
    by_cases hup : c = PAGE_UP
    · simp only [if_pos hup]
      rw [if_neg (by exact hneg)]
      show ∃ E2, (match moveTimes ARROW_UP E.bufSize.Y.toNat
          { E with cursor := { E.cursor with Y := E.offset.Y } } with
        | none => Outcome.stuck
        | some E1 => Outcome.running { E1 with quit_times := KILO_QUIT_TIMES } keys)
          = Outcome.running E2 keys ∧ _
      rw [hr]
      obtain ⟨E2, k1, k2, k3, k4, k5⟩ := moveTimes_inv ARROW_UP r
        { E with cursor := { E.cursor with Y := E.offset.Y } } ho0 hon hc.2.2.1
      simp only [k1]
      have hn : E2.linesnum = E.linesnum := linesnum_congr E E2 k3
      exact ⟨_, rfl, LoopInv_quit_times _ _ ⟨k2, by rw [k4]; exact ho0, by rw [k4, hn]; exact hon,
        by rw [k5]; exact hrows⟩, fun _ => rfl⟩
    · simp only [if_neg hup]
      rw [if_neg (by exact hneg)]
      show ∃ E2, (match moveTimes ARROW_DOWN E.bufSize.Y.toNat
          { E with cursor := { E.cursor with
              Y := if size_gt (E.offset.Y + E.bufSize.Y - 1) E.linesnum = true
                then (E.linesnum : Int) else E.offset.Y + E.bufSize.Y - 1 } } with
        | none => Outcome.stuck
        | some E1 => Outcome.running { E1 with quit_times := KILO_QUIT_TIMES } keys)
          = Outcome.running E2 keys ∧ _
      rw [hr]
      have hy0 : 0 ≤ (if size_gt (E.offset.Y + E.bufSize.Y - 1) E.linesnum = true
          then (E.linesnum : Int) else E.offset.Y + E.bufSize.Y - 1) := by
        split_ifs <;> omega
      have hyn : (if size_gt (E.offset.Y + E.bufSize.Y - 1) E.linesnum = true
          then (E.linesnum : Int) else E.offset.Y + E.bufSize.Y - 1) ≤ (E.linesnum : Int) := by
        split_ifs with hg
        · exact le_refl _
        · simp [size_gt] at hg; omega
      obtain ⟨E2, k1, k2, k3, k4, k5⟩ := moveTimes_inv ARROW_DOWN r
        { E with cursor := { E.cursor with
            Y := if size_gt (E.offset.Y + E.bufSize.Y - 1) E.linesnum = true
              then (E.linesnum : Int) else E.offset.Y + E.bufSize.Y - 1 } } hy0 hyn hc.2.2.1
      simp only [k1]
      have hn : E2.linesnum = E.linesnum := linesnum_congr E E2 k3
      exact ⟨_, rfl, LoopInv_quit_times _ _ ⟨k2, by rw [k4]; exact ho0, by rw [k4, hn]; exact hon,
        by rw [k5]; exact hrows⟩, fun _ => rfl⟩
  simp only [if_neg hpage]
  by_cases harrow : c = ARROW_UP ∨ c = ARROW_DOWN ∨ c = ARROW_LEFT ∨ c = ARROW_RIGHT
  · simp only [if_pos harrow]
    obtain ⟨E2, k1, k2, k3, k4, k5, _⟩ := EditorMoveCursor_inv E c hc.1 hc.2.1 hc.2.2.1
    simp only [k1]
    have hn : E2.linesnum = E.linesnum := linesnum_congr E E2 k3
    exact ⟨_, rfl, LoopInv_quit_times _ _ ⟨k2, by rw [k4]; exact ho0, by rw [k4, hn]; exact hon,
      by rw [k5]; exact hrows⟩, fun _ => rfl⟩
  simp only [if_neg harrow]
  by_cases hnop : c = CTRL_KEY 108 ∨ c = 27
  · simp only [if_pos hnop]
    exact ⟨_, rfl, hbase, fun _ => rfl⟩
  simp only [if_neg hnop]
  obtain ⟨E2, g1, g2, g3, g4, g5⟩ := EditorInsertChar_inv E c hc
  simp only [g1]
  exact ⟨_, rfl, LoopInv_quit_times _ _ ⟨g2, by rw [g3]; exact ho0, by rw [g3]; omega, by rw [g4]; exact hrows⟩, fun _ => rfl⟩


/-! ## The loop of `main` -/

theorem mainLoop_cons (io_ok : Bool) (fuel : Nat) (c : Int) (rest rest1 : List Int)
    (E E1 : EditorConfig)
    (h : HandleKeyPress io_ok c rest (EditorScroll E) = Outcome.running E1 rest1) :
    mainLoop io_ok (fuel + 1) (c :: rest) E = mainLoop io_ok fuel rest1 E1 := by
  rw [mainLoop, h]

theorem mainLoop_cons_exited (io_ok : Bool) (fuel : Nat) (c : Int) (rest : List Int)
    (E : EditorConfig) (h : HandleKeyPress io_ok c rest (EditorScroll E) = Outcome.exited) :
    mainLoop io_ok (fuel + 1) (c :: rest) E = Outcome.exited := by
  rw [mainLoop, h]

/-- One round of the loop of `main` on a key that neither prompts nor quits. -/
theorem mainLoop_step_inv (io_ok : Bool) (c : Int) (rest : List Int) (E : EditorConfig)
    (h : LoopInv E) (hkey : editKey c) :
    ∃ E2, HandleKeyPress io_ok c rest (EditorScroll E) = Outcome.running E2 rest ∧ LoopInv E2 ∧
      (c ≠ 0 → E2.quit_times = KILO_QUIT_TIMES) := by
  obtain ⟨s1, s2, s3, s4, _⟩ := EditorScroll_inv E h
  exact HandleKeyPress_inv io_ok c rest (EditorScroll E) s1 s2 s3 (by rw [s4]; exact h.2.2.2) hkey

theorem HandleKeyPress_quit (io_ok : Bool) (keys : List Int) (E : EditorConfig) :
    HandleKeyPress io_ok (CTRL_KEY 113) keys E =
      if E.dirty ≠ 0 ∧ E.quit_times > 0 then
        Outcome.running { E with quit_times := E.quit_times - 1 } keys
      else Outcome.exited := by
  unfold HandleKeyPress
  have h0 : ¬ CTRL_KEY 113 = 0 := by decide
  have h13 : ¬ CTRL_KEY 113 = 13 := by decide
  simp only [if_neg h0, if_neg h13, if_true]

/-- Pressing Ctrl-Q over and over on a dirty document whose counter is `q`: each
of the first `q` presses returns with the counter one lower, and press number
`q + 1` exits. -/
theorem quit_presses (io_ok : Bool) (q : Nat) (E : EditorConfig) (hd : E.dirty ≠ 0)
    (hq : E.quit_times = (q : Int)) :
    (∀ j, j ≤ q → ∃ E2, runKeys io_ok (List.replicate j (CTRL_KEY 113)) E = Outcome.running E2 [] ∧
        E2.quit_times = (q : Int) - (j : Int) ∧ E2.dirty = E.dirty) ∧
      runKeys io_ok (List.replicate (q + 1) (CTRL_KEY 113)) E = Outcome.exited := by
  unfold runKeys
  simp only [List.length_replicate]
  induction q generalizing E with
  | zero =>
    refine ⟨?_, ?_⟩
    · intro j hj
      have : j = 0 := by omega
      subst this
      exact ⟨E, rfl, by simpa using hq, rfl⟩
    · rw [List.replicate_succ]
      apply mainLoop_cons_exited
      rw [HandleKeyPress_quit, if_neg]
      intro h
      have : (EditorScroll E).quit_times = E.quit_times := rfl
      rw [this, hq] at h
      exact absurd h.2 (by decide)
  | succ q ih =>
    have hstep : HandleKeyPress io_ok (CTRL_KEY 113) (List.replicate q (CTRL_KEY 113)) (EditorScroll E)
        = Outcome.running { EditorScroll E with quit_times := (EditorScroll E).quit_times - 1 }
            (List.replicate q (CTRL_KEY 113)) := by
      rw [HandleKeyPress_quit, if_pos]
      refine ⟨hd, ?_⟩
      show E.quit_times > 0
      rw [hq]; push_cast; omega
    have hstep2 : HandleKeyPress io_ok (CTRL_KEY 113) (List.replicate (q + 1) (CTRL_KEY 113))
        (EditorScroll E)
        = Outcome.running { EditorScroll E with quit_times := (EditorScroll E).quit_times - 1 }
            (List.replicate (q + 1) (CTRL_KEY 113)) := by
      rw [HandleKeyPress_quit, if_pos]
      refine ⟨hd, ?_⟩
      show E.quit_times > 0
      rw [hq]; push_cast; omega
    obtain ⟨ih1, ih2⟩ := ih { EditorScroll E with quit_times := (EditorScroll E).quit_times - 1 }
      hd (by show E.quit_times - 1 = (q : Int); rw [hq]; push_cast; omega)
    refine ⟨?_, ?_⟩
    · intro j hj
      cases j with
      | zero => exact ⟨E, rfl, by simpa using hq, rfl⟩
      | succ j =>
        obtain ⟨E2, g1, g2, g3⟩ := ih1 j (by omega)
        refine ⟨E2, ?_, by rw [g2]; push_cast; omega, g3⟩
        rw [List.replicate_succ]
        have hstep3 : HandleKeyPress io_ok (CTRL_KEY 113) (List.replicate j (CTRL_KEY 113))
            (EditorScroll E)
            = Outcome.running { EditorScroll E with quit_times := (EditorScroll E).quit_times - 1 }
                (List.replicate j (CTRL_KEY 113)) := by
          rw [HandleKeyPress_quit, if_pos]
          refine ⟨hd, ?_⟩
          show E.quit_times > 0
          rw [hq]; push_cast; omega
        rw [mainLoop_cons io_ok _ _ _ _ _ _ hstep3]
        exact g1
    · rw [List.replicate_succ, mainLoop_cons io_ok _ _ _ _ _ _ hstep2]
      exact ih2

theorem done_running (r : Option EditorConfig) (q : Int) (keys rest : List Int)
    (E2 : EditorConfig)
    (h : (match r with
          | none => Outcome.stuck
          | some E1 => Outcome.running { E1 with quit_times := q } keys) = Outcome.running E2 rest) :
    E2.quit_times = q := by
  cases r with
  | none => simp at h
  | some E1 =>
    simp only [Outcome.running.injEq] at h
    rw [← h.1]

/-- Whenever `HandleKeyPress` returns from a key other than 0 and Ctrl-Q, the
quit counter is back at `KILO_QUIT_TIMES`. -/
theorem HandleKeyPress_resets (io_ok : Bool) (c : Int) (keys rest : List Int)
    (E E2 : EditorConfig) (h0 : c ≠ 0) (hq : c ≠ CTRL_KEY 113)
    (h : HandleKeyPress io_ok c keys E = Outcome.running E2 rest) :
    E2.quit_times = KILO_QUIT_TIMES := by
  unfold HandleKeyPress at h
  simp only [if_neg h0, if_neg hq] at h
  by_cases h13 : c = 13
  · simp only [if_pos h13] at h
    exact done_running _ _ _ _ _ h
  simp only [if_neg h13] at h
  by_cases hs : c = CTRL_KEY 115
  · simp only [if_pos hs] at h
    cases hsave : EditorSave io_ok keys E with
    | none => simp [hsave] at h
    | some r =>
      obtain ⟨E1, w, rest1⟩ := r
      simp only [hsave, Outcome.running.injEq] at h
      rw [← h.1]
  simp only [if_neg hs] at h
  by_cases hhome : c = HOME_KEY
  · simp only [if_pos hhome] at h
    cases h; rfl
  simp only [if_neg hhome] at h
  by_cases hend : c = END_KEY
  · simp only [if_pos hend] at h
    split at h
    · split at h
      · simp at h
      · cases h; rfl
    · cases h; rfl
  simp only [if_neg hend] at h
  by_cases hf : c = CTRL_KEY 102
  · simp only [if_pos hf] at h
    cases hfind : EditorFind keys E with
    | none => simp [hfind] at h
    | some r =>
      obtain ⟨E1, rest1⟩ := r
      simp only [hfind, Outcome.running.injEq] at h
      rw [← h.1]
  simp only [if_neg hf] at h
  by_cases hdel : c = BACKSPACE ∨ c = CTRL_KEY 104 ∨ c = DEL_KEY
  · simp only [if_pos hdel] at h
    split at h
    · simp at h
    · exact done_running _ _ _ _ _ h
  simp only [if_neg hdel] at h
  by_cases hpage : c = PAGE_UP ∨ c = PAGE_DOWN
  · simp only [if_pos hpage] at h
    by_cases hup : c = PAGE_UP
    · simp only [if_pos hup] at h
      split at h
      · simp at h
      · exact done_running _ _ _ _ _ h
    · simp only [if_neg hup] at h
      split at h
      · simp at h
      · exact done_running _ _ _ _ _ h
  simp only [if_neg hpage] at h
  by_cases harrow : c = ARROW_UP ∨ c = ARROW_DOWN ∨ c = ARROW_LEFT ∨ c = ARROW_RIGHT
  · simp only [if_pos harrow] at h
    exact done_running _ _ _ _ _ h
  simp only [if_neg harrow] at h
  by_cases hnop : c = CTRL_KEY 108 ∨ c = 27
  · simp only [if_pos hnop] at h
    cases h; rfl
  simp only [if_neg hnop] at h
  exact done_running _ _ _ _ _ h


/-- C6 as stated fails: on a dirty document with the counter at 3, the third
consecutive Ctrl-Q press does not terminate the editor; it returns with the
counter at 0. -/
theorem C6_third_quit_press_counterexample :
    dirtyEditor.dirty ≠ 0 ∧ dirtyEditor.quit_times = KILO_QUIT_TIMES ∧
      runKeys true (List.replicate 3 (CTRL_KEY 113)) dirtyEditor ≠ Outcome.exited ∧
      runKeys true (List.replicate 3 (CTRL_KEY 113)) dirtyEditor =
        Outcome.running { EditorScroll dirtyEditor with quit_times := 0 } [] := by
  decide

/-- C6 (amended): with a dirty document and the quit counter at its initial value
3, the first, second and third consecutive Ctrl-Q presses do not terminate and
each decrement the counter by one; the fourth consecutive press terminates the
editor; and any other key than 0 and Ctrl-Q resets the counter to 3 when its
handler returns, which it does for every key that neither prompts nor quits. -/
theorem C6_quit_needs_four_presses (io_ok : Bool) (E : EditorConfig) (hd : E.dirty ≠ 0)
    (hq : E.quit_times = KILO_QUIT_TIMES) :
    (∀ j, j ≤ 3 → ∃ E2, runKeys io_ok (List.replicate j (CTRL_KEY 113)) E = Outcome.running E2 [] ∧
        E2.quit_times = KILO_QUIT_TIMES - (j : Int) ∧ E2.dirty = E.dirty) ∧
      runKeys io_ok (List.replicate 4 (CTRL_KEY 113)) E = Outcome.exited ∧
      (∀ (c : Int) (keys : List Int) (E1 : EditorConfig), LoopInv E1 → editKey c → c ≠ 0 →
        ∃ E2, HandleKeyPress io_ok c keys (EditorScroll E1) = Outcome.running E2 keys ∧
          E2.quit_times = KILO_QUIT_TIMES) ∧
      (∀ (c : Int) (keys rest : List Int) (E1 E2 : EditorConfig), c ≠ 0 → c ≠ CTRL_KEY 113 →
        HandleKeyPress io_ok c keys E1 = Outcome.running E2 rest →
          E2.quit_times = KILO_QUIT_TIMES) := by
  obtain ⟨h1, h2⟩ := quit_presses io_ok 3 E hd hq
  refine ⟨h1, h2, ?_, ?_⟩
  · intro c keys E1 hE1 hkey h0
    obtain ⟨E2, g1, _, g3⟩ := mainLoop_step_inv io_ok c keys E1 hE1 hkey
    exact ⟨E2, g1, g3 h0⟩
  · intro c keys rest E1 E2 h0 hcq h
    exact HandleKeyPress_resets io_ok c keys rest E1 E2 h0 hcq h

/-- C6 (amended) on the dirty empty document. -/
theorem C6_quit_needs_four_presses_witness :
    (∀ j, j ≤ 3 → ∃ E2, runKeys true (List.replicate j (CTRL_KEY 113)) dirtyEditor
          = Outcome.running E2 [] ∧
        E2.quit_times = KILO_QUIT_TIMES - (j : Int) ∧ E2.dirty = dirtyEditor.dirty) ∧
      runKeys true (List.replicate 4 (CTRL_KEY 113)) dirtyEditor = Outcome.exited ∧
      (∀ (c : Int) (keys : List Int) (E1 : EditorConfig), LoopInv E1 → editKey c → c ≠ 0 →
        ∃ E2, HandleKeyPress true c keys (EditorScroll E1) = Outcome.running E2 keys ∧
          E2.quit_times = KILO_QUIT_TIMES) ∧
      (∀ (c : Int) (keys rest : List Int) (E1 E2 : EditorConfig), c ≠ 0 → c ≠ CTRL_KEY 113 →
        HandleKeyPress true c keys E1 = Outcome.running E2 rest →
          E2.quit_times = KILO_QUIT_TIMES) :=
  C6_quit_needs_four_presses true dirtyEditor (by decide) (by decide)


/-! ## Every reachable state satisfies the loop invariant -/

theorem EditorLineDelChar_out_of_range (E : EditorConfig) (k : Nat) (at_ : Int) (line : line_t)
    (hk : E.line[k]? = some line) (h : at_ < 0 ∨ (line.size : Int) ≤ at_) :
    EditorLineDelChar E k at_ = E := by
  unfold EditorLineDelChar
  simp only [hk]
  rw [if_pos]
  rcases h with h | h
  · exact Or.inl h
  · right; simp [size_lt]; omega

/-- C12: a request out of range is a no-op.  `EditorInsertLine` with `at < 0` or
`at > linesnum`, `EditorDelLine` with `at < 0` or `at >= linesnum`, and
`EditorLineDelChar` on a line with `at < 0` or `at >= size` each return the editor
state they were given: the same lines with the same bytes, render and highlight,
the same line count and the same dirty counter. -/
theorem C12_out_of_range_requests_change_nothing (E : EditorConfig) (at_ : Int) (s : List Nat) :
    ((at_ < 0 ∨ (E.linesnum : Int) < at_) → EditorInsertLine E at_ s = E) ∧
    ((at_ < 0 ∨ (E.linesnum : Int) ≤ at_) → EditorDelLine E at_ = E) ∧
    (∀ (k : Nat) (line : line_t), E.line[k]? = some line →
      (at_ < 0 ∨ (line.size : Int) ≤ at_) → EditorLineDelChar E k at_ = E) :=
  ⟨EditorInsertLine_out_of_range E at_ s, EditorDelLine_out_of_range E at_,
    fun k line hk h => EditorLineDelChar_out_of_range E k at_ line hk h⟩

/-- C12 on the one-line document `a`: inserting at 2, deleting line 1 and deleting
byte 1 of line 0 change nothing. -/
theorem C12_out_of_range_requests_change_nothing_witness :
    EditorInsertLine docA 2 [98] = docA ∧ EditorDelLine docA 1 = docA ∧
      EditorLineDelChar docA 0 1 = docA :=
  ⟨(C12_out_of_range_requests_change_nothing docA 2 [98]).1 (by decide),
    (C12_out_of_range_requests_change_nothing docA 1 []).2.1 (by decide),
    (C12_out_of_range_requests_change_nothing docA 1 []).2.2 0
      ⟨0, [97], [97], [0], false⟩ (by decide) (by decide)⟩

/-- C13: for a state with the cursor invariant and a viewport of at least one row
and one column, after `EditorScroll` the field `rx` is the render column of the
cursor (`EditorLineCxToRx` of its line, or `cursor.X` on the virtual last line),
`offset.Y <= cursor.Y < offset.Y + rows` and `offset.X <= rx < offset.X + columns`;
and when these bounds held before the call, the offset is unchanged.  Cursor and
lines are not touched. -/
theorem C13_scroll_keeps_cursor_in_viewport (E : EditorConfig) (hinv : CursorInv E)
    (hrows : 1 ≤ E.bufSize.Y) (hcols : 1 ≤ E.bufSize.X) :
    (∀ l, E.line[E.cursor.Y.toNat]? = some l →
        (EditorScroll E).rx = EditorLineCxToRx l E.cursor.X) ∧
    (E.cursor.Y = (E.linesnum : Int) → (EditorScroll E).rx = E.cursor.X) ∧
    (EditorScroll E).cursor = E.cursor ∧ (EditorScroll E).line = E.line ∧
    (EditorScroll E).bufSize = E.bufSize ∧
    (EditorScroll E).offset.Y ≤ E.cursor.Y ∧
    E.cursor.Y < (EditorScroll E).offset.Y + E.bufSize.Y ∧
    (EditorScroll E).offset.X ≤ (EditorScroll E).rx ∧
    (EditorScroll E).rx < (EditorScroll E).offset.X + E.bufSize.X ∧
    (E.offset.Y ≤ E.cursor.Y → E.cursor.Y < E.offset.Y + E.bufSize.Y →
      E.offset.X ≤ (EditorScroll E).rx → (EditorScroll E).rx < E.offset.X + E.bufSize.X →
      (EditorScroll E).offset = E.offset) := by
  have hy0 := hinv.1
  have hyn := hinv.2.1
  refine ⟨?_, ?_, rfl, rfl, rfl, ?_, ?_, ?_, ?_, ?_⟩
  · intro l hl
    have hlt : E.cursor.Y.toNat < E.linesnum := (List.getElem?_eq_some.1 hl).1
    have hs : size_lt E.cursor.Y E.linesnum = true := by simp [size_lt, hy0]; omega
    show (if size_lt E.cursor.Y E.linesnum = true then
        match E.line[E.cursor.Y.toNat]? with
        | some l => EditorLineCxToRx l E.cursor.X
        | none => E.cursor.X
      else E.cursor.X) = _
    rw [if_pos hs, hl]
  · intro he
    have hs : ¬ size_lt E.cursor.Y E.linesnum = true := by simp [size_lt]; omega
    show (if size_lt E.cursor.Y E.linesnum = true then
        match E.line[E.cursor.Y.toNat]? with
        | some l => EditorLineCxToRx l E.cursor.X
        | none => E.cursor.X
      else E.cursor.X) = _
    rw [if_neg hs]
  all_goals
    have hY : (EditorScroll E).offset.Y =
        (if E.cursor.Y ≥ (if E.cursor.Y < E.offset.Y then E.cursor.Y else E.offset.Y) + E.bufSize.Y
          then E.cursor.Y - E.bufSize.Y + 1
          else (if E.cursor.Y < E.offset.Y then E.cursor.Y else E.offset.Y)) := rfl
    have hX : (EditorScroll E).offset.X =
        (if (EditorScroll E).rx ≥
            (if (EditorScroll E).rx < E.offset.X then (EditorScroll E).rx else E.offset.X)
              + E.bufSize.X
          then (EditorScroll E).rx - E.bufSize.X + 1
          else (if (EditorScroll E).rx < E.offset.X then (EditorScroll E).rx else E.offset.X)) :=
      rfl
    generalize (EditorScroll E).rx = rx at hX ⊢
  · rw [hY]; split_ifs <;> omega
  · rw [hY]; split_ifs <;> omega
  · rw [hX]; split_ifs <;> omega
  · rw [hX]; split_ifs <;> omega
  · intro h1 h2 h3 h4
    have e1 : (EditorScroll E).offset.Y = E.offset.Y := by
      rw [hY]; split_ifs <;> omega
    have e2 : (EditorScroll E).offset.X = E.offset.X := by
      rw [hX]; split_ifs <;> omega
    generalize (EditorScroll E).offset = o at e1 e2
    cases o
    simp only at e1 e2
    subst e1 e2
    rfl

/-- C13 on the document `docTwo`, whose offset (5, 3) does not show the cursor at
(0, 1): the call moves the offset to (0, 1). -/
theorem C13_scroll_keeps_cursor_in_viewport_witness :
    (EditorScroll docTwo).offset = { X := 0, Y := 1 } ∧
    (EditorScroll docTwo).offset.Y ≤ docTwo.cursor.Y ∧
    docTwo.cursor.Y < (EditorScroll docTwo).offset.Y + docTwo.bufSize.Y ∧
    (EditorScroll docTwo).offset.X ≤ (EditorScroll docTwo).rx ∧
    (EditorScroll docTwo).rx < (EditorScroll docTwo).offset.X + docTwo.bufSize.X :=
  have h := C13_scroll_keeps_cursor_in_viewport docTwo (by unfold CursorInv; decide)
    (by decide) (by decide)
  ⟨by decide, h.2.2.2.2.2.1, h.2.2.2.2.2.2.1, h.2.2.2.2.2.2.2.1, h.2.2.2.2.2.2.2.2.1⟩

/-! ## The contract of `EditorMoveCursor` -/

theorem clampToLine_eq (E : EditorConfig) (cur : COORD) (hy0 : 0 ≤ cur.Y) :
    clampToLine E cur = { E with cursor := { X := min cur.X (rowLen E cur.Y), Y := cur.Y } } := by
  unfold clampToLine
  rw [lineLenAt_eq E cur.Y hy0]
  by_cases h : cur.X > rowLen E cur.Y
  · rw [if_pos h, min_eq_right (by omega)]
  · rw [if_neg h, min_eq_left (by omega)]

theorem EditorMoveCursor_left (E : EditorConfig) (hinv : CursorInv E) :
    EditorMoveCursor E ARROW_LEFT = some
      { E with
        cursor :=
          if E.cursor.X ≠ 0 then { X := E.cursor.X - 1, Y := E.cursor.Y }
          else if E.cursor.Y > 0 then { X := rowLen E (E.cursor.Y - 1), Y := E.cursor.Y - 1 }
          else E.cursor } := by
  obtain ⟨hy0, hyn, hx0, hxl⟩ := hinv
  unfold EditorMoveCursor arrowTarget
  simp only [if_true]
  by_cases hx : E.cursor.X ≠ 0
  · simp only [if_pos hx]
    rw [clampToLine_eq E { X := E.cursor.X - 1, Y := E.cursor.Y } hy0]
    show some { E with cursor := { X := min (E.cursor.X - 1) (rowLen E E.cursor.Y), Y := E.cursor.Y } } = _
    rw [min_eq_left (by omega)]
  · simp only [if_neg hx]
    by_cases hy : E.cursor.Y > 0
    · simp only [if_pos hy]
      obtain ⟨p, hp⟩ := line_some_of_lt E (E.cursor.Y - 1).toNat (by omega)
      simp only [hp]
      rw [clampToLine_eq E { X := (p.size : Int), Y := E.cursor.Y - 1 }
        (by show 0 ≤ E.cursor.Y - 1; omega)]
      show some { E with cursor := { X := min (p.size : Int) (rowLen E (E.cursor.Y - 1)),
                                     Y := E.cursor.Y - 1 } } = _
      rw [rowLen_of_line E _ p hp, min_self]
    · simp only [if_neg hy]
      rw [clampToLine_eq E E.cursor hy0, min_eq_left hxl]

theorem EditorMoveCursor_right (E : EditorConfig) (hinv : CursorInv E) :
    EditorMoveCursor E ARROW_RIGHT = some
      { E with
        cursor :=
          if (E.cursor.Y < (E.linesnum : Int)) then
            if E.cursor.X < rowLen E E.cursor.Y then { X := E.cursor.X + 1, Y := E.cursor.Y }
            else { X := 0, Y := E.cursor.Y + 1 }
          else E.cursor } := by
  have hinv2 := hinv
  obtain ⟨hy0, hyn, hx0, hxl⟩ := hinv
  unfold EditorMoveCursor arrowTarget
  have hne : ¬ ARROW_RIGHT = ARROW_LEFT := by decide
  simp only [if_neg hne, if_true]
  by_cases hy : E.cursor.Y < (E.linesnum : Int)
  · obtain ⟨line, hl, hxs⟩ := CursorInv_row E hinv2 hy
    have hs : size_lt E.cursor.Y E.linesnum = true := by simp [size_lt, hy0, hy]
    have hr := rowLen_of_line E _ line hl
    simp only [hs, if_true, hl, if_pos hy]
    by_cases hx : E.cursor.X < (line.size : Int)
    · have h1 : size_lt E.cursor.X line.size = true := by simp [size_lt, hx0, hx]
      simp only [h1, if_true]
      rw [clampToLine_eq E { X := E.cursor.X + 1, Y := E.cursor.Y } hy0, hr, if_pos hx]
      show some { E with cursor := { X := min (E.cursor.X + 1) (line.size : Int),
                                     Y := E.cursor.Y } } = _
      rw [min_eq_left (by omega)]
    · have h1 : ¬ size_lt E.cursor.X line.size = true := by simp [size_lt]; omega
      have h2 : size_eq E.cursor.X line.size = true := by simp [size_eq]; omega
      simp only [if_neg h1, h2, if_true]
      rw [clampToLine_eq E { X := 0, Y := E.cursor.Y + 1 } (by show 0 ≤ E.cursor.Y + 1; omega),
        hr, if_neg hx]
      show some { E with cursor := { X := min 0 (rowLen E (E.cursor.Y + 1)),
                                     Y := E.cursor.Y + 1 } } = _
      rw [min_eq_left (rowLen_nonneg E _)]
  · have hs : ¬ size_lt E.cursor.Y E.linesnum = true := by simp [size_lt]; omega
    simp only [if_neg hs, if_neg hy]
    rw [clampToLine_eq E E.cursor hy0, min_eq_left hxl]

theorem EditorMoveCursor_up (E : EditorConfig) (hinv : CursorInv E) :
    EditorMoveCursor E ARROW_UP = some
      { E with
        cursor :=
          if E.cursor.Y = 0 then E.cursor
          else { X := min E.cursor.X (rowLen E (E.cursor.Y - 1)), Y := E.cursor.Y - 1 } } := by
  obtain ⟨hy0, hyn, hx0, hxl⟩ := hinv
  unfold EditorMoveCursor arrowTarget
  have hne : ¬ ARROW_UP = ARROW_LEFT := by decide
  have hne2 : ¬ ARROW_UP = ARROW_RIGHT := by decide
  simp only [if_neg hne, if_neg hne2, if_true]
  by_cases hy : E.cursor.Y = 0
  · have : ¬ E.cursor.Y ≠ 0 := by omega
    simp only [if_neg this, if_pos hy]
    rw [clampToLine_eq E E.cursor hy0, min_eq_left hxl]
  · have : E.cursor.Y ≠ 0 := hy
    simp only [if_pos this, if_neg hy]
    rw [clampToLine_eq E { X := E.cursor.X, Y := E.cursor.Y - 1 }
      (by show 0 ≤ E.cursor.Y - 1; omega)]

theorem EditorMoveCursor_down (E : EditorConfig) (hinv : CursorInv E) :
    EditorMoveCursor E ARROW_DOWN = some
      { E with
        cursor :=
          if (E.cursor.Y = (E.linesnum : Int)) then E.cursor
          else { X := min E.cursor.X (rowLen E (E.cursor.Y + 1)), Y := E.cursor.Y + 1 } } := by
  obtain ⟨hy0, hyn, hx0, hxl⟩ := hinv
  unfold EditorMoveCursor arrowTarget
  have hne : ¬ ARROW_DOWN = ARROW_LEFT := by decide
  have hne2 : ¬ ARROW_DOWN = ARROW_RIGHT := by decide
  have hne3 : ¬ ARROW_DOWN = ARROW_UP := by decide
  simp only [if_neg hne, if_neg hne2, if_neg hne3, if_true]
  by_cases hy : E.cursor.Y = (E.linesnum : Int)
  · have hs : ¬ size_lt E.cursor.Y E.linesnum = true := by simp [size_lt]; omega
    simp only [if_neg hs, if_pos hy]
    rw [clampToLine_eq E E.cursor hy0, min_eq_left hxl]
  · have hs : size_lt E.cursor.Y E.linesnum = true := by simp [size_lt, hy0]; omega
    simp only [hs, if_true, if_neg hy]
    rw [clampToLine_eq E { X := E.cursor.X, Y := E.cursor.Y + 1 }
      (by show 0 ≤ E.cursor.Y + 1; omega)]

/-- C15: in a state with the cursor invariant `EditorMoveCursor` returns the state
it was given with only the cursor changed (the document is not modified), and
the cursor is: for `ARROW_LEFT`, one column to the left, or the end of the
previous line from column 0 of a line `y > 0`, unchanged at (0,0); for
`ARROW_RIGHT`, one column to the right, or column 0 of the next line from the end
of a real line, unchanged on the virtual last line; for `ARROW_UP` unchanged on
line 0, else one line up with column `min(old column, length of the new line)`;
for `ARROW_DOWN` unchanged on line `linesnum`, else one line down with column
`min(old column, length of the new line)`. -/
theorem C15_move_cursor_contract (E : EditorConfig) (hinv : CursorInv E) :
    EditorMoveCursor E ARROW_LEFT = some
      { E with
        cursor :=
          if E.cursor.X ≠ 0 then { X := E.cursor.X - 1, Y := E.cursor.Y }
          else if E.cursor.Y > 0 then { X := rowLen E (E.cursor.Y - 1), Y := E.cursor.Y - 1 }
          else E.cursor } ∧
    EditorMoveCursor E ARROW_RIGHT = some
      { E with
        cursor :=
          if (E.cursor.Y < (E.linesnum : Int)) then
            if E.cursor.X < rowLen E E.cursor.Y then { X := E.cursor.X + 1, Y := E.cursor.Y }
            else { X := 0, Y := E.cursor.Y + 1 }
          else E.cursor } ∧
    EditorMoveCursor E ARROW_UP = some
      { E with
        cursor :=
          if E.cursor.Y = 0 then E.cursor
          else { X := min E.cursor.X (rowLen E (E.cursor.Y - 1)), Y := E.cursor.Y - 1 } } ∧
    EditorMoveCursor E ARROW_DOWN = some
      { E with
        cursor :=
          if (E.cursor.Y = (E.linesnum : Int)) then E.cursor
          else { X := min E.cursor.X (rowLen E (E.cursor.Y + 1)), Y := E.cursor.Y + 1 } } :=
  ⟨EditorMoveCursor_left E hinv, EditorMoveCursor_right E hinv, EditorMoveCursor_up E hinv,
    EditorMoveCursor_down E hinv⟩


/-- C15 on the document `docTwo` (lines `ab` and `c`, cursor at the start of
line 1): `ARROW_LEFT` moves to the end of line 0. -/
theorem C15_move_cursor_contract_witness :
    EditorMoveCursor docTwo ARROW_LEFT = some { docTwo with cursor := { X := 2, Y := 0 } } :=
  (C15_move_cursor_contract docTwo (by unfold CursorInv; decide)).1.trans (by decide)

/-! ## `EditorInsertNewLine` splits the line under the cursor -/

theorem split_set {α : Type} (T : List α) (y : Nat) (b a d : α) (h : T[y]? = some b) :
    (T.take (y + 1) ++ d :: T.drop (y + 1)).set y a = T.take y ++ a :: d :: T.drop (y + 1) := by
  induction T generalizing y with
  | nil => simp at h
  | cons t T ih =>
    cases y with
    | zero => simp
    | succ y =>
      simp only [List.getElem?_cons_succ] at h
      simp only [List.take_succ_cons, List.drop_succ_cons, List.cons_append, List.set_cons_succ,
        ih y h]

theorem split_getElem? {α : Type} (T : List α) (y : Nat) (b d : α) (h : T[y]? = some b) :
    (T.take (y + 1) ++ d :: T.drop (y + 1))[y]? = some b := by
  induction T generalizing y with
  | nil => simp at h
  | cons t T ih =>
    cases y with
    | zero => simpa using h
    | succ y =>
      simp only [List.getElem?_cons_succ] at h
      simp only [List.take_succ_cons, List.drop_succ_cons, List.cons_append,
        List.getElem?_cons_succ, ih y h]

theorem drop_of_getElem? {α : Type} (T : List α) (y : Nat) (b : α) (h : T[y]? = some b) :
    T.drop y = b :: T.drop (y + 1) := by
  induction T generalizing y with
  | nil => simp at h
  | cons t T ih =>
    cases y with
    | zero => simp at h; simp [h]
    | succ y =>
      simp only [List.getElem?_cons_succ] at h
      simp only [List.drop_succ_cons, ih y h]

theorem textOf_getElem? (E : EditorConfig) (k : Nat) (line : line_t) (h : E.line[k]? = some line) :
    (textOf E)[k]? = some line.bytes := by
  simp [textOf, h]

/-- The result of `EditorInsertNewLine` with the cursor on a real line. -/
theorem EditorInsertNewLine_split (E : EditorConfig) (y x : Nat) (l : line_t)
    (hy : E.cursor.Y = (y : Int)) (hx : E.cursor.X = (x : Int)) (hl : E.line[y]? = some l)
    (hxl : x ≤ l.size) :
    ∃ E2, EditorInsertNewLine E = some E2 ∧ E2.linesnum = E.linesnum + 1 ∧
      textOf E2 =
        (textOf E).take y ++ l.bytes.take x :: l.bytes.drop x :: (textOf E).drop (y + 1) ∧
      E2.cursor = { X := 0, Y := (y : Int) + 1 } := by
  have hylt : y < E.linesnum := (List.getElem?_eq_some.1 hl).1
  have hT := textOf_getElem? E y l hl
  have hlen : ∀ E2 : EditorConfig,
      textOf E2 =
        (textOf E).take y ++ l.bytes.take x :: l.bytes.drop x :: (textOf E).drop (y + 1) →
      E2.linesnum = E.linesnum + 1 := by
    intro E2 h
    rw [← textOf_length, h, ← textOf_length E]
    have := textOf_length E
    simp only [List.length_append, List.length_take, List.length_cons, List.length_drop]
    omega
  unfold EditorInsertNewLine
  by_cases hx0 : E.cursor.X = 0
  · have hxz : x = 0 := by omega
    subst hxz
    simp only [if_pos hx0]
    have hview := EditorInsertLine_view E E.cursor.Y []
    have htext : textOf (EditorInsertLine E E.cursor.Y []) =
        (textOf E).take y ++ l.bytes.take 0 :: l.bytes.drop 0 :: (textOf E).drop (y + 1) := by
      rw [hy, EditorInsertLine_text E y [] (by omega), drop_of_getElem? _ y _ hT]
      rfl
    refine ⟨_, rfl, hlen _ htext, htext, ?_⟩
    show ({ X := 0, Y := (EditorInsertLine E E.cursor.Y []).cursor.Y + 1 } : COORD) = _
    rw [hview.1, hy]
  · simp only [if_neg hx0]
    have hyt : E.cursor.Y.toNat = y := by rw [hy]; rfl
    have hxt : E.cursor.X.toNat = x := by rw [hx]; rfl
    rw [hyt, hl]
    have hguard : ¬ (E.cursor.Y < 0 ∨ E.cursor.X < 0 ∨ size_gt E.cursor.X l.size = true) := by
      simp [size_gt]; omega
    simp only [if_neg hguard, hxt]
    have hy1 : E.cursor.Y + 1 = ((y + 1 : Nat) : Int) := by omega
    rw [hy1]
    have hview := EditorInsertLine_view E ((y + 1 : Nat) : Int) (l.bytes.drop x)
    have htext1 := EditorInsertLine_text E (y + 1) (l.bytes.drop x) (by omega)
    have hyt1 : (EditorInsertLine E ((y + 1 : Nat) : Int) (l.bytes.drop x)).cursor.Y.toNat = y := by
      rw [hview.1]; exact hyt
    have hxt1 : (EditorInsertLine E ((y + 1 : Nat) : Int) (l.bytes.drop x)).cursor.X.toNat = x := by
      rw [hview.1]; exact hxt
    rw [hyt1, hxt1]
    have hn1 := EditorInsertLine_linesnum E (y + 1) (l.bytes.drop x) (by omega)
    obtain ⟨line1, hl1⟩ := line_some_of_lt
      (EditorInsertLine E ((y + 1 : Nat) : Int) (l.bytes.drop x)) y (by omega)
    have hb1 : line1.bytes = l.bytes := by
      have h1 := textOf_getElem? _ y line1 hl1
      rw [htext1, split_getElem? _ y _ _ hT] at h1
      exact (Option.some.inj h1).symm
    simp only [hl1]
    have htext : textOf { EditorInsertLine E ((y + 1 : Nat) : Int) (l.bytes.drop x) with
        line := EditorUpdateLine (EditorInsertLine E ((y + 1 : Nat) : Int) (l.bytes.drop x)).syntax_
          (EditorInsertLine E ((y + 1 : Nat) : Int) (l.bytes.drop x)).linesnum
          ((EditorInsertLine E ((y + 1 : Nat) : Int) (l.bytes.drop x)).line.set y
            { line1 with bytes := line1.bytes.take x }) y } =
        (textOf E).take y ++ l.bytes.take x :: l.bytes.drop x :: (textOf E).drop (y + 1) := by
      show (EditorUpdateLine _ _ _ _).map line_t.bytes = _
      rw [EditorUpdateLine_bytes, List.map_set]
      show (textOf (EditorInsertLine E ((y + 1 : Nat) : Int) (l.bytes.drop x))).set y
        (line1.bytes.take x) = _
      rw [htext1, hb1, split_set _ y _ _ _ hT]
    refine ⟨_, rfl, hlen _ htext, htext, ?_⟩
    show ({ X := 0, Y := (EditorInsertLine E ((y + 1 : Nat) : Int) (l.bytes.drop x)).cursor.Y + 1 }
      : COORD) = _
    rw [hview.1, hy]

/-- C20: with the cursor at `(y, x)` on a real line (`y < linesnum`,
`0 <= x <= length`), `EditorInsertNewLine` returns a state with one line more, in
which line `y` holds the first `x` bytes of the old line `y`, line `y + 1` the
remaining bytes, all other lines keep their bytes and their order, and the cursor
is at `(y + 1, 0)`. -/
theorem C20_newline_splits_line_at_cursor (E : EditorConfig) (y x : Nat) (l : line_t)
    (hy : E.cursor.Y = (y : Int)) (hx : E.cursor.X = (x : Int)) (hl : E.line[y]? = some l)
    (hxl : x ≤ l.size) :
    ∃ E2, EditorInsertNewLine E = some E2 ∧ E2.linesnum = E.linesnum + 1 ∧
      textOf E2 =
        (textOf E).take y ++ l.bytes.take x :: l.bytes.drop x :: (textOf E).drop (y + 1) ∧
      E2.cursor = { X := 0, Y := (y : Int) + 1 } :=
  EditorInsertNewLine_split E y x l hy hx hl hxl

/-- C20 on the document `docTwoMid` (lines `ab` and `c`, cursor between `a` and
`b`): the result has the lines `a`, `b`, `c` and the cursor at (1, 0). -/
theorem C20_newline_splits_line_at_cursor_witness :
    ∃ E2, EditorInsertNewLine docTwoMid = some E2 ∧ E2.linesnum = 3 ∧
      textOf E2 = [cstr "a", cstr "b", cstr "c"] ∧ E2.cursor = { X := 0, Y := 1 } :=
  C20_newline_splits_line_at_cursor docTwoMid 0 1 ⟨0, cstr "ab", cstr "ab", [0, 0], false⟩
    rfl rfl (by decide) (by decide)

/-! ## The forward search step of `EditorFindCallback` -/

theorem strstr_none_iff (hay needle : List Nat) :
    strstr hay needle = none ↔ ¬ needle <:+: hay := by
  induction hay with
  | nil =>
    simp only [strstr]
    by_cases h : needle = []
    · simp [h]
    · simp [h]
  | cons a hs ih =>
    simp only [strstr]
    by_cases h : needle.isPrefixOf (a :: hs) = true
    · have hp : needle <+: a :: hs := List.isPrefixOf_iff_prefix.1 h
      simp only [h, if_true]
      simp [hp.isInfix]
    · have hp : ¬ needle <+: a :: hs := fun hp => h (List.isPrefixOf_iff_prefix.2 hp)
      simp only [h]
      rw [if_neg (by simp), Option.map_eq_none', ih, List.infix_cons_iff]
      tauto

theorem strstr_some_infix (hay needle : List Nat) (m : Nat) (h : strstr hay needle = some m) :
    needle <:+: hay := by
  by_contra hc
  rw [(strstr_none_iff hay needle).2 hc] at h
  exact Option.noConfusion h

theorem forwardVisits_eq (n : Nat) (hn : 0 < n) (k : Nat) (cur : Int) (h1 : -1 ≤ cur)
    (h2 : cur < (n : Int)) :
    forwardVisits n k cur =
      (List.range k).map (fun (i : Nat) => ((cur + 1 + (i : Int)) % (n : Int)).toNat) := by
  induction k generalizing cur with
  | zero => rfl
  | succ k ih =>
    rw [forwardVisits, List.range_succ_eq_map, List.map_cons, List.map_map]
    by_cases hw : cur + 1 = (n : Int)
    · simp only [if_pos hw]
      rw [ih 0 (by omega) (by omega)]
      congr 1
      · rw [hw]; simp
      · apply List.map_congr_left
        intro i _
        simp only [Function.comp, Nat.succ_eq_add_one, Nat.cast_add, Nat.cast_one]
        have : cur + 1 + ((i : Int) + 1) = (n : Int) + (0 + 1 + (i : Int)) := by omega
        rw [this, Int.add_emod_self_left]
    · simp only [if_neg hw]
      rw [ih (cur + 1) (by omega) (by omega)]
      congr 1
      · have : (cur + 1 + ((0 : Nat) : Int)) % (n : Int) = cur + 1 := by
          simp only [Nat.cast_zero, add_zero]
          exact Int.emod_eq_of_lt (by omega) (by omega)
        rw [this]
      · apply List.map_congr_left
        intro i _
        simp only [Function.comp, Nat.succ_eq_add_one, Nat.cast_add, Nat.cast_one]
        have : cur + 1 + ((i : Int) + 1) = cur + 1 + 1 + (i : Int) := by omega
        rw [this]

theorem forwardVisits_order (n : Nat) (m : Int) (h1 : -1 ≤ m) (h2 : m < (n : Int)) :
    forwardVisits n n m = forwardOrder n m := by
  rcases Nat.eq_zero_or_pos n with h | h
  · subst h; rfl
  · exact forwardVisits_eq n h n m h1 h2

theorem findScan_forward (query : List Nat) (E : EditorConfig) (hd : E.direction = 1)
    (hn : 0 < E.linesnum) (k : Nat) (cur : Int) (h1 : -1 ≤ cur)
    (h2 : cur < (E.linesnum : Int)) :
    ∃ E2, findScan query k cur E = some E2 ∧
      (∀ j, (forwardVisits E.linesnum k cur).find? (lineContains E query) = some j →
        ∃ l m, E.line[j]? = some l ∧ strstr l.render query = some m ∧
          E2.cursor = { X := EditorLineRxToCx l m, Y := (j : Int) } ∧
          E2.last_match = (j : Int)) ∧
      ((forwardVisits E.linesnum k cur).find? (lineContains E query) = none → E2 = E) := by
  induction k generalizing cur with
  | zero => exact ⟨E, rfl, by intro j h; simp [forwardVisits] at h, fun _ => rfl⟩
  | succ k ih =>
    rw [findScan, forwardVisits]
    simp only [hd]
    have hc1 : ¬ cur + 1 = -1 := by omega
    simp only [if_neg hc1, size_eq, decide_eq_true_eq]
    generalize hc2 : (if cur + 1 = (E.linesnum : Int) then (0 : Int) else cur + 1) = c2
    have hc2a : 0 ≤ c2 := by rw [← hc2]; split_ifs <;> omega
    have hc2b : c2 < E.linesnum := by rw [← hc2]; split_ifs <;> omega
    have hc2c : ¬ c2 < 0 := by omega
    rw [if_neg hc2c]
    obtain ⟨l, hl⟩ := line_some_of_lt E c2.toNat (by omega)
    simp only [hl]
    cases hs : strstr l.render query with
    | some m =>
      simp only []
      have hc : lineContains E query c2.toNat = true := by
        simp [lineContains, hl, strstr_some_infix _ _ _ hs]
      refine ⟨_, rfl, ?_, ?_⟩
      · intro j hj
        rw [List.find?_cons_of_pos _ hc] at hj
        cases hj
        refine ⟨l, m, hl, hs, ?_, ?_⟩
        · show ({ X := EditorLineRxToCx l m, Y := c2 } : COORD) = _
          congr 1; omega
        · show c2 = _
          omega
      · intro hnone
        rw [List.find?_cons_of_pos _ hc] at hnone
        cases hnone
    | none =>
      simp only []
      have hc : ¬ lineContains E query c2.toNat = true := by
        simp [lineContains, hl, (strstr_none_iff _ _).1 hs]
      obtain ⟨E2, he, g1, g2⟩ := ih c2 (by omega) hc2b
      refine ⟨E2, he, ?_, ?_⟩
      · intro j hj
        rw [List.find?_cons_of_neg _ hc] at hj
        exact g1 j hj
      · intro hnone
        rw [List.find?_cons_of_neg _ hc] at hnone
        exact g2 hnone

/-- The first statement of `EditorFindCallback` is defined when the saved line is
a line of the document; it only writes highlight bytes. -/
theorem findRestore_frame (E : EditorConfig)
    (hsv : ∀ s, E.saved_hl = some s →
      0 ≤ E.saved_hl_line ∧ E.saved_hl_line < (E.linesnum : Int)) :
    ∃ E1, findRestore E = some E1 ∧
      E1.line.map (fun l => (l.render, l.bytes)) = E.line.map (fun l => (l.render, l.bytes)) ∧
      E1.cursor = E.cursor ∧ E1.last_match = E.last_match ∧ E1.saved_hl = none := by
  unfold findRestore
  cases hs : E.saved_hl with
  | none => exact ⟨E, rfl, rfl, rfl, rfl, hs⟩
  | some saved =>
    obtain ⟨g1, g2⟩ := hsv saved hs
    have hneg : ¬ E.saved_hl_line < 0 := by omega
    obtain ⟨l, hl⟩ := line_some_of_lt E E.saved_hl_line.toNat (by omega)
    simp only [if_neg hneg, hl]
    exact ⟨_, rfl, map_set_of_eq _ E.line _ l _ hl rfl, rfl, rfl, rfl⟩

theorem map_getElem?_of_map_eq {α : Type} (g : line_t → α) (L1 L2 : List line_t)
    (h : L1.map g = L2.map g) (j : Nat) : (L1[j]?).map g = (L2[j]?).map g := by
  rw [← List.getElem?_map, ← List.getElem?_map, h]

theorem lineContains_congr (E1 E : EditorConfig) (query : List Nat)
    (h : E1.line.map (fun l => (l.render, l.bytes)) = E.line.map (fun l => (l.render, l.bytes))) :
    lineContains E1 query = lineContains E query := by
  funext j
  have hj := map_getElem?_of_map_eq _ _ _ h j
  unfold lineContains
  cases h1 : E1.line[j]? with
  | none =>
    cases h2 : E.line[j]? with
    | none => rfl
    | some l2 => rw [h1, h2] at hj; simp at hj
  | some l1 =>
    cases h2 : E.line[j]? with
    | none => rw [h1, h2] at hj; simp at hj
    | some l2 =>
      rw [h1, h2] at hj
      simp only [Option.map_some', Option.some.injEq, Prod.mk.injEq] at hj
      simp only [hj.1]

/-- A call of `EditorFindCallback` with a key other than Enter, Escape, left and
up scans forward: from the last match for right and down, from the top for any
other key. -/
theorem EditorFindCallback_forward (E : EditorConfig) (query : List Nat) (key : Int)
    (hk : key ≠ 13 ∧ key ≠ 27 ∧ key ≠ ARROW_LEFT ∧ key ≠ ARROW_UP)
    (hm1 : -1 ≤ E.last_match) (hm2 : E.last_match < (E.linesnum : Int))
    (hsv : ∀ s, E.saved_hl = some s →
      0 ≤ E.saved_hl_line ∧ E.saved_hl_line < (E.linesnum : Int))
    (start : Int)
    (hstart : start = if key = ARROW_RIGHT ∨ key = ARROW_DOWN then E.last_match else -1) :
    ∃ E2, EditorFindCallback E query key = some E2 ∧
      (∀ j, firstForwardMatch E query start = some j →
        ∃ l m, E.line[j]? = some l ∧ strstr l.render query = some m ∧
          E2.cursor = { X := EditorLineRxToCx l m, Y := (j : Int) } ∧
          E2.last_match = (j : Int)) ∧
      (firstForwardMatch E query start = none → E2.cursor = E.cursor) := by
  obtain ⟨E1, hr, hmap, hcur, hlm, hsn⟩ := findRestore_frame E hsv
  have hlen : E1.linesnum = E.linesnum := by
    have := congrArg List.length hmap
    simpa [EditorConfig.linesnum] using this
  have hs1 : -1 ≤ start := by rw [hstart]; split_ifs <;> omega
  have hs2 : start < (E.linesnum : Int) := by rw [hstart]; split_ifs <;> omega
  have hE3 : (if (if key = ARROW_RIGHT ∨ key = ARROW_DOWN then { E1 with direction := 1 }
        else if key = ARROW_LEFT ∨ key = ARROW_UP then { E1 with direction := -1 }
        else { E1 with last_match := -1, direction := 1 }).last_match = -1
      then { (if key = ARROW_RIGHT ∨ key = ARROW_DOWN then { E1 with direction := 1 }
        else if key = ARROW_LEFT ∨ key = ARROW_UP then { E1 with direction := -1 }
        else { E1 with last_match := -1, direction := 1 }) with direction := 1 }
      else (if key = ARROW_RIGHT ∨ key = ARROW_DOWN then { E1 with direction := 1 }
        else if key = ARROW_LEFT ∨ key = ARROW_UP then { E1 with direction := -1 }
        else { E1 with last_match := -1, direction := 1 }))
      = { E1 with last_match := start, direction := 1 } := by
    have hlu : ¬ (key = ARROW_LEFT ∨ key = ARROW_UP) := by
      intro h; rcases h with h | h
      · exact hk.2.2.1 h
      · exact hk.2.2.2 h
    by_cases hf : key = ARROW_RIGHT ∨ key = ARROW_DOWN
    · have : start = E1.last_match := by rw [hstart, if_pos hf, hlm]
      subst this
      simp only [if_pos hf]
      split_ifs <;> rfl
    · have : start = -1 := by rw [hstart, if_neg hf]
      subst this
      simp only [if_neg hf, if_neg hlu]
      split_ifs <;> rfl
  have hne : ¬ (key = 13 ∨ key = 27) := by
    intro h; rcases h with h | h
    · exact hk.1 h
    · exact hk.2.1 h
  unfold EditorFindCallback
  simp only [hr, if_neg hne]
  rw [hE3]
  have hcongr : lineContains { E1 with last_match := start, direction := 1 } query
      = lineContains E query := lineContains_congr _ E query hmap
  rcases Nat.eq_zero_or_pos E.linesnum with hz | hpos
  · have hz1 : ({ E1 with last_match := start, direction := 1 } : EditorConfig).linesnum = 0 := by
      show E1.linesnum = 0
      omega
    rw [hz1]
    refine ⟨_, rfl, ?_, fun _ => hcur⟩
    intro j hj
    simp [firstForwardMatch, forwardOrder, hz] at hj
  · obtain ⟨E2, he, g1, g2⟩ := findScan_forward query
      { E1 with last_match := start, direction := 1 } rfl (by show 0 < E1.linesnum; omega)
      E1.linesnum start hs1 (by show start < (E1.linesnum : Int); omega)
    have hvis : forwardVisits ({ E1 with last_match := start, direction := 1 } : EditorConfig).linesnum
        E1.linesnum start = forwardOrder E.linesnum start := by
      show forwardVisits E1.linesnum E1.linesnum start = _
      rw [hlen]; exact forwardVisits_order _ _ hs1 hs2
    rw [hvis, hcongr] at g1 g2
    refine ⟨E2, he, ?_, ?_⟩
    · intro j hj
      obtain ⟨l1, m, hl1, hs, hc, hl⟩ := g1 j hj
      have hj2 := map_getElem?_of_map_eq _ _ _ hmap j
      have hl1b : E1.line[j]? = some l1 := hl1
      rw [hl1b] at hj2
      cases h2 : E.line[j]? with
      | none => rw [h2] at hj2; simp at hj2
      | some l =>
        rw [h2] at hj2
        simp only [Option.map_some', Option.some.injEq, Prod.mk.injEq] at hj2
        refine ⟨l, m, rfl, by rw [← hj2.1]; exact hs, ?_, hl⟩
        rw [hc]
        unfold EditorLineRxToCx
        rw [hj2.2]
    · intro hnone
      rw [g2 hnone]
      exact hcur

/-- C11: a forward search step of `EditorFindCallback` (key right or down) from
last match `m` returns, and it moves the cursor to the first line among
`m + 1`, `m + 2`, and so on, wrapping modulo the line count and ending with `m`,
whose render contains the query (to the column of the first occurrence there),
and leaves the cursor unchanged if no line contains it; a fresh search (any key
but Enter, Escape and the arrows) does the same from the top.  In particular for
the lines `foo`, `bar`, `foo` with the cursor on line 2, a fresh search for `foo`
lands on line 0, the next forward step on line 2, and the one after on line 0. -/
theorem C11_forward_search_wraps (E : EditorConfig) (query : List Nat) (key : Int)
    (hm1 : -1 ≤ E.last_match) (hm2 : E.last_match < (E.linesnum : Int))
    (hsv : ∀ s, E.saved_hl = some s →
      0 ≤ E.saved_hl_line ∧ E.saved_hl_line < (E.linesnum : Int)) :
    (key = ARROW_RIGHT ∨ key = ARROW_DOWN →
      ∃ E2, EditorFindCallback E query key = some E2 ∧
        (∀ j, firstForwardMatch E query E.last_match = some j →
          ∃ l m, E.line[j]? = some l ∧ strstr l.render query = some m ∧
            E2.cursor = { X := EditorLineRxToCx l m, Y := (j : Int) } ∧
            E2.last_match = (j : Int)) ∧
        (firstForwardMatch E query E.last_match = none → E2.cursor = E.cursor)) ∧
    (key ≠ 13 ∧ key ≠ 27 ∧ key ≠ ARROW_LEFT ∧ key ≠ ARROW_UP ∧ key ≠ ARROW_RIGHT ∧
        key ≠ ARROW_DOWN →
      ∃ E2, EditorFindCallback E query key = some E2 ∧
        (∀ j, firstForwardMatch E query (-1) = some j →
          ∃ l m, E.line[j]? = some l ∧ strstr l.render query = some m ∧
            E2.cursor = { X := EditorLineRxToCx l m, Y := (j : Int) } ∧
            E2.last_match = (j : Int)) ∧
        (firstForwardMatch E query (-1) = none → E2.cursor = E.cursor)) ∧
    findLines (cstr "foo") [111, ARROW_RIGHT, ARROW_RIGHT] docFoo = [some 0, some 2, some 0] := by
  refine ⟨?_, ?_, by decide⟩
  · intro hf
    have hk : key ≠ 13 ∧ key ≠ 27 ∧ key ≠ ARROW_LEFT ∧ key ≠ ARROW_UP := by
      rcases hf with h | h <;> subst h <;> decide
    exact EditorFindCallback_forward E query key hk hm1 hm2 hsv _ (by rw [if_pos hf])
  · intro hk
    have hf : ¬ (key = ARROW_RIGHT ∨ key = ARROW_DOWN) := by
      intro h; rcases h with h | h
      · exact hk.2.2.2.2.1 h
      · exact hk.2.2.2.2.2 h
    exact EditorFindCallback_forward E query key ⟨hk.1, hk.2.1, hk.2.2.1, hk.2.2.2.1⟩ hm1 hm2 hsv _
      (by rw [if_neg hf])

/-- C11 on the document `foo`, `bar`, `foo` after a fresh search has matched
line 0: the forward step returns with the cursor on line 2. -/
theorem C11_forward_search_wraps_witness :
    docFooFound.last_match = 0 ∧
      ∃ E2, EditorFindCallback docFooFound (cstr "foo") ARROW_RIGHT = some E2 ∧
        E2.cursor.Y = 2 ∧ E2.last_match = 2 := by
  refine ⟨by decide, ?_⟩
  obtain ⟨E2, h, g1, _⟩ := (C11_forward_search_wraps docFooFound (cstr "foo") ARROW_RIGHT
    (by decide) (by decide) (fun _ _ => by decide)).1 (Or.inl rfl)
  obtain ⟨l, m, _, _, hc, hl⟩ := g1 2 (by decide)
  exact ⟨E2, h, by rw [hc]; rfl, hl⟩

/-! ## A search leaves the highlight of the document as it was -/

theorem SearchInv_start (E : EditorConfig) (h0 : E.saved_hl = none) (hm : E.last_match = -1) :
    SearchInv E E := by
  unfold SearchInv
  rw [h0, hm]
  exact ⟨le_refl _, by omega, rfl⟩

theorem SearchInv_linesnum (E0 E : EditorConfig) (h : SearchInv E0 E) :
    E.linesnum = E0.linesnum := by
  obtain ⟨_, _, h3⟩ := h
  unfold EditorConfig.linesnum
  cases hs : E.saved_hl with
  | none => rw [hs] at h3; rw [h3]
  | some s =>
    rw [hs] at h3
    obtain ⟨_, l, _, h4⟩ := h3
    rw [← h4, List.length_set]

theorem SearchInv_scroll (E0 E : EditorConfig) (h : SearchInv E0 E) :
    SearchInv E0 (EditorScroll E) := h

/-- Under the search invariant the restore at the head of `EditorFindCallback` is
defined and gives back the lines of the document. -/
theorem findRestore_search (E0 E : EditorConfig) (h : SearchInv E0 E) :
    ∃ E1, findRestore E = some E1 ∧ E1.line = E0.line ∧ E1.saved_hl = none ∧
      E1.last_match = E.last_match ∧ E1.cursor = E.cursor ∧ E1.offset = E.offset := by
  obtain ⟨_, _, h3⟩ := h
  unfold findRestore
  cases hs : E.saved_hl with
  | none =>
    rw [hs] at h3
    exact ⟨E, rfl, h3, hs, rfl, rfl, rfl⟩
  | some s =>
    rw [hs] at h3
    obtain ⟨h4, l, hl, h5⟩ := h3
    have hneg : ¬ E.saved_hl_line < 0 := by omega
    simp only [if_neg hneg, hl]
    exact ⟨_, rfl, h5, rfl, rfl, rfl, rfl⟩

theorem findScan_search (query : List Nat) (E0 E : EditorConfig) (hs : HlSized E0)
    (hline : E.line = E0.line) (hsaved : E.saved_hl = none) (hn : 0 < E.linesnum)
    (hlm : -1 ≤ E.last_match ∧ E.last_match < (E.linesnum : Int))
    (k : Nat) (cur : Int)
    (hdir : (E.direction = 1 ∧ -1 ≤ cur) ∨ (E.direction = -1 ∧ 0 ≤ cur))
    (hcur : cur < (E.linesnum : Int)) :
    ∃ E2, findScan query k cur E = some E2 ∧ SearchInv E0 E2 := by
  induction k generalizing cur with
  | zero =>
    refine ⟨E, rfl, ?_⟩
    unfold SearchInv
    rw [hsaved]
    exact ⟨hlm.1, hlm.2, hline⟩
  | succ k ih =>
    rw [findScan]
    simp only []
    generalize hc2 : (if cur + E.direction = -1 then (E.linesnum : Int) - 1
      else if size_eq (cur + E.direction) E.linesnum = true then 0
      else cur + E.direction) = c2
    have hc2a : 0 ≤ c2 ∧ c2 < (E.linesnum : Int) := by
      rw [← hc2]
      simp only [size_eq, decide_eq_true_eq]
      rcases hdir with ⟨hd, hc⟩ | ⟨hd, hc⟩ <;> rw [hd] <;> split_ifs <;> omega
    have hneg : ¬ c2 < 0 := by omega
    rw [if_neg hneg]
    obtain ⟨l, hl⟩ := line_some_of_lt E c2.toNat (by omega)
    simp only [hl]
    cases hstr : strstr l.render query with
    | some m =>
      simp only []
      refine ⟨_, rfl, ?_⟩
      have hlen : l.hl.length = l.render.length := by
        apply hs
        rw [← hline]
        exact List.getElem?_mem hl
      unfold SearchInv
      refine ⟨by show -1 ≤ c2; omega, ?_, ?_⟩
      · show c2 < (((E.line.set c2.toNat _).length : Nat) : Int)
        rw [List.length_set]
        exact hc2a.2
      · show 0 ≤ c2 ∧ ∃ l2,
          (E.line.set c2.toNat { l with hl := memset l.hl m HL_MATCH query.length })[c2.toNat]?
            = some l2 ∧
          (E.line.set c2.toNat { l with hl := memset l.hl m HL_MATCH query.length }).set c2.toNat
            { l2 with hl := (l.hl.take l.rsize).take l2.rsize ++ l2.hl.drop l2.rsize } = E0.line
        refine ⟨hc2a.1, { l with hl := memset l.hl m HL_MATCH query.length }, ?_, ?_⟩
        · rw [List.getElem?_set_self]
          exact (List.getElem?_eq_some.1 hl).1
        · rw [List.set_set, ← hline]
          apply set_getElem?_self
          rw [hl]
          congr 1
          cases l with
          | mk idx bytes render hl_ oc =>
            simp only [line_t.rsize] at hlen ⊢
            simp only [line_t.mk.injEq, true_and, and_true]
            have h1 : (memset hl_ m HL_MATCH query.length).length = render.length := by
              rw [memset_length]; exact hlen
            rw [← hlen, List.take_length, List.take_length, List.drop_eq_nil_of_le (by omega)]
            simp
    | none =>
      simp only []
      have hdir2 : (E.direction = 1 ∧ -1 ≤ c2) ∨ (E.direction = -1 ∧ 0 ≤ c2) := by
        rcases hdir with ⟨hd, _⟩ | ⟨hd, _⟩
        · exact Or.inl ⟨hd, by omega⟩
        · exact Or.inr ⟨hd, hc2a.1⟩
      exact ih c2 hdir2 hc2a.2

/-- Every call of `EditorFindCallback` during a search is defined and keeps the
search invariant; a call with Enter or Escape leaves the document's lines. -/
theorem EditorFindCallback_search (E0 E : EditorConfig) (hs : HlSized E0) (h : SearchInv E0 E)
    (query : List Nat) (key : Int) :
    ∃ E2, EditorFindCallback E query key = some E2 ∧ SearchInv E0 E2 ∧
      (key = 13 ∨ key = 27 → E2.line = E0.line ∧ E2.saved_hl = none ∧ E2.last_match = -1) := by
  obtain ⟨E1, hr, hline, hsn, hlm, _, _⟩ := findRestore_search E0 E h
  have hn1 : E1.linesnum = E.linesnum := by
    rw [SearchInv_linesnum E0 E h]; unfold EditorConfig.linesnum; rw [hline]
  have hr1 : -1 ≤ E1.last_match ∧ E1.last_match < (E1.linesnum : Int) := by
    rw [hlm, hn1]; exact ⟨h.1, h.2.1⟩
  unfold EditorFindCallback
  simp only [hr]
  by_cases hk : key = 13 ∨ key = 27
  · simp only [if_pos hk]
    refine ⟨_, rfl, ?_, fun _ => ⟨hline, hsn, rfl⟩⟩
    unfold SearchInv
    show (-1 : Int) ≤ -1 ∧ (-1 : Int) < (E1.linesnum : Int) ∧
      match E1.saved_hl with
      | none => E1.line = E0.line
      | some s => _
    rw [hsn]
    exact ⟨le_refl _, by omega, hline⟩
  · simp only [if_neg hk]
    generalize hE3 : (if (if key = ARROW_RIGHT ∨ key = ARROW_DOWN then { E1 with direction := 1 }
          else if key = ARROW_LEFT ∨ key = ARROW_UP then { E1 with direction := -1 }
          else { E1 with last_match := -1, direction := 1 }).last_match = -1
        then { (if key = ARROW_RIGHT ∨ key = ARROW_DOWN then { E1 with direction := 1 }
          else if key = ARROW_LEFT ∨ key = ARROW_UP then { E1 with direction := -1 }
          else { E1 with last_match := -1, direction := 1 }) with direction := 1 }
        else (if key = ARROW_RIGHT ∨ key = ARROW_DOWN then { E1 with direction := 1 }
          else if key = ARROW_LEFT ∨ key = ARROW_UP then { E1 with direction := -1 }
          else { E1 with last_match := -1, direction := 1 })) = E3
    have facts : E3.line = E1.line ∧ E3.saved_hl = E1.saved_hl ∧
        ((E3.direction = 1 ∧ -1 ≤ E3.last_match) ∨ (E3.direction = -1 ∧ 0 ≤ E3.last_match)) ∧
        -1 ≤ E3.last_match ∧ E3.last_match < (E1.linesnum : Int) := by
      rw [← hE3]
      obtain ⟨g1, g2⟩ := hr1
      by_cases hf : key = ARROW_RIGHT ∨ key = ARROW_DOWN
      · simp only [if_pos hf]
        by_cases hm : E1.last_match = -1
        · rw [if_pos hm]
          exact ⟨rfl, rfl, Or.inl ⟨rfl, g1⟩, g1, g2⟩
        · rw [if_neg hm]
          exact ⟨rfl, rfl, Or.inl ⟨rfl, g1⟩, g1, g2⟩
      · simp only [if_neg hf]
        by_cases hb : key = ARROW_LEFT ∨ key = ARROW_UP
        · simp only [if_pos hb]
          by_cases hm : E1.last_match = -1
          · rw [if_pos hm]
            exact ⟨rfl, rfl, Or.inl ⟨rfl, g1⟩, g1, g2⟩
          · rw [if_neg hm]
            exact ⟨rfl, rfl, Or.inr ⟨rfl, by show 0 ≤ E1.last_match; omega⟩, g1, g2⟩
        · rw [if_neg hb, if_pos (show ({ E1 with last_match := -1, direction := 1 } :
            EditorConfig).last_match = -1 from rfl)]
          exact ⟨rfl, rfl, Or.inl ⟨rfl, le_refl _⟩, le_refl _, by show (-1 : Int) < _; omega⟩
    obtain ⟨f1, f2, f3, f4, f5⟩ := facts
    have hn3 : E3.linesnum = E1.linesnum := by unfold EditorConfig.linesnum; rw [f1]
    refine (?_ : ∃ E2, findScan query E3.linesnum E3.last_match E3 = some E2 ∧ SearchInv E0 E2 ∧
      (key = 13 ∨ key = 27 → E2.line = E0.line ∧ E2.saved_hl = none ∧ E2.last_match = -1))
    rcases Nat.eq_zero_or_pos E3.linesnum with hz | hpos
    · rw [hz]
      refine ⟨E3, rfl, ?_, fun hc => absurd hc hk⟩
      unfold SearchInv
      rw [f2, hsn]
      exact ⟨f4, by omega, f1.trans hline⟩
    · obtain ⟨E2, he, hinv⟩ := findScan_search query E0 E3 hs (f1.trans hline) (f2.trans hsn) hpos
        ⟨f4, by omega⟩ E3.linesnum E3.last_match f3 (by omega)
      exact ⟨E2, he, hinv, fun hc => absurd hc hk⟩

/-- The search prompt, when it ends, has put the lines of the document back as
they were and reset the search state. -/
theorem EditorPrompt_search_frame (E0 : EditorConfig) (hs : HlSized E0) (keys : List Int)
    (E : EditorConfig) (buf : List Nat) (r : Option (List Nat)) (E1 : EditorConfig)
    (rest : List Int) (hE : SearchInv E0 E)
    (h : EditorPrompt (some EditorFindCallback) keys E buf = some (r, E1, rest)) :
    E1.line = E0.line ∧ E1.saved_hl = none ∧ E1.last_match = -1 := by
  induction keys generalizing E buf with
  | nil => simp [EditorPrompt] at h
  | cons c ks ih =>
    have hS : SearchInv E0 (EditorScroll E) := SearchInv_scroll E0 E hE
    rw [EditorPrompt] at h
    simp only [] at h
    by_cases h0 : c = 0
    · simp only [if_pos h0] at h
      exact ih (EditorScroll E) buf hS h
    · simp only [if_neg h0] at h
      generalize (if c = DEL_KEY ∨ c = CTRL_KEY 104 ∨ c = BACKSPACE then buf.dropLast else buf)
        = buf1 at h
      by_cases h27 : c = 27
      · simp only [if_pos h27] at h
        obtain ⟨E2, he, _, hend⟩ := EditorFindCallback_search E0 _ hs hS buf1 c
        have hc : promptCall (some EditorFindCallback) (EditorScroll E) buf1 c = some E2 := he
        simp only [hc, Option.some.injEq, Prod.mk.injEq] at h
        rw [← h.2.1]
        exact hend (Or.inr h27)
      · simp only [if_neg h27] at h
        by_cases h13 : c = 13 ∧ buf1 ≠ []
        · simp only [if_pos h13] at h
          obtain ⟨E2, he, _, hend⟩ := EditorFindCallback_search E0 _ hs hS buf1 c
          have hc : promptCall (some EditorFindCallback) (EditorScroll E) buf1 c = some E2 := he
          simp only [hc, Option.some.injEq, Prod.mk.injEq] at h
          rw [← h.2.1]
          exact hend (Or.inl h13.1)
        · simp only [if_neg h13] at h
          generalize (if c ≠ 13 ∧ iscntrlKey c = false ∧ c < 128
            then buf1 ++ [(c % 256).toNat] else buf1) = buf2 at h
          obtain ⟨E2, he, hinv, _⟩ := EditorFindCallback_search E0 _ hs hS buf2 c
          have hc : promptCall (some EditorFindCallback) (EditorScroll E) buf2 c = some E2 := he
          simp only [hc] at h
          exact ih E2 buf2 hinv h

/-- The search prompt is never left without a result by its callback: whatever
keys came before, an Escape ends it. -/
theorem EditorPrompt_search_ends (E0 : EditorConfig) (hs : HlSized E0) (keys : List Int)
    (E : EditorConfig) (buf : List Nat) (hE : SearchInv E0 E) :
    ∃ r E1 rest,
      EditorPrompt (some EditorFindCallback) (keys ++ [27]) E buf = some (r, E1, rest) := by
  induction keys generalizing E buf with
  | nil =>
    have hS : SearchInv E0 (EditorScroll E) := SearchInv_scroll E0 E hE
    rw [List.nil_append, EditorPrompt]
    simp only []
    have h0 : ¬ (27 : Int) = 0 := by decide
    simp only [if_neg h0, if_true]
    generalize (if (27 : Int) = DEL_KEY ∨ (27 : Int) = CTRL_KEY 104 ∨ (27 : Int) = BACKSPACE
      then buf.dropLast else buf) = buf1
    obtain ⟨E2, he, _, _⟩ := EditorFindCallback_search E0 _ hs hS buf1 27
    have hc : promptCall (some EditorFindCallback) (EditorScroll E) buf1 27 = some E2 := he
    simp only [hc]
    exact ⟨_, _, _, rfl⟩
  | cons c ks ih =>
    have hS : SearchInv E0 (EditorScroll E) := SearchInv_scroll E0 E hE
    rw [List.cons_append, EditorPrompt]
    simp only []
    by_cases h0 : c = 0
    · simp only [if_pos h0]
      exact ih (EditorScroll E) buf hS
    · simp only [if_neg h0]
      generalize (if c = DEL_KEY ∨ c = CTRL_KEY 104 ∨ c = BACKSPACE then buf.dropLast else buf)
        = buf1
      by_cases h27 : c = 27
      · simp only [if_pos h27]
        obtain ⟨E2, he, _, _⟩ := EditorFindCallback_search E0 _ hs hS buf1 c
        have hc : promptCall (some EditorFindCallback) (EditorScroll E) buf1 c = some E2 := he
        simp only [hc]
        exact ⟨_, _, _, rfl⟩
      · simp only [if_neg h27]
        by_cases h13 : c = 13 ∧ buf1 ≠ []
        · simp only [if_pos h13]
          obtain ⟨E2, he, _, _⟩ := EditorFindCallback_search E0 _ hs hS buf1 c
          have hc : promptCall (some EditorFindCallback) (EditorScroll E) buf1 c = some E2 := he
          simp only [hc]
          exact ⟨_, _, _, rfl⟩
        · simp only [if_neg h13]
          generalize (if c ≠ 13 ∧ iscntrlKey c = false ∧ c < 128
            then buf1 ++ [(c % 256).toNat] else buf1) = buf2
          obtain ⟨E2, he, hinv, _⟩ := EditorFindCallback_search E0 _ hs hS buf2 c
          have hc : promptCall (some EditorFindCallback) (EditorScroll E) buf2 c = some E2 := he
          simp only [hc]
          exact ih E2 buf2 hinv

/-- C16: for a document with one highlight byte per render byte, entered with the
search state at rest (`saved_hl == NULL`, `last_match == -1`), the search prompt
(`EditorPrompt` with `EditorFindCallback`) is ended by an Escape after any keys,
and whenever it ends, by Enter on a non-empty query or by Escape, every line is
as it was before the search began (so every highlight array is, and no byte
remains `HL_MATCH`) and the search state is at rest again; after an ending by
Escape `EditorFind` has also put back cursor and scroll offset. -/
theorem C16_search_restores_highlight (E : EditorConfig) (keys : List Int) (hs : HlSized E)
    (h0 : E.saved_hl = none) (hm : E.last_match = -1) :
    (∃ r E1 rest,
      EditorPrompt (some EditorFindCallback) (keys ++ [27]) E [] = some (r, E1, rest)) ∧
    (∀ r E1 rest, EditorPrompt (some EditorFindCallback) keys E [] = some (r, E1, rest) →
      E1.line.map line_t.hl = E.line.map line_t.hl ∧
      ∃ E2, EditorFind keys E = some (E2, rest) ∧ E2.line = E.line ∧
        E2.saved_hl = none ∧ E2.last_match = -1 ∧
        (r = none → E2.cursor = E.cursor ∧ E2.offset = E.offset)) := by
  have hinv := SearchInv_start E h0 hm
  refine ⟨EditorPrompt_search_ends E hs keys E [] hinv, ?_⟩
  intro r E1 rest h
  obtain ⟨g1, g2, g3⟩ := EditorPrompt_search_frame E hs keys E [] r E1 rest hinv h
  refine ⟨by rw [g1], ?_⟩
  unfold EditorFind
  rw [h]
  cases r with
  | some q => exact ⟨E1, rfl, g1, g2, g3, fun hc => Option.noConfusion hc⟩
  | none => exact ⟨_, rfl, g1, g2, g3, fun _ => ⟨rfl, rfl⟩⟩

/-- C16 on the document `foo`, `bar`, `foo`: the keys `f`, `o`, `o`, right arrow
decorate a match (the lines differ from the document's while the search runs),
and after the Escape the lines and the cursor are those of the document. -/
theorem C16_search_restores_highlight_witness :
    docFooFound.line ≠ docFoo.line ∧
      ∃ E2 rest, EditorFind ([102, 111, 111, 1001] ++ [27]) docFoo = some (E2, rest) ∧
        E2.line = docFoo.line ∧ E2.cursor = docFoo.cursor := by
  refine ⟨by decide, ?_⟩
  have hs : HlSized docFoo := by unfold HlSized; decide
  obtain ⟨r, E1, rest, h⟩ := (C16_search_restores_highlight docFoo [102, 111, 111, 1001] hs
    rfl rfl).1
  obtain ⟨_, E2, h2, h3, _, _, h4⟩ := (C16_search_restores_highlight docFoo
    ([102, 111, 111, 1001] ++ [27]) hs rfl rfl).2 r E1 rest h
  have hr : r = none := by
    have hd : (EditorPrompt (some EditorFindCallback) ([102, 111, 111, 1001] ++ [27]) docFoo
      []).map (fun p => p.1) = some none := by decide
    rw [h] at hd
    exact Option.some.inj hd
  exact ⟨E2, rest, h2, h3, (h4 hr).1⟩

/-! ## The input decoder on escape sequences -/

set_option maxRecDepth 10000 in
/-- C14 (code bug): the batch of three key-down events ESC, `[`, `5` does not
decode to the literal escape code whatever the array holds: after `[` and a
digit `HandleInputs` reads `irInBuf[3]`, a slot behind the three records read,
and with a `~` left there by an earlier read it returns `PAGE_UP`; with a slot
holding no `~` it returns 27.  The sequences of the table decode as listed, and
a batch holding ESC alone gives 27. -/
theorem C14_escape_digit_reads_slot_behind_batch :
    decodeBatch [keyDown 27, keyDown 91, keyDown 53] (keyDown 126) = some PAGE_UP ∧
    decodeBatch [keyDown 27, keyDown 91, keyDown 53] (keyDown 0) = some 27 ∧
    decodeBatch [keyDown 27, keyDown 91, keyDown 53, keyDown 126] (keyDown 0) = some PAGE_UP ∧
    decodeBatch [keyDown 27, keyDown 91, keyDown 65] (keyDown 126) = some ARROW_UP ∧
    decodeBatch [keyDown 27, keyDown 91, keyDown 66] (keyDown 126) = some ARROW_DOWN ∧
    decodeBatch [keyDown 27, keyDown 91, keyDown 67] (keyDown 126) = some ARROW_RIGHT ∧
    decodeBatch [keyDown 27, keyDown 91, keyDown 68] (keyDown 126) = some ARROW_LEFT ∧
    decodeBatch [keyDown 27, keyDown 79, keyDown 72] (keyDown 126) = some HOME_KEY ∧
    decodeBatch [keyDown 27, keyDown 79, keyDown 70] (keyDown 126) = some END_KEY ∧
    decodeBatch [keyDown 27, keyDown 91, keyDown 51, keyDown 126] (keyDown 126) = some DEL_KEY ∧
    decodeBatch [keyDown 27, keyDown 91, keyDown 50, keyDown 126] (keyDown 126) = some 27 ∧
    decodeBatch [keyDown 27, keyDown 120, keyDown 121] (keyDown 126) = some 27 ∧
    decodeBatch [keyDown 27] (keyDown 126) = some 27 := by
  decide

set_option maxRecDepth 10000 in
/-- C19 (code bug): key-up events inside an escape sequence are not ignored.  In
the batch ESC down, `[` down, `[` up, `A` down, `A` up the look-ahead takes the
two slots after the ESC as they are, reads `[` and the `[` of the key-up event,
and `HandleInputs` returns 27; on the same batch without its key-up events it
returns `ARROW_UP`. -/
theorem C19_key_up_inside_escape_sequence_is_read :
    decodeBatch [keyDown 27, keyDown 91, keyUp 91, keyDown 65, keyUp 65] (keyDown 0) = some 27 ∧
    dropKeyUps [keyDown 27, keyDown 91, keyUp 91, keyDown 65, keyUp 65]
      = [keyDown 27, keyDown 91, keyDown 65] ∧
    decodeBatch (dropKeyUps [keyDown 27, keyDown 91, keyUp 91, keyDown 65, keyUp 65]) (keyDown 0)
      = some ARROW_UP ∧
    decodeBatch [keyUp 97, keyDown 98, keyUp 98] (keyDown 0) = some 98 := by
  decide

/-! ## Digits after a keyword -/

/-- C18 (code bug): under the C profile the line `return 0;`, highlighted from a
non-comment start and free of quotes and comment markers, has the digit `0` at
column 7 right after the separator at column 6 (a space), yet the digit is
classified `HL_NORMAL`: the keyword loop has no `break`, so after the keyword the
scan steps over the separator with `prev_sep` cleared.  Without a keyword in
front (`x = 0;`) the digit is `HL_NUMBER`. -/
theorem C18_digit_after_keyword_is_not_number :
    (cstr "return 0;").getD 7 0 = 48 ∧ isdigit 48 = true ∧
    is_separator ((cstr "return 0;").getD 6 0) = true ∧
    (scanLine cProfile (cstr "return 0;") false).hl =
      [HL_KEYWORD1, HL_KEYWORD1, HL_KEYWORD1, HL_KEYWORD1, HL_KEYWORD1, HL_KEYWORD1,
        HL_NORMAL, HL_NORMAL, HL_NORMAL] ∧
    (EditorInsertLine cEditor 0 (cstr "return 0;")).line.map line_t.hl =
      [[HL_KEYWORD1, HL_KEYWORD1, HL_KEYWORD1, HL_KEYWORD1, HL_KEYWORD1, HL_KEYWORD1,
        HL_NORMAL, HL_NORMAL, HL_NORMAL]] ∧
    (scanLine cProfile (cstr "x = 0;") false).hl =
      [HL_NORMAL, HL_NORMAL, HL_NORMAL, HL_NORMAL, HL_NUMBER, HL_NORMAL] := by
  decide

/-! ## Highlight consistency under the line operations -/

theorem initComment_set_of_ne (lines : List line_t) (k j : Nat) (x : line_t)
    (h : j = 0 ∨ j - 1 ≠ k) : initComment (lines.set k x) j = initComment lines j := by
  unfold initComment
  rcases h with h | h
  · subst h; simp
  · rw [List.getElem?_set_ne (Ne.symm h)]

theorem initComment_set_of_flag (lines : List line_t) (k j : Nat) (old x : line_t)
    (hold : lines[k]? = some old) (hx : x.hl_open_comment = old.hl_open_comment) :
    initComment (lines.set k x) j = initComment lines j := by
  by_cases h : j = 0 ∨ j - 1 ≠ k
  · exact initComment_set_of_ne lines k j x h
  · have hj : j - 1 = k := by omega
    unfold initComment
    rw [hj, List.getElem?_set_self (List.getElem?_eq_some.1 hold).1, hold]
    show (decide (j > 0) && x.hl_open_comment) = (decide (j > 0) && old.hl_open_comment)
    rw [hx]

/-- The chain of recursive calls of `EditorUpdateSyntax` from line `k` on makes
the document consistent, when every line but `k` is consistent before (line
`k + 1` with respect to the flag still stored in line `k`). -/
theorem EditorUpdateSyntax_consistent (s : EditorSyntax) (n fuel : Nat) (lines : List line_t)
    (k : Nat) (hn : lines.length = n) (hfuel : n ≤ k + fuel)
    (hidx : ∀ (j : Nat) (l : line_t), lines[j]? = some l → l.idx = (j : Int))
    (hc : ∀ j, j ≠ k → HlConsistentAt s lines j) :
    HlConsistent s (EditorUpdateSyntax (some s) n fuel lines k) := by
  induction fuel generalizing lines k with
  | zero =>
    rw [EditorUpdateSyntax]
    intro j
    by_cases hj : j = k
    · subst hj
      intro l hl
      have := (List.getElem?_eq_some.1 hl).1
      omega
    · exact hc j hj
  | succ fuel ih =>
    rw [EditorUpdateSyntax]
    cases hk : lines[k]? with
    | none =>
      simp only []
      intro j
      by_cases hj : j = k
      · subst hj
        intro l hl
        rw [hk] at hl
        exact Option.noConfusion hl
      · exact hc j hj
    | some line =>
      simp only []
      have hik : line.idx = (k : Int) := hidx k line hk
      rw [hik]
      have h1 : (((k : Nat) : Int) - 1).toNat = k - 1 := by omega
      have h2 : decide (((k : Nat) : Int) > 0) = decide (k > 0) := by simp
      rw [h1, h2]
      generalize hb : (decide (k > 0) && _) = b
      have hbi : b = initComment lines k := by rw [← hb]; rfl
      subst hbi
      clear hb
      have hklt : k < lines.length := (List.getElem?_eq_some.1 hk).1
      generalize hst : scanLine s line.render (initComment lines k) = st
      have hidx1 : ∀ (j : Nat) (l : line_t),
          (lines.set k { line with hl := st.hl, hl_open_comment := st.in_comment })[j]? = some l →
          l.idx = (j : Int) := by
        intro j l hl
        by_cases hj : k = j
        · subst hj
          rw [List.getElem?_set_self hklt] at hl
          cases hl
          exact hik
        · rw [List.getElem?_set_ne hj] at hl
          exact hidx j l hl
      have hck : HlConsistentAt s
          (lines.set k { line with hl := st.hl, hl_open_comment := st.in_comment }) k := by
        intro l hl
        rw [List.getElem?_set_self hklt] at hl
        cases hl
        rw [initComment_set_of_ne lines k k _ (by omega), hst]
        exact ⟨rfl, rfl⟩
      have hcother : ∀ j, j ≠ k → j ≠ k + 1 → HlConsistentAt s
          (lines.set k { line with hl := st.hl, hl_open_comment := st.in_comment }) j := by
        intro j hj hj1 l hl
        rw [List.getElem?_set_ne (Ne.symm hj)] at hl
        rw [initComment_set_of_ne lines k j _ (by omega)]
        exact hc j hj l hl
      have hto : ((k : Int) + 1).toNat = k + 1 := by omega
      simp only [hik] at hidx1 hck hcother
      by_cases hcond : ((line.hl_open_comment != st.in_comment) &&
          size_lt ((k : Int) + 1) n) = true
      · rw [if_pos hcond, hto]
        apply ih
        · rw [List.length_set]; exact hn
        · omega
        · exact hidx1
        · intro j hj
          by_cases hjk : j = k
          · subst hjk; exact hck
          · exact hcother j hjk hj
      · rw [if_neg hcond]
        intro j
        by_cases hjk : j = k
        · subst hjk; exact hck
        · by_cases hj1 : j = k + 1
          · subst hj1
            intro l hl
            rw [List.getElem?_set_ne (by omega)] at hl
            have hlt : k + 1 < lines.length := (List.getElem?_eq_some.1 hl).1
            have hs : size_lt ((k : Int) + 1) n = true := by
              simp [size_lt]; omega
            have hflag : st.in_comment = line.hl_open_comment := by
              rw [hs, Bool.and_true] at hcond
              cases h1 : line.hl_open_comment <;> cases h2 : st.in_comment <;>
                simp [h1, h2] at hcond ⊢
            rw [initComment_set_of_flag lines k (k + 1) line _ hk hflag]
            exact hc (k + 1) (by omega) l hl
          · exact hcother j hjk hj1

/-- Replacing the bytes of line `k` and calling `EditorUpdateLine` on it keeps a
consistent document consistent. -/
theorem EditorUpdateLine_consistent (s : EditorSyntax) (lines : List line_t) (k : Nat)
    (line : line_t) (nb : List Nat) (hk : lines[k]? = some line)
    (hidx : ∀ (j : Nat) (l : line_t), lines[j]? = some l → l.idx = (j : Int))
    (hc : HlConsistent s lines) :
    HlConsistent s
      (EditorUpdateLine (some s) lines.length (lines.set k { line with bytes := nb }) k) := by
  have hklt : k < lines.length := (List.getElem?_eq_some.1 hk).1
  unfold EditorUpdateLine
  rw [List.getElem?_set_self hklt]
  simp only [List.set_set]
  apply EditorUpdateSyntax_consistent
  · rw [List.length_set]
  · omega
  · intro j l hl
    by_cases hj : k = j
    · subst hj
      rw [List.getElem?_set_self hklt] at hl
      cases hl
      exact hidx k line hk
    · rw [List.getElem?_set_ne hj] at hl
      exact hidx j l hl
  · intro j hj l hl
    rw [List.getElem?_set_ne (Ne.symm hj)] at hl
    rw [initComment_set_of_flag lines k j line
      { idx := line.idx, bytes := nb, render := renderLoop nb [], hl := line.hl,
        hl_open_comment := line.hl_open_comment } hk rfl]
    exact hc j l hl

theorem hlConsistentB_iff (s : EditorSyntax) (lines : List line_t) :
    hlConsistentB s lines = true ↔ HlConsistent s lines := by
  unfold hlConsistentB
  rw [List.all_eq_true]
  constructor
  · intro h j l hl
    have hj : j < lines.length := (List.getElem?_eq_some.1 hl).1
    have := h j (List.mem_range.2 hj)
    rw [hl] at this
    exact of_decide_eq_true this
  · intro h j _
    cases hl : lines[j]? with
    | none => rfl
    | some l => exact decide_eq_true (h j l hl)

theorem initComment_append_left (lines rest : List line_t) (j : Nat) (hj : j ≤ lines.length) :
    initComment (lines ++ rest) j = initComment lines j := by
  unfold initComment
  rcases Nat.eq_zero_or_pos j with h | h
  · subst h; simp
  · rw [List.getElem?_append_left (by omega)]

theorem HlConsistent_take (s : EditorSyntax) (lines : List line_t) (m : Nat)
    (hc : HlConsistent s lines) : HlConsistent s (lines.take m) := by
  intro j l hl
  have hj : j < (lines.take m).length := (List.getElem?_eq_some.1 hl).1
  have hjm : j < m := by
    rw [List.length_take] at hj; omega
  have hjl : j < lines.length := by
    rw [List.length_take] at hj; omega
  have hl2 : lines[j]? = some l := by
    rw [List.getElem?_take_of_lt hjm] at hl; exact hl
  have hi : initComment (lines.take m) j = initComment lines j := by
    have := initComment_append_left (lines.take m) (lines.drop m) j (by omega)
    rw [List.take_append_drop] at this
    exact this.symm
  rw [hi]
  exact hc j l hl2

/-- Deleting the last line keeps a consistent document consistent. -/
theorem EditorDelLine_last_consistent (s : EditorSyntax) (E : EditorConfig)
    (hc : HlConsistent s E.line) :
    HlConsistent s (EditorDelLine E ((E.linesnum : Int) - 1)).line := by
  unfold EditorDelLine
  split
  · exact hc
  · rename_i hg
    have h0 : 0 < E.linesnum := by
      by_contra h
      apply hg
      left; omega
    have ht : ((E.linesnum : Int) - 1).toNat = E.linesnum - 1 := by omega
    show HlConsistent s (E.line.take ((E.linesnum : Int) - 1).toNat ++
      (E.line.drop (((E.linesnum : Int) - 1).toNat + 1)).map _)
    rw [ht, List.drop_of_length_le (by unfold EditorConfig.linesnum at *; omega)]
    rw [List.map_nil, List.append_nil]
    exact HlConsistent_take s E.line _ hc

/-- Inserting a line at the end keeps a consistent document consistent. -/
theorem EditorInsertLine_end_consistent (s : EditorSyntax) (E : EditorConfig)
    (hsyn : E.syntax_ = some s) (str : List Nat) (hc : HlConsistent s E.line) :
    HlConsistent s (EditorInsertLine E (E.linesnum : Int) str).line := by
  unfold EditorInsertLine
  have hg : ¬ ((E.linesnum : Int) < 0 ∨ size_gt (E.linesnum : Int) E.linesnum = true) := by
    simp [size_gt]
  rw [if_neg hg]
  have hn : E.line.length = E.linesnum := rfl
  simp only [Int.toNat_ofNat, hsyn]
  rw [List.drop_of_length_le (by omega), List.take_of_length_le (by omega), List.map_nil]
  unfold EditorUpdateLine
  rw [List.getElem?_append_right (by omega)]
  simp only [hn, Nat.sub_self, List.getElem?_cons_zero]
  have hset : ∀ x y : line_t, (E.line ++ [x]).set E.linesnum y = E.line ++ [y] := by
    intro x y
    rw [List.set_append_right _ _ (by omega)]
    simp [hn]
  rw [hset]
  rw [EditorUpdateSyntax]
  rw [List.getElem?_append_right (by omega)]
  simp only [hn, Nat.sub_self, List.getElem?_cons_zero]
  have hs : size_lt ((E.linesnum : Int) + 1) E.linesnum = false := by
    simp [size_lt]
  rw [hs, Bool.and_false]
  simp only [Bool.false_eq_true, if_false]
  rw [hset]
  have h1 : (((E.linesnum : Nat) : Int) - 1).toNat = E.linesnum - 1 := by omega
  have h2 : decide (((E.linesnum : Nat) : Int) > 0) = decide (E.linesnum > 0) := by simp
  rw [h1, h2]
  generalize hb : (decide (E.linesnum > 0) && _) = b
  have hbi : b = initComment E.line E.linesnum := by
    rw [← hb]
    unfold initComment
    rcases Nat.eq_zero_or_pos E.linesnum with h | h
    · rw [h]; simp
    · have e : ∀ x : line_t, (E.line ++ [x])[E.linesnum - 1]? = E.line[E.linesnum - 1]? :=
        fun x => List.getElem?_append_left (by omega)
      cases hq : E.line[E.linesnum - 1]? with
      | none => simp only [e, hq]
      | some p => simp only [e, hq]
  subst hbi
  clear hb
  intro j l hl
  by_cases hj : j < E.linesnum
  · rw [List.getElem?_append_left (by omega)] at hl
    rw [initComment_append_left _ _ _ (by omega)]
    exact hc j l hl
  · have hjl : j < (E.line ++ [l]).length := by
      have := (List.getElem?_eq_some.1 hl).1
      simpa using this
    have hje : j = E.linesnum := by
      simp at hjl; omega
    subst hje
    rw [List.getElem?_append_right (by omega)] at hl
    simp only [hn, Nat.sub_self, List.getElem?_cons_zero, Option.some.injEq] at hl
    rw [initComment_append_left _ _ _ (by omega), ← hl]
    exact ⟨rfl, rfl⟩

/-- The operations on one line, and the operations on whole lines at the end of
the document, keep highlight consistency.  If the C profile is active, every
line's stored index is its position, and each line's highlight array and
`hl_open_comment` equal what the classifier produces from the line's render with
the initial comment state of the `hl_open_comment` of the line before (false for
line 0), then the same holds for every line of the document after any call of
`EditorLineInsertChar`, `EditorLineDelChar` or `EditorLineAppendString` (which
end in `EditorUpdateLine` and so run the re-highlight chain), after
`EditorInsertLine` with `at == linesnum`, and after `EditorDelLine` with
`at == linesnum - 1`. -/
theorem inline_edits_keep_highlight_consistent (E : EditorConfig)
    (hsyn : E.syntax_ = some cProfile) (hidx : IdxIntegrity E)
    (hc : HlConsistent cProfile E.line) (k : Nat) (at_ c : Int) (str : List Nat) :
    HlConsistent cProfile (EditorLineInsertChar E k at_ c).line ∧
    HlConsistent cProfile (EditorLineDelChar E k at_).line ∧
    HlConsistent cProfile (EditorLineAppendString E k str).line ∧
    HlConsistent cProfile (EditorInsertLine E (E.linesnum : Int) str).line ∧
    HlConsistent cProfile (EditorDelLine E ((E.linesnum : Int) - 1)).line := by
  refine ⟨?_, ?_, ?_, EditorInsertLine_end_consistent cProfile E hsyn str hc,
    EditorDelLine_last_consistent cProfile E hc⟩
  · unfold EditorLineInsertChar
    cases hk : E.line[k]? with
    | none => exact hc
    | some line =>
      simp only [hsyn]
      exact EditorUpdateLine_consistent cProfile E.line k line _ hk hidx hc
  · unfold EditorLineDelChar
    cases hk : E.line[k]? with
    | none => exact hc
    | some line =>
      simp only [hsyn]
      split
      · exact hc
      · exact EditorUpdateLine_consistent cProfile E.line k line _ hk hidx hc
  · unfold EditorLineAppendString
    cases hk : E.line[k]? with
    | none => exact hc
    | some line =>
      simp only [hsyn]
      exact EditorUpdateLine_consistent cProfile E.line k line _ hk hidx hc

/-- The in-line operations on the document of the lines `/*` and `x`: appending
`*` and `/` to line 0 closes the comment, and the document is consistent again,
with `x` classified as normal. -/
theorem inline_edits_keep_highlight_consistent_docOpen :
    HlConsistent cProfile (EditorLineAppendString docOpen 0 (cstr "*/")).line ∧
      (EditorLineAppendString docOpen 0 (cstr "*/")).line.map line_t.hl =
        [[HL_MLCOMMENT, HL_MLCOMMENT, HL_MLCOMMENT, HL_MLCOMMENT], [HL_NORMAL]] := by
  have h0 : IdxIntegrity cEditor := by
    intro j l h
    have e : cEditor.line = [] := by decide
    rw [e] at h
    simp at h
  exact ⟨(inline_edits_keep_highlight_consistent docOpen (by decide)
    (EditorInsertLine_IdxIntegrity _ _ _ (EditorInsertLine_IdxIntegrity _ _ _ h0))
    ((hlConsistentB_iff _ _).1 (by decide)) 0 0 0 (cstr "*/")).2.2.1, by decide⟩

/-- C17 on the operations on whole lines inside the document.  The document of
the lines `/*` and `x` under the C profile is consistent (`x` is comment); after
`EditorDelLine(0)` the line `x` is line 0 and still classified as comment, and
after `EditorInsertLine(1, "*/")` the line `x` follows a closed comment and is
still classified as comment.  From the keyboard: in the consistent document of
a lone double quote, `/*` and `x` with the cursor at the start of line 1,
Backspace (`EditorDelChar`) joins `/*` to the open string of line 0 and deletes
line 1;
the line `x` now follows a line whose `hl_open_comment` is 0 and is still
classified as comment. -/
theorem C17_whole_line_operations_leave_stale_highlight :
    docOpen.syntax_ = some cProfile ∧ IdxIntegrity docOpen ∧
    HlConsistent cProfile docOpen.line ∧
    ¬ HlConsistent cProfile (EditorDelLine docOpen 0).line ∧
    ¬ HlConsistent cProfile (EditorInsertLine docOpen 1 (cstr "*/")).line ∧
    docQuote.syntax_ = some cProfile ∧ IdxIntegrity docQuote ∧
    HlConsistent cProfile docQuote.line ∧
    ∃ E2, EditorDelChar docQuote = some E2 ∧
      E2.line.map line_t.bytes = [[34, 47, 42], cstr "x"] ∧
      E2.line.map line_t.hl_open_comment = [false, true] ∧
      E2.line.map line_t.hl = [[HL_STRING, HL_STRING, HL_STRING], [HL_MLCOMMENT]] ∧
      ¬ HlConsistent cProfile E2.line := by
  have h0 : IdxIntegrity cEditor := by
    intro j l h
    have e : cEditor.line = [] := by decide
    rw [e] at h
    simp at h
  have hq : IdxIntegrity docQuote :=
    EditorInsertLine_IdxIntegrity _ _ _
      (EditorInsertLine_IdxIntegrity _ _ _ (EditorInsertLine_IdxIntegrity _ _ _ h0))
  refine ⟨by decide, ?_, ?_, ?_, ?_, by decide, hq, ?_, _, rfl, by decide, by decide, by decide, ?_⟩
  · exact EditorInsertLine_IdxIntegrity _ _ _ (EditorInsertLine_IdxIntegrity _ _ _ h0)
  · exact (hlConsistentB_iff _ _).1 (by decide)
  · intro h
    exact absurd ((hlConsistentB_iff _ _).2 h) (by decide)
  · intro h
    exact absurd ((hlConsistentB_iff _ _).2 h) (by decide)
  · exact (hlConsistentB_iff _ _).1 (by decide)
  · intro h
    exact absurd ((hlConsistentB_iff _ _).2 h) (by decide)

/-! ## The byte offset of a render column, with tabs -/

/-- C23: for every line, tabs included, and every byte offset `cx` with
`0 <= cx <= size`, `EditorLineRxToCx(line, EditorLineCxToRx(line, cx)) == cx`: the
conversion from render column to byte offset is an exact left inverse of the
conversion from byte offset to render column, at tab stops too. -/
theorem C23_rx_to_cx_left_inverse_with_tabs (line : line_t) (cx : Int) (h0 : 0 ≤ cx)
    (h1 : cx ≤ (line.size : Int)) :
    EditorLineRxToCx line (EditorLineCxToRx line cx) = cx := by
  unfold EditorLineRxToCx EditorLineCxToRx
  have hn : cx.toNat ≤ line.bytes.length := by unfold line_t.size at h1; omega
  rw [rxToCxLoop_cxToRxLoop line.bytes cx.toNat 0 0 hn]
  omega

/-- C23 on the line `a`, tab, `b`, tab at byte offset 2, right after the first
tab, whose render column 4 is a tab stop; the render of the line is the tab
expansion of its bytes. -/
theorem C23_rx_to_cx_left_inverse_with_tabs_witness :
    renderLoop tabsLine.bytes [] = tabsLine.render ∧ EditorLineCxToRx tabsLine 2 = 4 ∧
      EditorLineRxToCx tabsLine (EditorLineCxToRx tabsLine 2) = 2 :=
  ⟨by decide, by decide,
    C23_rx_to_cx_left_inverse_with_tabs tabsLine 2 (by decide) (by decide)⟩

/-! ## Termination of `EditorUpdateSyntax` -/

/-- The lines `updateChain` computes are those of `EditorUpdateSyntax`. -/
theorem updateChain_lines (syn : Option EditorSyntax) (n fuel : Nat) (lines : List line_t)
    (k : Nat) (r : List line_t × List Nat) (h : updateChain syn n fuel lines k = some r) :
    EditorUpdateSyntax syn n fuel lines k = r.1 := by
  induction fuel generalizing lines k r with
  | zero => simp [updateChain] at h
  | succ fuel ih =>
    rw [updateChain] at h
    rw [EditorUpdateSyntax]
    cases hk : lines[k]? with
    | none =>
      simp only [hk] at h ⊢
      cases h; rfl
    | some line =>
      simp only [hk] at h ⊢
      cases syn with
      | none =>
        simp only at h ⊢
        cases h; rfl
      | some s =>
        simp only at h ⊢
        split at h
        · rename_i hc
          rw [if_pos hc]
          split at h
          · rename_i r2 hr
            cases h
            exact ih _ _ r2 hr
          · exact Option.noConfusion h
        · rename_i hc
          rw [if_neg hc]
          cases h; rfl

/-- More fuel does not change the result of a chain that finished. -/
theorem updateChain_succ (syn : Option EditorSyntax) (n fuel : Nat) (lines : List line_t)
    (k : Nat) (r : List line_t × List Nat) (h : updateChain syn n fuel lines k = some r) :
    updateChain syn n (fuel + 1) lines k = some r := by
  induction fuel generalizing lines k r with
  | zero => simp [updateChain] at h
  | succ fuel ih =>
    rw [updateChain] at h
    rw [updateChain]
    cases hk : lines[k]? with
    | none =>
      simp only [hk] at h ⊢
      exact h
    | some line =>
      simp only [hk] at h ⊢
      cases syn with
      | none =>
        simp only at h ⊢
        exact h
      | some s =>
        simp only at h ⊢
        split at h
        · rename_i hc
          rw [if_pos hc]
          split at h
          · rename_i r2 hr
            rw [ih _ _ _ hr]
            exact h
          · exact Option.noConfusion h
        · rename_i hc
          rw [if_neg hc]
          exact h

theorem updateChain_mono (syn : Option EditorSyntax) (n fuel more : Nat) (lines : List line_t)
    (k : Nat) (r : List line_t × List Nat) (h : updateChain syn n fuel lines k = some r) :
    updateChain syn n (fuel + more) lines k = some r := by
  induction more with
  | zero => exact h
  | succ more ih => exact updateChain_succ syn n (fuel + more) lines k r ih

theorem flagAt_set_ne (lines : List line_t) (k j : Nat) (x : line_t) (h : k ≠ j) :
    flagAt (lines.set k x) j = flagAt lines j := by
  unfold flagAt
  rw [List.getElem?_set_ne h]

theorem flagAt_of_getElem? (ls lines : List line_t) (j : Nat) (h : ls[j]? = lines[j]?) :
    flagAt ls j = flagAt lines j := by
  unfold flagAt
  rw [h]

/-- The chain of calls started at line `k` of a document whose lines store their
positions: it finishes within the fuel, is called on `k`, `k + 1`, up to some
`k + m` and on nothing else, every line before the last one it is called on has
changed its comment state and has a successor below `linesnum`, and at the last
one the state did not change or there is no successor below `linesnum`. -/
theorem updateChain_spec (syn : Option EditorSyntax) (n fuel : Nat) (lines : List line_t)
    (k : Nat) (hidx : ∀ (j : Nat) (l : line_t), lines[j]? = some l → l.idx = (j : Int))
    (hk : k < lines.length) (hn : n ≤ lines.length) (hfuel : n ≤ k + fuel) (hf1 : 0 < fuel) :
    ∃ ls m, updateChain syn n fuel lines k = some (ls, List.range' k (m + 1)) ∧
      ls.length = lines.length ∧
      (∀ j, j < k ∨ k + m < j → ls[j]? = lines[j]?) ∧
      (∀ t, t < m → flagAt ls (k + t) ≠ flagAt lines (k + t) ∧ k + t + 1 < n) ∧
      (flagAt ls (k + m) = flagAt lines (k + m) ∨ ¬ (k + m + 1 < n)) := by
  induction fuel generalizing lines k with
  | zero => omega
  | succ fuel ih =>
    obtain ⟨line, hl⟩ : ∃ line, lines[k]? = some line :=
      ⟨lines.get ⟨k, hk⟩, by simp [List.getElem?_eq_getElem hk]⟩
    have hik : line.idx = (k : Int) := hidx k line hl
    rw [updateChain]
    simp only [hl]
    cases syn with
    | none =>
      simp only []
      refine ⟨_, 0, rfl, by rw [List.length_set], ?_, ?_, ?_⟩
      · intro j hj
        rw [List.getElem?_set_ne (by omega)]
      · intro t ht; omega
      · left
        unfold flagAt
        rw [Nat.add_zero, List.getElem?_set_self hk, hl]
    | some s =>
      simp only []
      generalize scanLine s line.render _ = st
      have hto : (line.idx + 1).toNat = k + 1 := by omega
      rw [hto]
      have hflag1 : flagAt (lines.set k { line with hl := st.hl, hl_open_comment := st.in_comment }) k
          = some st.in_comment := by
        unfold flagAt
        rw [List.getElem?_set_self hk]
      have hflag0 : flagAt lines k = some line.hl_open_comment := by
        unfold flagAt
        rw [hl]
      by_cases hc : ((line.hl_open_comment != st.in_comment) && size_lt (line.idx + 1) n) = true
      · rw [if_pos hc]
        rw [Bool.and_eq_true] at hc
        obtain ⟨hch, hsz⟩ := hc
        have hlt : k + 1 < n := by
          simp [size_lt] at hsz; omega
        have hidx1 : ∀ (j : Nat) (l : line_t),
            (lines.set k { line with hl := st.hl, hl_open_comment := st.in_comment })[j]? = some l →
            l.idx = (j : Int) := by
          intro j l hjl
          by_cases hj : k = j
          · subst hj
            rw [List.getElem?_set_self hk] at hjl
            cases hjl
            exact hik
          · rw [List.getElem?_set_ne hj] at hjl
            exact hidx j l hjl
        obtain ⟨ls, m, hrun, hlen, hframe, hchg, hlast⟩ :=
          ih (lines.set k { line with hl := st.hl, hl_open_comment := st.in_comment }) (k + 1)
            hidx1 (by rw [List.length_set]; omega) (by rw [List.length_set]; exact hn)
            (by omega) (by omega)
        rw [hrun]
        refine ⟨ls, m + 1, ?_, by rw [hlen, List.length_set], ?_, ?_, ?_⟩
        · show some (ls, k :: List.range' (k + 1) (m + 1)) = _
          rw [← List.range'_succ]
        · intro j hj
          rw [hframe j (by omega), List.getElem?_set_ne (by omega)]
        · intro t ht
          cases t with
          | zero =>
            refine ⟨?_, by omega⟩
            rw [Nat.add_zero, flagAt_of_getElem? ls _ k (hframe k (by omega)), hflag1, hflag0]
            intro he
            have he2 : st.in_comment = line.hl_open_comment := Option.some.inj he
            rw [he2] at hch
            simp at hch
          | succ t =>
            obtain ⟨g1, g2⟩ := hchg t (by omega)
            have e : k + 1 + t = k + (t + 1) := by omega
            rw [e] at g1 g2
            rw [flagAt_set_ne lines k _ _ (by omega)] at g1
            exact ⟨g1, g2⟩
        · have e : k + 1 + m = k + (m + 1) := by omega
          rw [e, flagAt_set_ne lines k _ _ (by omega)] at hlast
          exact hlast
      · rw [if_neg hc]
        refine ⟨_, 0, rfl, by rw [List.length_set], ?_, ?_, ?_⟩
        · intro j hj
          rw [List.getElem?_set_ne (by omega)]
        · intro t ht; omega
        · rw [Nat.add_zero, hflag1, hflag0]
          by_cases hsz : k + 1 < n
          · left
            have hs : size_lt (line.idx + 1) n = true := by
              simp [size_lt]; omega
            rw [hs, Bool.and_true] at hc
            cases h1 : line.hl_open_comment <;> cases h2 : st.in_comment <;>
              simp [h1, h2] at hc ⊢
          · exact Or.inr hsz

/-- C21: `EditorUpdateSyntax` terminates on every line of every document whose
lines store their positions.  Every iteration of the column scan that does not
`break` advances the index, and the scan of a line ends with the loop condition
false.  The chain of recursive calls started at line `k` finishes (with the fuel
`linesnum + 1` and with any more), is called on the lines `k`, `k + 1`, up to
some `k + m < linesnum` in this order and on no other, each line before the
last has changed its end-of-line comment state, and the chain stops at the
first line whose state does not change or at the last line of the document. -/
theorem C21_update_syntax_terminates (E : EditorConfig) (hidx : IdxIntegrity E) (k : Nat)
    (hk : k < E.linesnum) :
    (∀ (s : EditorSyntax) (render : List Nat) (st : ScanState),
      (scanStep s render st).stop = false → st.i < (scanStep s render st).i) ∧
    (∀ (s : EditorSyntax) (render : List Nat) (c : Bool),
      (scanLine s render c).stop = true ∨ render.length ≤ (scanLine s render c).i) ∧
    ∃ ls m,
      (∀ more, updateChain E.syntax_ E.linesnum (E.linesnum + 1 + more) E.line k
        = some (ls, List.range' k (m + 1))) ∧
      (∀ more, EditorUpdateSyntax E.syntax_ E.linesnum (E.linesnum + 1 + more) E.line k = ls) ∧
      k + m < E.linesnum ∧
      (∀ t, t < m → flagAt ls (k + t) ≠ flagAt E.line (k + t)) ∧
      (flagAt ls (k + m) = flagAt E.line (k + m) ∨ k + m + 1 = E.linesnum) := by
  refine ⟨scanStep_advances, scanLine_finished, ?_⟩
  obtain ⟨ls, m, hrun, _, _, hchg, hlast⟩ :=
    updateChain_spec E.syntax_ E.linesnum (E.linesnum + 1) E.line k hidx hk (le_refl _)
      (by omega) (by omega)
  have hm : k + m < E.linesnum := by
    cases m with
    | zero => exact hk
    | succ m => have := (hchg m (by omega)).2; omega
  refine ⟨ls, m, ?_, ?_, hm, fun t ht => (hchg t ht).1, ?_⟩
  · intro more
    exact updateChain_mono _ _ _ more _ _ _ hrun
  · intro more
    exact updateChain_lines _ _ _ _ _ _ (updateChain_mono _ _ _ more _ _ _ hrun)
  · rcases hlast with h | h
    · exact Or.inl h
    · right; omega

/-- C21 on the document `/**/`, `x` whose line 0 has just been edited: the chain
started at line 0 is called on line 0 and then on line 1, the last line. -/
theorem C21_update_syntax_terminates_witness :
    (match updateChain docEdited.syntax_ docEdited.linesnum (docEdited.linesnum + 1)
        docEdited.line 0 with
      | some r => some r.2
      | none => none) = some [0, 1] ∧
    ∃ ls m, updateChain docEdited.syntax_ docEdited.linesnum (docEdited.linesnum + 1 + 0)
        docEdited.line 0 = some (ls, List.range' 0 (m + 1)) ∧ 0 + m < docEdited.linesnum := by
  have hidx : IdxIntegrity docEdited := by
    rw [IdxIntegrity_iff]
    have e : docEdited.line.map line_t.idx = [0, 1] := by decide
    rw [e]
    exact ⟨rfl, rfl, trivial⟩
  obtain ⟨ls, m, h1, _, h3, _, _⟩ :=
    (C21_update_syntax_terminates docEdited hidx 0 (by decide)).2.2
  exact ⟨by decide, ls, m, h1 0, h3⟩

/-! ## The text the prompt returns -/

/-- The text `EditorPrompt` keeps after a key that does not end the prompt is the
text after `promptEdit`. -/
theorem promptEdit_eq (buf : List Nat) (c : Int) :
    (if c ≠ 13 ∧ iscntrlKey c = false ∧ c < 128 then
        (if c = DEL_KEY ∨ c = CTRL_KEY 104 ∨ c = BACKSPACE then buf.dropLast else buf)
          ++ [(c % 256).toNat]
      else (if c = DEL_KEY ∨ c = CTRL_KEY 104 ∨ c = BACKSPACE then buf.dropLast else buf))
      = promptEdit buf c := by
  unfold promptEdit
  by_cases hb : c = DEL_KEY ∨ c = CTRL_KEY 104 ∨ c = BACKSPACE
  · have hno : ¬ (c ≠ 13 ∧ iscntrlKey c = false ∧ c < 128) := by
      rcases hb with h | h | h <;> subst h <;> decide
    rw [if_neg hno, if_pos hb, if_pos hb]
  · rw [if_neg hb, if_neg hb]
    by_cases ha : iscntrlKey c = false ∧ c < 128
    · have h13 : c ≠ 13 := by
        intro h; subst h
        exact absurd ha.1 (by decide)
      rw [if_pos ⟨h13, ha⟩, if_pos ha]
    · have hno : ¬ (c ≠ 13 ∧ iscntrlKey c = false ∧ c < 128) := fun h => ha h.2
      rw [if_neg hno, if_neg ha]

theorem promptEdit_control (buf : List Nat) (c : Int) (h : c = 0 ∨ c = 13 ∨ c = 27) :
    promptEdit buf c = buf := by
  rcases h with h | h | h <;> subst h <;> rfl

theorem promptTextFrom_cons (buf : List Nat) (c : Int) (keys : List Int) :
    promptTextFrom buf (c :: keys) = promptTextFrom (promptEdit buf c) keys := rfl

/-- What `EditorPrompt` returns, in terms of the keys alone. -/
theorem EditorPrompt_result
    (cb : Option (EditorConfig → List Nat → Int → Option EditorConfig)) (keys : List Int)
    (E : EditorConfig) (buf : List Nat) (r : Option (List Nat)) (E1 : EditorConfig)
    (rest : List Int) (h : EditorPrompt cb keys E buf = some (r, E1, rest)) :
    ∃ pre c, keys = pre ++ c :: rest ∧ 27 ∉ pre ∧
      (∀ p1 p2, pre = p1 ++ 13 :: p2 → promptTextFrom buf p1 = []) ∧
      ((c = 27 ∧ r = none) ∨
        (c = 13 ∧ r = some (promptTextFrom buf pre) ∧ promptTextFrom buf pre ≠ [])) := by
  induction keys generalizing E buf with
  | nil => simp [EditorPrompt] at h
  | cons c ks ih =>
    have hstep : ∀ (E2 : EditorConfig),
        EditorPrompt cb ks E2 (promptEdit buf c) = some (r, E1, rest) →
        c ≠ 27 → (c = 13 → buf = []) →
        ∃ pre c2, c :: ks = pre ++ c2 :: rest ∧ 27 ∉ pre ∧
          (∀ p1 p2, pre = p1 ++ 13 :: p2 → promptTextFrom buf p1 = []) ∧
          ((c2 = 27 ∧ r = none) ∨
            (c2 = 13 ∧ r = some (promptTextFrom buf pre) ∧ promptTextFrom buf pre ≠ [])) := by
      intro E2 h2 h27 h13
      obtain ⟨pre, c2, hk, hno, hent, hend⟩ := ih E2 (promptEdit buf c) h2
      refine ⟨c :: pre, c2, by rw [hk]; rfl, ?_, ?_, ?_⟩
      · intro hm
        rcases List.mem_cons.1 hm with hm | hm
        · exact h27 hm.symm
        · exact hno hm
      · intro p1 p2 hp
        cases p1 with
        | nil =>
          simp only [List.nil_append, List.cons.injEq] at hp
          exact h13 hp.1
        | cons a p1 =>
          simp only [List.cons_append, List.cons.injEq] at hp
          rw [← hp.1, promptTextFrom_cons]
          exact hent p1 p2 hp.2
      · rw [promptTextFrom_cons]
        exact hend
    rw [EditorPrompt] at h
    simp only [] at h
    by_cases h0 : c = 0
    · simp only [if_pos h0] at h
      have hb : promptEdit buf c = buf := promptEdit_control buf c (Or.inl h0)
      rw [← hb] at h
      exact hstep _ h (by rw [h0]; decide) (by rw [h0]; intro hc; exact absurd hc (by decide))
    · simp only [if_neg h0] at h
      by_cases h27 : c = 27
      · simp only [if_pos h27] at h
        split at h
        · exact Option.noConfusion h
        · rename_i E3 _
          simp only [Option.some.injEq, Prod.mk.injEq] at h
          exact ⟨[], c, by rw [h.2.2]; rfl, List.not_mem_nil _, by
            intro p1 p2 hp; cases p1 <;> simp at hp, Or.inl ⟨h27, h.1.symm⟩⟩
      · simp only [if_neg h27] at h
        have hnb : ¬ (c = 13 ∧ (c = DEL_KEY ∨ c = CTRL_KEY 104 ∨ c = BACKSPACE)) := by
          intro hc
          obtain ⟨hc1, hc2⟩ := hc
          subst hc1
          exact absurd hc2 (by decide)
        by_cases h13 : c = 13 ∧
            (if c = DEL_KEY ∨ c = CTRL_KEY 104 ∨ c = BACKSPACE then buf.dropLast else buf) ≠ []
        · simp only [if_pos h13] at h
          have hbs : ¬ (c = DEL_KEY ∨ c = CTRL_KEY 104 ∨ c = BACKSPACE) := fun hc => hnb ⟨h13.1, hc⟩
          rw [if_neg hbs] at h h13
          split at h
          · exact Option.noConfusion h
          · rename_i E3 _
            simp only [Option.some.injEq, Prod.mk.injEq] at h
            exact ⟨[], c, by rw [h.2.2]; rfl, List.not_mem_nil _, by
              intro p1 p2 hp; cases p1 <;> simp at hp,
              Or.inr ⟨h13.1, h.1.symm, h13.2⟩⟩
        · simp only [if_neg h13] at h
          rw [promptEdit_eq buf c] at h
          split at h
          · exact Option.noConfusion h
          · rename_i E3 _
            refine hstep E3 h h27 ?_
            intro hc
            have hbs : ¬ (c = DEL_KEY ∨ c = CTRL_KEY 104 ∨ c = BACKSPACE) := fun hx => hnb ⟨hc, hx⟩
            rw [if_neg hbs] at h13
            by_contra hne
            exact h13 ⟨hc, hne⟩

/-- With a callback that always returns, the prompt returns once an Escape has
arrived. -/
theorem EditorPrompt_returns
    (cb : Option (EditorConfig → List Nat → Int → Option EditorConfig))
    (hcb : ∀ (E0 : EditorConfig) (b : List Nat) (k : Int), ∃ E1, promptCall cb E0 b k = some E1)
    (keys : List Int) (E : EditorConfig) (buf : List Nat) (hesc : (27 : Int) ∈ keys) :
    ∃ r E1 rest, EditorPrompt cb keys E buf = some (r, E1, rest) := by
  induction keys generalizing E buf with
  | nil => simp at hesc
  | cons c ks ih =>
    rw [EditorPrompt]
    simp only []
    by_cases h0 : c = 0
    · simp only [if_pos h0]
      have : (27 : Int) ∈ ks := by
        rcases List.mem_cons.1 hesc with h | h
        · rw [h0] at h; exact absurd h (by decide)
        · exact h
      exact ih _ _ this
    · simp only [if_neg h0]
      generalize (if c = DEL_KEY ∨ c = CTRL_KEY 104 ∨ c = BACKSPACE then buf.dropLast else buf)
        = buf1
      by_cases h27 : c = 27
      · simp only [if_pos h27]
        obtain ⟨E2, he⟩ := hcb (EditorScroll E) buf1 c
        simp only [he]
        exact ⟨_, _, _, rfl⟩
      · simp only [if_neg h27]
        have hks : (27 : Int) ∈ ks := by
          rcases List.mem_cons.1 hesc with h | h
          · exact absurd h.symm h27
          · exact h
        by_cases h13 : c = 13 ∧ buf1 ≠ []
        · simp only [if_pos h13]
          obtain ⟨E2, he⟩ := hcb (EditorScroll E) buf1 c
          simp only [he]
          exact ⟨_, _, _, rfl⟩
        · simp only [if_neg h13]
          generalize (if c ≠ 13 ∧ iscntrlKey c = false ∧ c < 128
            then buf1 ++ [(c % 256).toNat] else buf1) = buf2
          obtain ⟨E2, he⟩ := hcb (EditorScroll E) buf2 c
          simp only [he]
          exact ih _ _ hks

/-- Decoded keys never put a NUL byte into the text. -/
theorem promptTextFrom_no_nul (keys : List Int) (buf : List Nat)
    (hk : ∀ k ∈ keys, DecodedKey k) (hb : 0 ∉ buf) : 0 ∉ promptTextFrom buf keys := by
  induction keys generalizing buf with
  | nil => exact hb
  | cons c ks ih =>
    rw [promptTextFrom_cons]
    apply ih _ (fun k hk2 => hk k (List.mem_cons_of_mem _ hk2))
    unfold promptEdit
    split
    · intro hm
      exact hb (List.dropLast_subset buf hm)
    · split
      · rename_i hbs ha
        intro hm
        rcases List.mem_append.1 hm with h | h
        · exact hb h
        · have hz : (c % 256).toNat = 0 := by
            have := List.mem_singleton.1 h
            exact this.symm
          have hd := hk c (List.mem_cons_self _ _)
          unfold DecodedKey at hd
          obtain ⟨ha1, ha2⟩ := ha
          simp only [iscntrlKey, Bool.or_eq_false_iff, Bool.and_eq_false_imp, decide_eq_true_eq,
            decide_eq_false_iff_not, beq_eq_false_iff_ne, ne_eq] at ha1
          have h1 := ha1.1
          omega
      · exact hb

/-- C22: for every sequence of keys fed to `EditorPrompt`, with any callback.
Enter on the empty buffer neither returns nor cancels: the prompt goes on with
the keys that follow.  Whenever the prompt returns, the keys consumed are some
keys `pre` that hold no Escape and no Enter arriving at a non-empty text,
followed by one key `c`: either `c` is Escape and the result is `NULL`, or `c` is
Enter and the result is the text after `pre` (each non-control key below 128
appended, the last byte removed on each Backspace, Ctrl-H and Delete), which is
not empty; so `NULL` is returned exactly when Escape arrives before such an
Enter.  For decoded keys the text holds no NUL byte.  With a callback that
always returns, the prompt returns once an Escape has arrived. -/
theorem C22_prompt_returns_edited_text
    (cb : Option (EditorConfig → List Nat → Int → Option EditorConfig)) (keys : List Int)
    (E : EditorConfig) :
    (EditorPrompt cb (13 :: keys) E [] =
      match promptCall cb (EditorScroll E) [] 13 with
      | some E1 => EditorPrompt cb keys E1 []
      | none => none) ∧
    (∀ r E1 rest, EditorPrompt cb keys E [] = some (r, E1, rest) →
      ∃ pre c, keys = pre ++ c :: rest ∧ 27 ∉ pre ∧
        (∀ p1 p2, pre = p1 ++ 13 :: p2 → promptText p1 = []) ∧
        ((c = 27 ∧ r = none) ∨ (c = 13 ∧ r = some (promptText pre) ∧ promptText pre ≠ [])) ∧
        ((∀ k ∈ keys, DecodedKey k) → 0 ∉ promptText pre)) ∧
    ((∀ (E0 : EditorConfig) (b : List Nat) (k : Int), ∃ E1, promptCall cb E0 b k = some E1) →
      (27 : Int) ∈ keys → ∃ r E1 rest, EditorPrompt cb keys E [] = some (r, E1, rest)) := by
  refine ⟨?_, ?_, fun hcb hesc => EditorPrompt_returns cb hcb keys E [] hesc⟩
  · rw [EditorPrompt]
    simp only []
    have h0 : ¬ (13 : Int) = 0 := by decide
    have h27 : ¬ (13 : Int) = 27 := by decide
    have hbs : ¬ ((13 : Int) = DEL_KEY ∨ (13 : Int) = CTRL_KEY 104 ∨ (13 : Int) = BACKSPACE) := by
      decide
    rw [if_neg h0, if_neg h27, if_neg hbs]
    have h13 : ¬ (True ∧ ([] : List Nat) ≠ []) := fun h => h.2 rfl
    have hap : ¬ ((13 : Int) ≠ 13 ∧ iscntrlKey 13 = false ∧ (13 : Int) < 128) := fun h => h.1 rfl
    rw [if_neg h13, if_neg hap]
    cases promptCall cb (EditorScroll E) [] 13 <;> rfl
  · intro r E1 rest h
    obtain ⟨pre, c, hk, hno, hent, hend⟩ := EditorPrompt_result cb keys E [] r E1 rest h
    refine ⟨pre, c, hk, hno, hent, hend, ?_⟩
    intro hdec
    apply promptTextFrom_no_nul pre [] _ (List.not_mem_nil _)
    intro k hkm
    apply hdec
    rw [hk]
    exact List.mem_append_left _ hkm

/-- C22 on the keys Enter, `h`, `i`, `x`, Backspace, Enter, `a` without a
callback: the first Enter is passed over, the prompt returns `hi` at the second
one and leaves the key `a`. -/
theorem C22_prompt_returns_edited_text_witness :
    (match EditorPrompt none [13, 104, 105, 120, 127, 13, 97] (InitEditorConsole 26 80) [] with
      | some r => some (r.1, r.2.2)
      | none => none) = some (some (cstr "hi"), [97]) ∧
    ∃ pre c, ([13, 104, 105, 120, 127, 13, 97] : List Int) = pre ++ c :: [97] ∧
      ((c = 27 ∧ (some (cstr "hi") : Option (List Nat)) = none) ∨
        (c = 13 ∧ some (cstr "hi") = some (promptText pre) ∧ promptText pre ≠ [])) := by
  refine ⟨by decide, ?_⟩
  obtain ⟨r, E1, rest, h⟩ :
      ∃ r E1 rest, EditorPrompt none [13, 104, 105, 120, 127, 13, 97] (InitEditorConsole 26 80) []
        = some (r, E1, rest) := by
    cases hp : EditorPrompt none [13, 104, 105, 120, 127, 13, 97] (InitEditorConsole 26 80) [] with
    | none =>
      have hd : (EditorPrompt none [13, 104, 105, 120, 127, 13, 97]
        (InitEditorConsole 26 80) []).isSome = true := by decide
      rw [hp] at hd
      exact absurd hd (by decide)
    | some x => exact ⟨x.1, x.2.1, x.2.2, rfl⟩
  have hr : (some (r, E1, rest) : Option (Option (List Nat) × EditorConfig × List Int)).map
      (fun x => (x.1, x.2.2)) = some (some (cstr "hi"), [97]) := by
    rw [← h]; decide
  simp only [Option.map_some', Option.some.injEq, Prod.mk.injEq] at hr
  obtain ⟨pre, c, hk, _, _, hend, _⟩ :=
    (C22_prompt_returns_edited_text none [13, 104, 105, 120, 127, 13, 97]
      (InitEditorConsole 26 80)).2.1 r E1 rest h
  rw [hr.1] at hend
  rw [hr.2] at hk
  exact ⟨pre, c, hk, hend⟩

/-! ## Enter followed by Backspace -/

/-- Two index lists that count up from the same number and have the same length
are equal. -/
theorem idxFrom_unique (n : Int) (xs ys : List Int) (hx : idxFrom n xs) (hy : idxFrom n ys)
    (hl : xs.length = ys.length) : xs = ys := by
  induction xs generalizing n ys with
  | nil =>
    cases ys with
    | nil => rfl
    | cons y ys => simp at hl
  | cons x xs ih =>
    cases ys with
    | nil => simp at hl
    | cons y ys =>
      obtain ⟨h1, h2⟩ := hx
      obtain ⟨h3, h4⟩ := hy
      rw [h1, h3, ih (n + 1) ys h2 h4 (by simpa using hl)]

theorem IdxIntegrity_congr (E E2 : EditorConfig)
    (h : E2.line.map line_t.idx = E.line.map line_t.idx) (hi : IdxIntegrity E) :
    IdxIntegrity E2 := by
  rw [IdxIntegrity_iff] at hi ⊢
  rw [h]; exact hi

theorem EditorLineAppendString_idx (E : EditorConfig) (k : Nat) (s : List Nat) :
    (EditorLineAppendString E k s).line.map line_t.idx = E.line.map line_t.idx := by
  unfold EditorLineAppendString
  cases hk : E.line[k]? with
  | none => rfl
  | some line =>
    show (EditorUpdateLine _ _ _ _).map line_t.idx = _
    rw [EditorUpdateLine_idx]
    exact map_set_of_eq line_t.idx E.line k line _ hk rfl

theorem EditorLineDelChar_idx (E : EditorConfig) (k : Nat) (at_ : Int) :
    (EditorLineDelChar E k at_).line.map line_t.idx = E.line.map line_t.idx := by
  unfold EditorLineDelChar
  cases hk : E.line[k]? with
  | none => rfl
  | some line =>
    by_cases hg : at_ < 0 ∨ size_lt at_ line.size = false
    · simp only [if_pos hg]
    · simp only [if_neg hg]
      show (EditorUpdateLine _ _ _ _).map line_t.idx = _
      rw [EditorUpdateLine_idx]
      exact map_set_of_eq line_t.idx E.line k line _ hk rfl

/-- The function `EditorInsertNewLine` keeps `idx == position` on every line. -/
theorem EditorInsertNewLine_IdxIntegrity (E E1 : EditorConfig) (h : IdxIntegrity E)
    (he : EditorInsertNewLine E = some E1) : IdxIntegrity E1 := by
  unfold EditorInsertNewLine at he
  by_cases hx0 : E.cursor.X = 0
  · rw [if_pos hx0] at he
    rw [← Option.some.inj he]
    exact IdxIntegrity_congr (EditorInsertLine E E.cursor.Y []) _ rfl
      (EditorInsertLine_IdxIntegrity E _ _ h)
  · rw [if_neg hx0] at he
    cases hl : E.line[E.cursor.Y.toNat]? with
    | none => rw [hl] at he; exact absurd he (by simp)
    | some line =>
      rw [hl] at he
      by_cases hg : E.cursor.Y < 0 ∨ E.cursor.X < 0 ∨ size_gt E.cursor.X line.size = true
      · simp only [if_pos hg] at he
        exact absurd he (by simp)
      · simp only [if_neg hg] at he
        have hI := EditorInsertLine_IdxIntegrity E (E.cursor.Y + 1)
          (line.bytes.drop E.cursor.X.toNat) h
        generalize EditorInsertLine E (E.cursor.Y + 1) (line.bytes.drop E.cursor.X.toNat) = F
          at he hI
        cases hl1 : F.line[F.cursor.Y.toNat]? with
        | none => rw [hl1] at he; exact absurd he (by simp)
        | some line1 =>
          rw [hl1] at he
          rw [← Option.some.inj he]
          refine IdxIntegrity_congr F _ ?_ hI
          show (EditorUpdateLine _ _ _ _).map line_t.idx = _
          rw [EditorUpdateLine_idx]
          exact map_set_of_eq line_t.idx F.line _ line1 _ hl1 rfl

/-- The function `EditorDelChar` keeps `idx == position` on every line. -/
theorem EditorDelChar_IdxIntegrity (E E1 : EditorConfig) (h : IdxIntegrity E)
    (he : EditorDelChar E = some E1) : IdxIntegrity E1 := by
  unfold EditorDelChar at he
  by_cases h1 : size_eq E.cursor.Y E.linesnum = true
  · rw [if_pos h1] at he
    rw [← Option.some.inj he]; exact h
  · rw [if_neg h1] at he
    by_cases h2 : E.cursor.X = 0 ∧ E.cursor.Y = 0
    · rw [if_pos h2] at he
      rw [← Option.some.inj he]; exact h
    · rw [if_neg h2] at he
      by_cases h3 : size_lt E.cursor.Y E.linesnum = false
      · rw [if_pos h3] at he; exact absurd he (by simp)
      · rw [if_neg h3] at he
        by_cases h4 : E.cursor.X > 0
        · rw [if_pos h4] at he
          rw [← Option.some.inj he]
          exact IdxIntegrity_congr E _ (EditorLineDelChar_idx E _ _) h
        · rw [if_neg h4] at he
          cases hp : E.line[(E.cursor.Y - 1).toNat]? with
          | none => rw [hp] at he; exact absurd he (by simp)
          | some prev =>
            cases hl : E.line[E.cursor.Y.toNat]? with
            | none => rw [hp, hl] at he; exact absurd he (by simp)
            | some line =>
              rw [hp, hl] at he
              by_cases hg : E.cursor.Y - 1 < 0
              · simp only [if_pos hg] at he
                exact absurd he (by simp)
              · simp only [if_neg hg] at he
                rw [← Option.some.inj he]
                have hA : IdxIntegrity (EditorLineAppendString
                    { E with cursor := { E.cursor with X := (prev.size : Int) } }
                    (E.cursor.Y - 1).toNat line.bytes) :=
                  IdxIntegrity_congr E _ (EditorLineAppendString_idx _ _ _) h
                exact IdxIntegrity_congr _ _ rfl (EditorDelLine_IdxIntegrity _ _ hA)

/-- Joining the two halves of a split line and deleting the second half gives
back the document. -/
theorem join_split {α : Type} (T : List (List α)) (y : Nat) (l a b : List α)
    (h : T[y]? = some l) (hab : a ++ b = l) :
    ((T.take y ++ a :: b :: T.drop (y + 1)).set y (a ++ b)).eraseIdx (y + 1) = T := by
  induction T generalizing y with
  | nil => simp at h
  | cons t T ih =>
    cases y with
    | zero =>
      simp at h
      simp [hab, h]
    | succ y =>
      simp at h
      simp only [List.take_succ_cons, List.drop_succ_cons, List.cons_append, List.set_cons_succ,
        List.eraseIdx_cons_succ]
      rw [ih y h]

/-- The function `EditorDelChar` with the cursor at the start of line `y + 1`:
line `y + 1` is appended to line `y` and deleted, the cursor goes to the former
end of line `y`. -/
theorem EditorDelChar_join (E : EditorConfig) (y : Nat) (prev line : line_t)
    (hc : E.cursor = { X := 0, Y := (y : Int) + 1 })
    (hp : E.line[y]? = some prev) (hl : E.line[y + 1]? = some line) :
    ∃ E2, EditorDelChar E = some E2 ∧
      textOf E2 = ((textOf E).set y (prev.bytes ++ line.bytes)).eraseIdx (y + 1) ∧
      E2.cursor = { X := (prev.size : Int), Y := (y : Int) } := by
  have hX : E.cursor.X = 0 := by rw [hc]
  have hY : E.cursor.Y = (y : Int) + 1 := by rw [hc]
  have hlt : y + 1 < E.linesnum := (List.getElem?_eq_some.1 hl).1
  unfold EditorDelChar
  have h1 : ¬ size_eq E.cursor.Y E.linesnum = true := by simp [size_eq, hY]; omega
  have h2 : ¬ (E.cursor.X = 0 ∧ E.cursor.Y = 0) := by rw [hY]; omega
  have h3 : ¬ size_lt E.cursor.Y E.linesnum = false := by simp [size_lt, hY]; omega
  have h4 : ¬ E.cursor.X > 0 := by omega
  have hy1 : (E.cursor.Y - 1).toNat = y := by rw [hY]; omega
  have hy2 : E.cursor.Y.toNat = y + 1 := by rw [hY]; omega
  have hg : ¬ E.cursor.Y - 1 < 0 := by omega
  simp only [if_neg h1, if_neg h2, if_neg h3, if_neg h4, hy1, hy2, hp, hl, if_neg hg]
  have hviewA := EditorLineAppendString_view
    { E with cursor := { E.cursor with X := (prev.size : Int) } } y line.bytes
  have htextA := EditorLineAppendString_text
    { E with cursor := { E.cursor with X := (prev.size : Int) } } y line.bytes prev hp
  have hnA : (EditorLineAppendString
      { E with cursor := { E.cursor with X := (prev.size : Int) } } y line.bytes).linesnum
        = E.linesnum := by
    rw [← textOf_length, htextA, List.length_set]; exact textOf_length E
  generalize hE2 : EditorLineAppendString
      { E with cursor := { E.cursor with X := (prev.size : Int) } } y line.bytes = F
    at hviewA htextA hnA
  have hcF : F.cursor = { X := (prev.size : Int), Y := E.cursor.Y } := hviewA.1
  have hviewD := EditorDelLine_view F F.cursor.Y
  have htextD : textOf (EditorDelLine F F.cursor.Y) = (textOf F).eraseIdx (y + 1) := by
    rw [hcF]; show textOf (EditorDelLine F E.cursor.Y) = _
    rw [hY]; exact EditorDelLine_text F (y + 1) (by rw [hnA]; omega)
  refine ⟨_, rfl, ?_, ?_⟩
  · show textOf (EditorDelLine F F.cursor.Y) = _
    rw [htextD, htextA]
    rfl
  · show ({ (EditorDelLine F F.cursor.Y).cursor with
      Y := (EditorDelLine F F.cursor.Y).cursor.Y - 1 } : COORD) = _
    rw [hviewD.1, hcF]
    show ({ X := (prev.size : Int), Y := E.cursor.Y - 1 } : COORD) = _
    rw [hY]
    congr 1
    omega

/-- C24: in a state with the cursor invariant, the cursor on a real line
(`cursor.Y < linesnum`) and `idx == position` on every line, `EditorInsertNewLine`
followed by `EditorDelChar` (both return) gives a state with the same lines'
bytes, the same line count, the same `idx` on every line and the same cursor as
before the two calls. -/
theorem C24_enter_then_backspace_restores (E : EditorConfig) (hinv : CursorInv E)
    (hy : E.cursor.Y < (E.linesnum : Int)) (hidx : IdxIntegrity E) :
    ∃ E1 E2, EditorInsertNewLine E = some E1 ∧ EditorDelChar E1 = some E2 ∧
      textOf E2 = textOf E ∧ E2.linesnum = E.linesnum ∧
      E2.line.map line_t.idx = E.line.map line_t.idx ∧ E2.cursor = E.cursor := by
  obtain ⟨l, hl, hxs⟩ := CursorInv_row E hinv hy
  obtain ⟨y, hye⟩ : ∃ y : Nat, E.cursor.Y = (y : Int) :=
    ⟨E.cursor.Y.toNat, by have := hinv.1; omega⟩
  obtain ⟨x, hxe⟩ : ∃ x : Nat, E.cursor.X = (x : Int) :=
    ⟨E.cursor.X.toNat, by have := hinv.2.2.1; omega⟩
  have hyt : E.cursor.Y.toNat = y := by rw [hye]; rfl
  rw [hyt] at hl
  have hxl : x ≤ l.size := by omega
  have hylt : y < E.linesnum := by omega
  obtain ⟨E1, he1, hn1, ht1, hc1⟩ := EditorInsertNewLine_split E y x l hye hxe hl hxl
  have hT := textOf_getElem? E y l hl
  obtain ⟨prev, hp⟩ := line_some_of_lt E1 y (by omega)
  obtain ⟨line, hln⟩ := line_some_of_lt E1 (y + 1) (by omega)
  have hTlen : y < (textOf E).length := by rw [textOf_length]; exact hylt
  have hpb : prev.bytes = l.bytes.take x := by
    have h1 := textOf_getElem? E1 y prev hp
    have hlen : (List.take y (textOf E)).length = y := by
      rw [List.length_take]; exact Nat.min_eq_left (Nat.le_of_lt hTlen)
    rw [ht1, List.getElem?_append_right (by rw [hlen]), hlen, Nat.sub_self] at h1
    exact (Option.some.inj h1).symm
  have hlb : line.bytes = l.bytes.drop x := by
    have h1 := textOf_getElem? E1 (y + 1) line hln
    have hlen : (List.take y (textOf E)).length = y := by
      rw [List.length_take]; exact Nat.min_eq_left (Nat.le_of_lt hTlen)
    have h2 : y + 1 - y = 1 := by omega
    rw [ht1, List.getElem?_append_right (by rw [hlen]; omega), hlen, h2,
      List.getElem?_cons_succ, List.getElem?_cons_zero] at h1
    exact (Option.some.inj h1).symm
  obtain ⟨E2, he2, ht2, hc2⟩ := EditorDelChar_join E1 y prev line hc1 hp hln
  have htext : textOf E2 = textOf E := by
    rw [ht2, ht1, hpb, hlb]
    exact join_split (textOf E) y l.bytes _ _ hT (List.take_append_drop x l.bytes)
  have hnum : E2.linesnum = E.linesnum := by
    rw [← textOf_length, htext, textOf_length]
  refine ⟨E1, E2, he1, he2, htext, hnum, ?_, ?_⟩
  · have hI1 := EditorInsertNewLine_IdxIntegrity E E1 hidx he1
    have hI2 := EditorDelChar_IdxIntegrity E1 E2 hI1 he2
    rw [IdxIntegrity_iff] at hidx hI2
    apply idxFrom_unique 0 _ _ hI2 hidx
    simp only [List.length_map]
    exact hnum
  · have hps : (prev.size : Int) = (x : Int) := by
      unfold line_t.size at hxl ⊢
      rw [hpb, List.length_take]
      omega
    rw [hc2, hps, ← hye, ← hxe]

/-- C24 on the document `docTwoMid` (lines `ab` and `c`, cursor between `a` and
`b`): Enter then Backspace gives back the lines `ab` and `c`, two lines with
`idx` 0 and 1, and the cursor at column 1 of line 0. -/
theorem C24_enter_then_backspace_restores_witness :
    ∃ E1 E2, EditorInsertNewLine docTwoMid = some E1 ∧ EditorDelChar E1 = some E2 ∧
      textOf E2 = [cstr "ab", cstr "c"] ∧ E2.linesnum = 2 ∧
      E2.line.map line_t.idx = [0, 1] ∧ E2.cursor = { X := 1, Y := 0 } :=
  C24_enter_then_backspace_restores docTwoMid
    (by unfold CursorInv; decide) (by decide)
    ((IdxIntegrity_iff docTwoMid).2
      (by
        have e : docTwoMid.line.map line_t.idx = [0, 1] := by decide
        rw [e]
        exact ⟨rfl, rfl, trivial⟩))

end WinKilo
